import Mathlib

/-!
WebDAV wire types (`webdav/api/types.go`)

A shallow embedding of the Go package `api`: the status-line predicate
`Prop.StatusOK`, the error renderer `Error.Error`, the XML mapping of `Error`
and of `Multistatus`, and the `Time` codec.  The library routines the package calls
(`regexp`, `strconv.Atoi`, `encoding/xml`, `time.Format`, `time.Parse`) are
embedded as far as the package exercises them.

Go strings are embedded as `List Char`.
-/

set_option autoImplicit false
set_option linter.dupNamespace false
set_option maxRecDepth 100000

namespace api

/-! ## `regexp`: a backtracking matcher with leftmost-first (Perl) priorities -/

/-- The regular expressions of the fragment used by `parseStatus`. -/
inductive Re where
  /-- a literal character -/
  | lit (c : Char)
  /-- a character class, given by its membership test -/
  | cls (p : Char → Bool)
  /-- concatenation -/
  | cat (a b : Re)
  /-- greedy `x*` -/
  | star (a : Re)
  /-- greedy `x+` -/
  | plus (a : Re)
  /-- capturing group number `i` (1-based) -/
  | cap (i : Nat) (a : Re)
  /-- `^` without the `m` flag: beginning of text -/
  | bot
  /-- `$` without the `m` flag: end of text -/
  | eot

/-- One thread of the matcher: the number of characters already consumed, the
text still to read and the text of the groups captured so far (group `i` at
index `i - 1`; a group that did not take part holds the empty string). -/
structure Thread where
  pos : Nat
  rest : List Char
  caps : List (List Char)
deriving DecidableEq, Repr

/-- Iterate `body` greedily: every thread that `body` yields with progress is
iterated further before the current thread is offered; `fuel` bounds the number
of iterations. -/
def starLoop (body : Thread → List Thread) : Nat → Thread → List Thread
  | 0, t => [t]
  | fuel + 1, t =>
    ((body t).filter (fun u => decide (u.rest.length < t.rest.length))).flatMap
      (starLoop body fuel) ++ [t]

/-- All ways for `re` to match at thread `t`, in priority order. -/
def Re.step : Re → Thread → List Thread
  | .lit c, t =>
    match t.rest with
    | x :: r => if x = c then [{ t with pos := t.pos + 1, rest := r }] else []
    | [] => []
  | .cls p, t =>
    match t.rest with
    | x :: r => if p x then [{ t with pos := t.pos + 1, rest := r }] else []
    | [] => []
  | .cat a b, t => (a.step t).flatMap b.step
  | .star a, t => starLoop a.step t.rest.length t
  | .plus a, t => (a.step t).flatMap (fun u => starLoop a.step u.rest.length u)
  | .cap i a, t =>
    (a.step t).map (fun u =>
      { u with caps := u.caps.set (i - 1) (t.rest.take (t.rest.length - u.rest.length)) })
  | .bot, t => if t.pos = 0 then [t] else []
  | .eot, t => if t.rest = [] then [t] else []

/-- The number of capturing groups of `re` (`Regexp.NumSubexp`). -/
def Re.numSubexp : Re → Nat
  | .cat a b => max a.numSubexp b.numSubexp
  | .star a => a.numSubexp
  | .plus a => a.numSubexp
  | .cap i a => max i a.numSubexp
  | _ => 0

/-- Leftmost match: the first start position, scanning from `pos`, at which
`re` matches, with the highest-priority thread there. -/
def Re.search (re : Re) : Nat → List Char → Option (Nat × Thread)
  | pos, [] =>
    match (re.step ⟨pos, [], List.replicate re.numSubexp []⟩).head? with
    | some t => some (pos, t)
    | none => none
  | pos, x :: r =>
    match (re.step ⟨pos, x :: r, List.replicate re.numSubexp []⟩).head? with
    | some t => some (pos, t)
    | none => re.search (pos + 1) r

/-- `Regexp.FindStringSubmatch`: the text of the leftmost match followed by the
text of each group, or the empty slice when there is no match. -/
def Re.FindStringSubmatch (re : Re) (s : List Char) : List (List Char) :=
  match re.search 0 s with
  | none => []
  | some (start, t) => ((s.drop start).take (t.pos - start)) :: t.caps

/-- Perl class `\s` of RE2: `[\t\n\f\r ]`. -/
def isSpace (c : Char) : Bool :=
  c = '\t' || c = '\n' || c = Char.ofNat 12 || c = '\r' || c = ' '

/-- Perl class `\d`: `[0-9]`. -/
def isDigit (c : Char) : Bool := decide ('0' ≤ c) && decide (c ≤ '9')

/-- Class `[0-9.]`. -/
def isVersionChar (c : Char) : Bool := isDigit c || c = '.'

/-- `.` without the `s` flag: any character but line feed. -/
def isAnyNotNL (c : Char) : Bool := c != '\n'

/-- The sequence of literals of a string. -/
def Re.str : List Char → Re → Re
  | [], k => k
  | c :: cs, k => .cat (.lit c) (Re.str cs k)

/-- `parseStatus = regexp.MustCompile("^HTTP/[0-9.]+\s+(\d+)\s+(.*)$")`. -/
def parseStatus : Re :=
  .cat .bot
    (Re.str "HTTP/".toList
      (.cat (.plus (.cls isVersionChar))
        (.cat (.plus (.cls isSpace))
          (.cat (.cap 1 (.plus (.cls isDigit)))
            (.cat (.plus (.cls isSpace))
              (.cat (.cap 2 (.star (.cls isAnyNotNL))) .eot))))))

/-! ## `strconv.Atoi` -/

/-- Size in bits of Go's `int` (`strconv.IntSize`) on 64-bit platforms. -/
def intSize : Nat := 64

/-- Value of a run of decimal digits. -/
def decimalValue (s : List Char) : Nat :=
  s.foldl (fun n c => 10 * n + (c.toNat - '0'.toNat)) 0

/-- The two failures of `strconv` (`ErrSyntax`, `ErrRange`). -/
inductive NumError where
  | syntax_
  | range
deriving DecidableEq, Repr

/-- `strconv.Atoi`: an optional sign, then one or more decimal digits, whose
value has to fit `int`. -/
def Atoi (s : List Char) : Except NumError Int :=
  let neg := s.head? = some '-'
  let body := if s.head? = some '-' ∨ s.head? = some '+' then s.tail else s
  if body = [] then .error .syntax_
  else if !body.all isDigit then .error .syntax_
  else
    let un := decimalValue body
    let cutoff := 2 ^ (intSize - 1)
    if !neg && decide (cutoff ≤ un) then .error .range
    else if neg && decide (cutoff < un) then .error .range
    else .ok (if neg then -(un : Int) else (un : Int))

/-! ## `time`: calendar arithmetic, `Format` and `Parse`

The routines of package `time` behind `Time.Format(time.RFC1123)` and
`time.Parse(time.RFC1123, v)`. -/

/-- Go's `*time.Location`, as the two queries `Format` and `Parse` make of
it: `lookup` gives the abbreviation and the offset (seconds east of UTC) of
the zone in use at a Unix time, `lookupName` the offset of the zone with a
given abbreviation, if the location has one. -/
structure time.Location where
  lookup : Int → List Char × Int
  lookupName : List Char → Int → Option Int

/-- `time.UTC`. -/
def time.UTC : time.Location :=
  ⟨fun _ => ("UTC".toList, 0), fun _ _ => none⟩

/-- `time.FixedZone(name, offset)`. -/
def time.FixedZone (name : List Char) (offset : Int) : time.Location :=
  ⟨fun _ => (name, offset), fun n _ => if n = name then some offset else none⟩

/-- Go's `time.Time`: an instant, as seconds since January 1, 1970 UTC
(`unixSec`) and nanoseconds within the second, and a location. -/
structure time.Time where
  unix : Int
  nsec : Nat
  loc : time.Location

def time.secondsPerMinute : Nat := 60
def time.secondsPerHour : Nat := 60 * time.secondsPerMinute
def time.secondsPerDay : Nat := 24 * time.secondsPerHour
def time.secondsPerWeek : Nat := 7 * time.secondsPerDay
def time.daysPer400Years : Nat := 365 * 400 + 97
def time.daysPer100Years : Nat := 365 * 100 + 24
def time.daysPer4Years : Nat := 365 * 4 + 1

/-- The year of the absolute epoch. -/
def time.absoluteZeroYear : Int := -292277022399

/-- `unixToInternal = (1969*365 + 1969/4 - 1969/100 + 1969/400) * secondsPerDay`. -/
def time.unixToInternal : Int := (1969 * 365 + 1969 / 4 - 1969 / 100 + 1969 / 400) * 86400

/-- `internalToAbsolute = -(absoluteZeroYear - internalYear) * 365.2425 * secondsPerDay`. -/
def time.internalToAbsolute : Int := 292277022400 * 31556952

/-- Conversion to `uint64`. -/
def time.toUint64 (x : Int) : Nat := (x % 2 ^ 64).toNat

/-- Conversion to `int64`. -/
def time.toInt64 (x : Int) : Int := (x + 2 ^ 63) % 2 ^ 64 - 2 ^ 63

/-- `Time.locabs`: the zone abbreviation and offset in use at `t` and the
seconds of `t`'s local time since the absolute epoch. -/
def time.Time.locabs (t : time.Time) : List Char × Int × Nat :=
  ((t.loc.lookup t.unix).1, (t.loc.lookup t.unix).2,
    time.toUint64 (t.unix + (t.loc.lookup t.unix).2 + (time.unixToInternal + time.internalToAbsolute)))

/-- `isLeap`. -/
def time.isLeap (year : Int) : Bool :=
  decide (year % 4 = 0) && (decide (year % 100 ≠ 0) || decide (year % 400 = 0))

/-- `daysBefore[m]`: the days of a non-leap year before month `m + 1`. -/
def time.daysBefore : List Nat :=
  [0, 31, 31 + 28, 31 + 28 + 31, 31 + 28 + 31 + 30, 31 + 28 + 31 + 30 + 31,
   31 + 28 + 31 + 30 + 31 + 30, 31 + 28 + 31 + 30 + 31 + 30 + 31,
   31 + 28 + 31 + 30 + 31 + 30 + 31 + 31, 31 + 28 + 31 + 30 + 31 + 30 + 31 + 31 + 30,
   31 + 28 + 31 + 30 + 31 + 30 + 31 + 31 + 30 + 31,
   31 + 28 + 31 + 30 + 31 + 30 + 31 + 31 + 30 + 31 + 30,
   31 + 28 + 31 + 30 + 31 + 30 + 31 + 31 + 30 + 31 + 30 + 31]

/-- `daysIn`. -/
def time.daysIn (m : Int) (year : Int) : Int :=
  if m = 2 ∧ time.isLeap year = true then 29
  else (time.daysBefore.getD m.toNat 0 : Int) - (time.daysBefore.getD (m.toNat - 1) 0 : Int)

/-- The civil date of a day: year, month (1 to 12), day of the month and day
of the year (from 0). -/
structure time.civil where
  year : Int
  month : Nat
  day : Nat
  yday : Nat
deriving DecidableEq, Repr

/-- `absDate(abs, false)`: the year and the day of the year (from 0) of the
second `abs` since the absolute epoch. -/
def time.absYearDay (abs : Nat) : Int × Nat :=
  -- Split into time and day.
  let d := abs / time.secondsPerDay
  -- Account for 400 year cycles.
  let n := d / time.daysPer400Years
  let y := 400 * n
  let d := d - time.daysPer400Years * n
  -- Cut off 100-year cycles.
  -- The last cycle has one extra leap year, so on the last day of that year,
  -- day / daysPer100Years will be 4 instead of 3. Cut it back down to 3 by subtracting n>>2.
  let n := d / time.daysPer100Years
  let n := n - n >>> 2
  let y := y + 100 * n
  let d := d - time.daysPer100Years * n
  -- Cut off 4-year cycles.
  let n := d / time.daysPer4Years
  let y := y + 4 * n
  let d := d - time.daysPer4Years * n
  -- Cut off years within a 4-year cycle.
  let n := d / 365
  let n := n - n >>> 2
  let y := y + n
  let d := d - 365 * n
  ((y : Int) + time.absoluteZeroYear, d)

/-- The rest of `absDate(abs, true)`: the month (1 to 12) and the day of the
month of day `yday` of a year that is a leap year or not. -/
def time.monthDay (leap : Bool) (yday : Nat) : Nat × Nat :=
  if leap = true ∧ yday = 31 + 29 - 1 then
    -- Leap day.
    (2, 29)
  else
    -- After leap day; pretend it wasn't there.
    let day := if leap = true ∧ yday > 31 + 29 - 1 then yday - 1 else yday
    -- Estimate month on assumption that every month has 31 days.
    -- The estimate may be too low by at most one month, so adjust.
    let month := day / 31
    let end_ := time.daysBefore.getD (month + 1) 0
    if day ≥ end_ then (month + 1 + 1, day - end_ + 1)
    else (month + 1, day - time.daysBefore.getD month 0 + 1)

/-- `absDate(abs, true)`. -/
def time.absDate (abs : Nat) : time.civil :=
  ⟨(time.absYearDay abs).1,
    (time.monthDay (time.isLeap (time.absYearDay abs).1) (time.absYearDay abs).2).1,
    (time.monthDay (time.isLeap (time.absYearDay abs).1) (time.absYearDay abs).2).2,
    (time.absYearDay abs).2⟩

/-- `absClock`. -/
def time.absClock (abs : Nat) : Nat × Nat × Nat :=
  let sec := abs % time.secondsPerDay
  let hour := sec / time.secondsPerHour
  let sec := sec - hour * time.secondsPerHour
  let min := sec / time.secondsPerMinute
  let sec := sec - min * time.secondsPerMinute
  (hour, min, sec)

/-- `absWeekday`: 0 is Sunday. -/
def time.absWeekday (abs : Nat) : Nat :=
  -- January 1 of the absolute year, like January 1 of 2001, was a Monday.
  let sec := ((abs + 1 * time.secondsPerDay) % 2 ^ 64) % time.secondsPerWeek
  sec / time.secondsPerDay

def time.longDayNames : List (List Char) :=
  ["Sunday".toList, "Monday".toList, "Tuesday".toList, "Wednesday".toList, "Thursday".toList,
   "Friday".toList, "Saturday".toList]

def time.shortDayNames : List (List Char) :=
  ["Sun".toList, "Mon".toList, "Tue".toList, "Wed".toList, "Thu".toList, "Fri".toList,
   "Sat".toList]

def time.shortMonthNames : List (List Char) :=
  ["Jan".toList, "Feb".toList, "Mar".toList, "Apr".toList, "May".toList, "Jun".toList,
   "Jul".toList, "Aug".toList, "Sep".toList, "Oct".toList, "Nov".toList, "Dec".toList]

def time.longMonthNames : List (List Char) :=
  ["January".toList, "February".toList, "March".toList, "April".toList, "May".toList,
   "June".toList, "July".toList, "August".toList, "September".toList, "October".toList,
   "November".toList, "December".toList]

/-- The decimal digit `n` as a character. -/
def time.digit (n : Nat) : Char := Char.ofNat ('0'.toNat + n % 10)

/-- `appendInt`: the decimal form of `x`, with a sign if negative, zero-padded
to `width` digits. -/
def time.appendInt (x : Int) (width : Nat) : List Char :=
  let u := x.natAbs
  (if x < 0 then ['-'] else []) ++
    (if width = 2 ∧ u < 100 then [time.digit (u / 10), time.digit u]
     else if width = 4 ∧ u < 10000 then
       [time.digit (u / 100 / 10), time.digit (u / 100), time.digit (u % 100 / 10),
        time.digit (u % 100)]
     else List.replicate (width - (Nat.toDigits 10 u).length) '0' ++ Nat.toDigits 10 u)

/-- The elements of a layout that occur in `RFC1123`. -/
inductive time.Std where
  | stdLongYear
  | stdMonth
  | stdWeekDay
  | stdZeroDay
  | stdHour
  | stdZeroMinute
  | stdZeroSecond
  | stdTZ
deriving DecidableEq, Repr

/-- A layout as `nextStdChunk` splits it: the elements, each with the literal
text before it, and the literal text after the last element. -/
structure time.Layout where
  chunks : List (List Char × time.Std)
  suffix : List Char
deriving DecidableEq, Repr

/-- `time.RFC1123 = "Mon, 02 Jan 2006 15:04:05 MST"`. -/
def time.RFC1123 : time.Layout :=
  ⟨[([], .stdWeekDay), (", ".toList, .stdZeroDay), (" ".toList, .stdMonth),
    (" ".toList, .stdLongYear), (" ".toList, .stdHour), (":".toList, .stdZeroMinute),
    (":".toList, .stdZeroSecond), (" ".toList, .stdTZ)], []⟩

/-- One element of `Time.appendFormat`. -/
def time.appendStd (name : List Char) (offset : Int) (abs : Nat) : time.Std → List Char
  | .stdLongYear => time.appendInt (time.absDate abs).year 4
  | .stdMonth => ((time.longMonthNames.getD ((time.absDate abs).month - 1) []).take 3)
  | .stdWeekDay => ((time.longDayNames.getD (time.absWeekday abs) []).take 3)
  | .stdZeroDay => time.appendInt (time.absDate abs).day 2
  | .stdHour => time.appendInt (time.absClock abs).1 2
  | .stdZeroMinute => time.appendInt (time.absClock abs).2.1 2
  | .stdZeroSecond => time.appendInt (time.absClock abs).2.2 2
  | .stdTZ =>
    -- Ugly special case. We cheat and take the "MST" to mean that the zone should be abbreviated.
    if name ≠ [] then name
    else
      -- No time zone known for this time, but we must print one. Use the -0700 format.
      let zone := Int.tdiv offset 60
      (if zone < 0 then ['-'] else ['+']) ++
        time.appendInt (Int.tdiv (if zone < 0 then -zone else zone) 60) 2 ++
        time.appendInt (Int.tmod (if zone < 0 then -zone else zone) 60) 2

/-- `Time.Format`. -/
def time.Time.Format (t : time.Time) (layout : time.Layout) : List Char :=
  (layout.chunks.flatMap
    (fun c => c.1 ++ time.appendStd t.locabs.1 t.locabs.2.1 t.locabs.2.2 c.2)) ++ layout.suffix

/-- `cutspace`. -/
def time.cutspace (s : List Char) : List Char := s.dropWhile (fun c => c = ' ')

/-- `skip`: remove `pfx` from the front of `value`, a run of spaces of `pfx`
standing for any run of spaces (`cut` holds while such a run is under way);
`none` is `errBad`. -/
def time.skipAux : List Char → List Char → Bool → Option (List Char)
  | [], value, _ => some value
  | c :: pfx, value, cut =>
    if c = ' ' then
      if cut then time.skipAux pfx value true
      else
        match value with
        | [] => time.skipAux pfx [] true
        | v :: r => if v ≠ ' ' then none else time.skipAux pfx (time.cutspace (v :: r)) true
    else
      match value with
      | [] => none
      | v :: r => if v ≠ c then none else time.skipAux pfx r false

def time.skip (value pfx : List Char) : Option (List Char) := time.skipAux pfx value false

/-- `isDigit(s, i)`. -/
def time.isDigitAt (s : List Char) (i : Nat) : Bool :=
  match s.get? i with
  | none => false
  | some c => decide ('0' ≤ c) && decide (c ≤ '9')

/-- `getnum`: a one- or two-digit number, two digits if `fixed`. -/
def time.getnum (s : List Char) (fixed : Bool) : Option (Int × List Char) :=
  match s with
  | [] => none
  | c0 :: r0 =>
    if !time.isDigitAt s 0 then none
    else if !time.isDigitAt s 1 then
      if fixed then none else some (((c0.toNat - '0'.toNat : Nat) : Int), r0)
    else some ((((c0.toNat - '0'.toNat) * 10 + ((r0.headD '0').toNat - '0'.toNat) : Nat) : Int), r0.tail)

/-- `match`: equality of two ASCII strings of one length up to the case of
letters. -/
def time.matchFold : List Char → List Char → Bool
  | c1 :: s1, c2 :: s2 =>
    (if c1 ≠ c2 then
      -- Switch to lower-case; 'a'-'A' is known to be a single bit.
      decide ((c1.toNat ||| 32) = (c2.toNat ||| 32)) && decide ('a'.toNat ≤ (c1.toNat ||| 32)) &&
        decide ((c1.toNat ||| 32) ≤ 'z'.toNat)
    else true) && time.matchFold s1 s2
  | _, _ => true

/-- `lookup`: the index of the first name of `tab` that `val` starts with, up
to case, and the rest of `val`. -/
def time.lookup : List (List Char) → List Char → Nat → Option (Nat × List Char)
  | [], _, _ => none
  | v :: tab, val, i =>
    if v.length ≤ val.length ∧ time.matchFold (val.take v.length) v = true then
      some (i, val.drop v.length)
    else time.lookup tab val (i + 1)

/-- `leadingInt`: the leading decimal digits of `s` and the rest; `none` on
overflow. -/
def time.leadingInt : List Char → Nat → Option (Nat × List Char)
  | [], x => some (x, [])
  | c :: r, x =>
    if c < '0' ∨ c > '9' then some (x, c :: r)
    else if x > 2 ^ 63 / 10 then none
    else if x * 10 + (c.toNat - '0'.toNat) > 2 ^ 63 then none
    else time.leadingInt r (x * 10 + (c.toNat - '0'.toNat))

/-- The `atoi` of package `time`. -/
def time.atoi (s : List Char) : Option Int :=
  let neg := decide (s.head? = some '-')
  let body := if s.head? = some '-' ∨ s.head? = some '+' then s.tail else s
  match time.leadingInt body 0 with
  | none => none
  | some (q, rem) =>
    if rem ≠ [] then none
    else some (if neg then -time.toInt64 q else time.toInt64 q)

/-- `commaOrPeriod`. -/
def time.commaOrPeriod (c : Char) : Bool := c = '.' || c = ','

/-- `parseNanoseconds(value, nbytes)`: the fraction `value[1:nbytes]` scaled to
nanoseconds, with the name of the field if it is out of range. -/
def time.parseNanoseconds (value : List Char) (nbytes : Nat) :
    Option (Int × Option (List Char)) :=
  if !(time.commaOrPeriod (value.headD ' ')) then none
  else
    let value' := if nbytes > 10 then value.take 10 else value
    let nbytes' := if nbytes > 10 then 10 else nbytes
    match time.atoi ((value'.take nbytes').drop 1) with
    | none => none
    | some ns =>
      if ns < 0 then some (ns, some "fractional second".toList)
      else some (ns * 10 ^ (10 - nbytes'), none)

/-- `parseSignedOffset`. -/
def time.parseSignedOffset (value : List Char) : Nat :=
  match value with
  | [] => 0
  | sign :: r =>
    if sign ≠ '-' ∧ sign ≠ '+' then 0
    else
      match time.leadingInt r 0 with
      | none => 0
      | some (x, rem) =>
        -- fail if nothing consumed by leadingInt
        if r = rem then 0
        else if x > 23 then 0
        else value.length - rem.length

/-- `parseGMT`. -/
def time.parseGMT (value : List Char) : Nat :=
  if value.drop 3 = [] then 3 else 3 + time.parseSignedOffset (value.drop 3)

/-- The number of upper-case letters at the front of `value`, at most `max`. -/
def time.countUpper : List Char → Nat → Nat
  | _, 0 => 0
  | [], _ => 0
  | c :: r, max + 1 => if c < 'A' ∨ 'Z' < c then 0 else 1 + time.countUpper r max

/-- `parseTimeZone`: the length of the zone abbreviation at the front of
`value`, if there is one. -/
def time.parseTimeZone (value : List Char) : Option Nat :=
  if value.length < 3 then none
  -- Special case 1: ChST and MeST are the only zones with a lower-case letter.
  else if 4 ≤ value.length ∧ (value.take 4 = "ChST".toList ∨ value.take 4 = "MeST".toList) then
    some 4
  -- Special case 2: GMT may have an hour offset; treat it specially.
  else if value.take 3 = "GMT".toList then some (time.parseGMT value)
  -- Special Case 3: Some time zones are not named, but have +00 or -00 format
  else if value.head? = some '+' ∨ value.head? = some '-' then
    if 0 < time.parseSignedOffset value then some (time.parseSignedOffset value) else none
  else
    -- How many upper-case letters are there? Need at least three, at most five.
    match time.countUpper value 6 with
    | 5 => if value.get? 4 = some 'T' then some 5 else none
    | 4 => if value.get? 3 = some 'T' ∨ value.take 4 = "WITA".toList then some 4 else none
    | 3 => some 3
    | _ => none

/-- The failures of `time.Parse` (`*time.ParseError`): a malformed element,
a value out of range, text after the last element. -/
inductive time.ParseError where
  | bad
  | range (field : List Char)
  | extraText
deriving DecidableEq, Repr

/-- The time under construction in `parse`. -/
structure time.parsed where
  year : Int
  month : Int
  day : Int
  hour : Int
  min : Int
  sec : Int
  nsec : Int
  z : Option time.Location
  zoneName : List Char

/-- One element of `parse`: read the element `std` off the front of `value`. -/
def time.parseStd (std : time.Std) (value : List Char) (p : time.parsed) :
    Except time.ParseError (List Char × time.parsed) :=
  match std with
  | .stdLongYear =>
    if value.length < 4 ∨ !time.isDigitAt value 0 then .error .bad
    else
      match time.atoi (value.take 4) with
      | none => .error .bad
      | some year => .ok (value.drop 4, { p with year := year })
  | .stdMonth =>
    match time.lookup time.shortMonthNames value 0 with
    | none => .error .bad
    | some (month, value) => .ok (value, { p with month := (month : Int) + 1 })
  | .stdWeekDay =>
    -- Ignore weekday except for error checking.
    match time.lookup time.shortDayNames value 0 with
    | none => .error .bad
    | some (_, value) => .ok (value, p)
  | .stdZeroDay =>
    match time.getnum value true with
    | none => .error .bad
    | some (day, value) => .ok (value, { p with day := day })
  | .stdHour =>
    match time.getnum value false with
    | none => .error .bad
    | some (hour, value) =>
      if hour < 0 ∨ 24 ≤ hour then .error (.range "hour".toList)
      else .ok (value, { p with hour := hour })
  | .stdZeroMinute =>
    match time.getnum value true with
    | none => .error .bad
    | some (min, value) =>
      if min < 0 ∨ 60 ≤ min then .error (.range "minute".toList)
      else .ok (value, { p with min := min })
  | .stdZeroSecond =>
    match time.getnum value true with
    | none => .error .bad
    | some (sec, value) =>
      if sec < 0 ∨ 60 ≤ sec then .error (.range "second".toList)
      -- Special case: do we have a fractional second but no fractional second in the format?
      else if 2 ≤ value.length ∧ time.commaOrPeriod (value.headD ' ') = true ∧
          time.isDigitAt value 1 = true then
        let n := 2 + ((value.drop 2).takeWhile (fun c => decide ('0' ≤ c) && decide (c ≤ '9'))).length
        match time.parseNanoseconds value n with
        | none => .error .bad
        | some (_, some field) => .error (.range field)
        | some (nsec, none) => .ok (value.drop n, { p with sec := sec, nsec := nsec })
      else .ok (value, { p with sec := sec })
  | .stdTZ =>
    -- Does it look like a time zone?
    if 3 ≤ value.length ∧ value.take 3 = "UTC".toList then
      .ok (value.drop 3, { p with z := some time.UTC })
    else
      match time.parseTimeZone value with
      | none => .error .bad
      | some n => .ok (value.drop n, { p with zoneName := value.take n })

/-- The loop of `parse` over the elements of the layout. -/
def time.parseChunks :
    List (List Char × time.Std) → List Char → time.parsed →
      Except time.ParseError (List Char × time.parsed)
  | [], value, p => .ok (value, p)
  | (pfx, std) :: rest, value, p =>
    match time.skip value pfx with
    | none => .error .bad
    | some value =>
      match time.parseStd std value p with
      | .error e => .error e
      | .ok (value, p) => time.parseChunks rest value p

/-- `norm`. -/
def time.norm (hi lo base : Int) : Int × Int :=
  let n1 := if lo < 0 then Int.tdiv (-lo - 1) base + 1 else 0
  let hi1 := hi - n1
  let lo1 := lo + n1 * base
  let n2 := if lo1 ≥ base then Int.tdiv lo1 base else 0
  (hi1 + n2, lo1 - n2 * base)

/-- `daysSinceEpoch`. -/
def time.daysSinceEpoch (year : Int) : Nat :=
  let y := time.toUint64 (year - time.absoluteZeroYear)
  -- Add in days from 400-year cycles.
  let n := y / 400
  let y := y - 400 * n
  let d := time.daysPer400Years * n
  -- Add in 100-year cycles.
  let n := y / 100
  let y := y - 100 * n
  let d := d + time.daysPer100Years * n
  -- Add in 4-year cycles.
  let n := y / 4
  let y := y - 4 * n
  let d := d + time.daysPer4Years * n
  -- Add in non-leap years.
  d + 365 * y

/-- `time.Date`. -/
def time.Date (year month day hour min sec nsec : Int) (loc : time.Location) : time.Time :=
  -- Normalize month, overflowing into year.
  let ym := time.norm year (month - 1) 12
  let year := ym.1
  let month := ym.2 + 1
  -- Normalize nsec, sec, min, hour, overflowing into day.
  let sn := time.norm sec nsec 1000000000
  let ms := time.norm min sn.1 60
  let hm := time.norm hour ms.1 60
  let dh := time.norm day hm.1 24
  -- Compute days since the absolute epoch, add in days before this month and before today.
  let d : Int := (time.daysSinceEpoch year : Int) + (time.daysBefore.getD (month - 1).toNat 0 : Int) +
    (if time.isLeap year = true ∧ month ≥ 3 then 1 else 0) + (dh.1 - 1)
  -- Add in time elapsed today.
  let abs := time.toUint64 (d * 86400 + (dh.2 * 3600 + hm.2 * 60 + ms.2))
  let unix := time.toInt64 ((abs : Int) - time.internalToAbsolute - time.unixToInternal)
  -- Look for zone offset for expected time, so we can adjust to UTC.
  let offset := (loc.lookup unix).2
  let unix := if offset ≠ 0 then unix - (loc.lookup (unix - offset)).2 else unix
  ⟨unix, sn.2.toNat, loc⟩

/-- `time.Parse(layout, value)` (`parse` with `UTC` as the default location),
`local` being `time.Local`. -/
def time.Parse (local_ : time.Location) (layout : time.Layout) (value : List Char) :
    Except time.ParseError time.Time :=
  match time.parseChunks layout.chunks value ⟨0, -1, -1, 0, 0, 0, 0, none, []⟩ with
  | .error e => .error e
  | .ok (value, p) =>
    match time.skip value layout.suffix with
    | none => .error .bad
    | some value =>
      if value ≠ [] then .error .extraText
      -- Validate the day of the month.
      else if p.day < 1 ∨ p.day > time.daysIn p.month p.year then
        .error (.range "day".toList)
      else
        match p.z with
        | some z => .ok (time.Date p.year p.month p.day p.hour p.min p.sec p.nsec z)
        | none =>
          if p.zoneName ≠ [] then
            let t := time.Date p.year p.month p.day p.hour p.min p.sec p.nsec time.UTC
            -- Look for local zone with the given offset. If a match is found, use it.
            match local_.lookupName p.zoneName t.unix with
            | some offset => .ok { t with unix := t.unix - offset, loc := local_ }
            | none =>
              -- Otherwise, create fake zone with unknown offset.
              let offset : Int :=
                if 3 < p.zoneName.length ∧ p.zoneName.take 3 = "GMT".toList then
                  (time.atoi (p.zoneName.drop 3)).getD 0 * 3600
                else 0
              .ok { t with loc := time.FixedZone p.zoneName offset }
          else .ok (time.Date p.year p.month p.day p.hour p.min p.sec p.nsec time.UTC)

/-! ## The package's types -/

/-- Go's `xml.Name`. -/
structure xml.Name where
  Space : List Char
  Local : List Char
deriving DecidableEq, Repr

/-- `timeFormat = time.RFC1123`: Wed, 27 Sep 2017 14:28:34 GMT. -/
def timeFormat : time.Layout := time.RFC1123

/-- `Time` represents date and time information for the webdav API,
marshalling to and from `timeFormat` (`type Time time.Time`). -/
structure Time where
  t : time.Time

/-- `Prop` is the properties of a response (named `DavProp` here, `Prop` being
reserved; its field `Type` is named `Typ`). -/
structure DavProp where
  Status : List Char
  Name : List Char
  Typ : xml.Name
  Size : Int
  Modified : Time

/-- `StatusOK` examines the Status and returns an OK flag.  The result is
`none` when the Go code would panic (index out of range). -/
def DavProp.StatusOK (p : DavProp) : Option Bool :=
  let m := parseStatus.FindStringSubmatch p.Status
  if m.length < 3 then some false
  else
    match m.get? 1 with
    | none => none
    | some d =>
      match Atoi d with
      | .error _ => some false
      | .ok code => if 200 ≤ code ∧ code < 300 then some true else some false

/-- Go's `Error`. -/
structure Error where
  Exception : List Char
  Message : List Char
  Status : List Char
  StatusCode : Int
deriving DecidableEq, Repr

/-- `Error` returns a string for the error. -/
def Error.Error (e : Error) : List Char :=
  if e.Message ≠ [] then e.Message
  else if e.Exception ≠ [] then e.Exception
  else if e.Status ≠ [] then e.Status
  else "Webdav Error".toList

/-! ## `encoding/xml`: the decoder, on the stream of tokens

The decoder is embedded from `Decoder.Token` upwards: its input is the
sequence of tokens the tokenizer delivers (names already translated to their
name space).  Loops that read tokens carry a bound `fuel` on the number of
tokens they may read; one more than the number of tokens always suffices. -/

/-- Go's `xml.Attr`. -/
structure xml.Attr where
  Name : xml.Name
  Value : List Char
deriving DecidableEq, Repr

/-- Go's `xml.Token`. -/
inductive xml.Token where
  | StartElement (Name : xml.Name) (Attr : List xml.Attr)
  | EndElement (Name : xml.Name)
  | CharData (data : List Char)
  | Comment (data : List Char)
  | ProcInst (Target Inst : List Char)
  | Directive (data : List Char)
deriving DecidableEq, Repr

/-- The errors of decoding: `io.EOF`, `*xml.SyntaxError` (unexpected EOF, an
end element that closes nothing or the wrong element), `*strconv.NumError`
from `copyValue`; `outOfFuel` is the bound of the embedding, never reached
with enough fuel. -/
inductive xml.DecodeError where
  | EOF
  | SyntaxError
  | NumError (e : NumError)
  | outOfFuel
deriving DecidableEq, Repr

/-- The state of a `xml.Decoder`: the tokens still to come and the stack of
open elements, innermost first. -/
structure xml.Decoder where
  toks : List xml.Token
  stk : List xml.Name
deriving DecidableEq, Repr

/-- `Decoder.Token` (strict mode): deliver the next token, pushing a start
element (`pushElement`) and checking an end element against the innermost open
element (`popElement`). -/
def xml.Decoder.Token (d : xml.Decoder) : Except xml.DecodeError (xml.Token × xml.Decoder) :=
  match d.toks with
  | [] => if d.stk = [] then .error .EOF else .error .SyntaxError
  | .StartElement name attr :: r => .ok (.StartElement name attr, ⟨r, name :: d.stk⟩)
  | .EndElement name :: r =>
    match d.stk with
    | [] => .error .SyntaxError
    | top :: stk => if top = name then .ok (.EndElement name, ⟨r, stk⟩) else .error .SyntaxError
  | t :: r => .ok (t, ⟨r, d.stk⟩)

/-- `Decoder.Skip`: read tokens until the end element that closes the most
recent start element already consumed. -/
def xml.Decoder.Skip : Nat → xml.Decoder → Nat → Except xml.DecodeError xml.Decoder
  | 0, _, _ => .error .outOfFuel
  | fuel + 1, d, depth =>
    match d.Token with
    | .error err => .error err
    | .ok (.StartElement _ _, d) => xml.Decoder.Skip fuel d (depth + 1)
    | .ok (.EndElement _, d) => if depth = 0 then .ok d else xml.Decoder.Skip fuel d (depth - 1)
    | .ok (_, d) => xml.Decoder.Skip fuel d depth

/-- `Decoder.unmarshal` on a value of kind string (or int), its start element
consumed: the loop that finds the end element, saving the character data of
the element itself and skipping its sub-elements.  The value is written (by
`copyValue`) only after the loop. -/
def xml.Decoder.unmarshalData :
    Nat → xml.Decoder → List Char → Except xml.DecodeError (List Char × xml.Decoder)
  | 0, _, _ => .error .outOfFuel
  | fuel + 1, d, data =>
    match d.Token with
    | .error err => .error err
    | .ok (.StartElement _ _, d) =>
      match d.Skip fuel 0 with
      | .error err => .error err
      | .ok d => xml.Decoder.unmarshalData fuel d data
    | .ok (.EndElement _, d) => .ok (data, d)
    | .ok (.CharData t, d) => xml.Decoder.unmarshalData fuel d (data ++ t)
    | .ok (_, d) => xml.Decoder.unmarshalData fuel d data

/-- `unicode.IsSpace`. -/
def unicodeIsSpace (c : Char) : Bool :=
  let n := c.toNat
  (9 ≤ n && n ≤ 13) || n = 32 || n = 0x85 || n = 0xA0 || n = 0x1680 ||
    (0x2000 ≤ n && n ≤ 0x200A) || n = 0x2028 || n = 0x2029 || n = 0x202F || n = 0x205F ||
    n = 0x3000

/-- `strings.TrimSpace`. -/
def TrimSpace (s : List Char) : List Char :=
  ((s.dropWhile unicodeIsSpace).reverse.dropWhile unicodeIsSpace).reverse

/-- `copyValue` into a field of kind `int`: empty data gives 0, otherwise
`strconv.ParseInt(strings.TrimSpace(data), 10, 64)`. -/
def xml.copyValueInt (src : List Char) : Except xml.DecodeError Int :=
  if src = [] then .ok 0
  else
    match Atoi (TrimSpace src) with
    | .error e => .error (.NumError e)
    | .ok n => .ok n

/-- The fields of `Error`. -/
inductive ErrorField where
  | Exception
  | Message
  | Status
  | StatusCode
deriving DecidableEq, Repr

/-- The `fieldInfo` of one field: the name space and name its element has to
carry (an empty name space accepts any). -/
structure xml.fieldInfo where
  field : ErrorField
  xmlns : List Char
  name : List Char
deriving DecidableEq, Repr

/-- The `typeInfo` of `Error`, from its struct tags: `xml:"exception,omitempty"`,
`xml:"message,omitempty"`, and for the two fields without a tag the name of
the field. -/
def Error.typeInfo : List xml.fieldInfo :=
  [⟨.Exception, [], "exception".toList⟩,
   ⟨.Message, [], "message".toList⟩,
   ⟨.Status, [], "Status".toList⟩,
   ⟨.StatusCode, [], "StatusCode".toList⟩]

/-- The field that `unmarshalPath` finds for a start element of `Error`: the
first field whose name is the element's local name and whose name space, if it
names one, is the element's. -/
def Error.fieldFor (name : xml.Name) : Option ErrorField :=
  (Error.typeInfo.find? (fun f =>
    !(decide (f.xmlns ≠ []) && decide (f.xmlns ≠ name.Space)) && decide (f.name = name.Local))).map
    (fun f => f.field)

/-- `Decoder.unmarshal` on a value of type `Error`, its start element consumed:
each sub-element is unmarshalled into the field `unmarshalPath` finds for it,
or skipped.  The first component is the `Error` as the decoder leaves it, also
on failure. -/
def xml.Decoder.unmarshalError :
    Nat → xml.Decoder → Error → Error × Except xml.DecodeError xml.Decoder
  | 0, _, e => (e, .error .outOfFuel)
  | fuel + 1, d, e =>
    match d.Token with
    | .error err => (e, .error err)
    | .ok (.StartElement name _, d) =>
      match Error.fieldFor name with
      | none =>
        match d.Skip fuel 0 with
        | .error err => (e, .error err)
        | .ok d => xml.Decoder.unmarshalError fuel d e
      | some f =>
        match d.unmarshalData fuel [] with
        | .error err => (e, .error err)
        | .ok (data, d) =>
          match f with
          | .Exception => xml.Decoder.unmarshalError fuel d { e with Exception := data }
          | .Message => xml.Decoder.unmarshalError fuel d { e with Message := data }
          | .Status => xml.Decoder.unmarshalError fuel d { e with Status := data }
          | .StatusCode =>
            match xml.copyValueInt data with
            | .error err => (e, .error err)
            | .ok n => xml.Decoder.unmarshalError fuel d { e with StatusCode := n }
    | .ok (.EndElement _, d) => (e, .ok d)
    | .ok (_, d) => xml.Decoder.unmarshalError fuel d e

/-- The loop of `Decoder.unmarshal` that finds the start element. -/
def xml.Decoder.findStart : Nat → xml.Decoder → Except xml.DecodeError xml.Decoder
  | 0, _ => .error .outOfFuel
  | fuel + 1, d =>
    match d.Token with
    | .error err => .error err
    | .ok (.StartElement _ _, d) => .ok d
    | .ok (_, d) => xml.Decoder.findStart fuel d

/-- `xml.Unmarshal(data, &e)` for `e` of type `Error`, on the tokens of `data`:
the `Error` as the call leaves it and the error returned, if any. -/
def Error.Unmarshal (toks : List xml.Token) (e : api.Error) :
    api.Error × Option xml.DecodeError :=
  match xml.Decoder.findStart (toks.length + 1) ⟨toks, []⟩ with
  | .error err => (e, some err)
  | .ok d =>
    match d.unmarshalError (toks.length + 1) e with
    | (e, .error err) => (e, some err)
    | (e, .ok _) => (e, none)

/-! ## The `Time` codec -/

/-- The errors of `Time.UnmarshalXML`: of `DecodeElement` or of `time.Parse`. -/
inductive UnmarshalError where
  | decode (e : xml.DecodeError)
  | parse (e : time.ParseError)
deriving DecidableEq, Repr

/-- `UnmarshalXML` turns XML into a `Time`: the decoder stands behind the
start element; `local_` is `time.Local`.  The first component is `*t` after
the call. -/
def Time.UnmarshalXML (local_ : time.Location) (t : Time) (d : xml.Decoder) :
    Time × Except UnmarshalError xml.Decoder :=
  match d.unmarshalData (d.toks.length + 1) [] with
  | .error err => (t, .error (.decode err))
  | .ok (v, d) =>
    match time.Parse local_ timeFormat v with
    | .error err => (t, .error (.parse err))
    | .ok newT => (⟨newT⟩, .ok d)

/-- `UnmarshalXML` on an element whose content is the text `s`: the `Time`
decoded, or `none` if `UnmarshalXML` returns an error. -/
def Time.unmarshalText (local_ : time.Location) (s : List Char) : Option Time :=
  match Time.UnmarshalXML local_ ⟨⟨0, 0, time.UTC⟩⟩
      ⟨[.CharData s, .EndElement ⟨[], "getlastmodified".toList⟩],
        [⟨[], "getlastmodified".toList⟩]⟩ with
  | (t, .ok _) => some t
  | (_, .error _) => none

/-! ## Specification side of the `Time` codec -/

/-- An ASCII letter. -/
def isLetter (c : Char) : Bool :=
  (decide ('A' ≤ c) && decide (c ≤ 'Z')) || (decide ('a' ≤ c) && decide (c ≤ 'z'))

/-- The text matches "Mon, 02 Jan 2006 15:04:05 MST" exactly: a three-letter
weekday, a comma, a space, a two-digit day, a space, a three-letter month, a
space, a four-digit year, a space, two-digit hour, minute and second separated
by colons, a space and a zone abbreviation (a non-empty run of letters), and
nothing else. -/
def strictTimeFormat (s : List Char) : Bool :=
  match s with
  | w1 :: w2 :: w3 :: ',' :: ' ' :: d1 :: d2 :: ' ' :: m1 :: m2 :: m3 :: ' ' ::
      y1 :: y2 :: y3 :: y4 :: ' ' :: h1 :: h2 :: ':' :: i1 :: i2 :: ':' :: s1 :: s2 :: ' ' ::
      z :: zone =>
    [w1, w2, w3, m1, m2, m3].all isLetter && [d1, d2, y1, y2, y3, y4, h1, h2, i1, i2, s1, s2].all
      isDigit && (z :: zone).all isLetter
  | _ => false

/-- The days of a month. -/
def daysInMonth (leap : Bool) (month : Nat) : Nat :=
  if month = 2 then (if leap then 29 else 28)
  else if month = 4 ∨ month = 6 ∨ month = 9 ∨ month = 11 then 30 else 31

/-- Zeller's congruence: the day of the week (0 is Sunday) of a date of the
Gregorian calendar. -/
def weekdayOfDate (year : Int) (month day : Nat) : Nat :=
  let m : Int := if month < 3 then (month : Int) + 12 else (month : Int)
  let yy : Int := if month < 3 then year - 1 else year
  (((day : Int) + (13 * (m + 1)) / 5 + yy % 100 + (yy % 100) / 4 + (yy / 100) / 4 +
    5 * (yy / 100) + 6) % 7).toNat

/-- Two decimal digits. -/
def twoDigits (n : Nat) : List Char :=
  [Char.ofNat (48 + n / 10 % 10), Char.ofNat (48 + n % 10)]

/-- Four decimal digits. -/
def fourDigits (n : Nat) : List Char :=
  [Char.ofNat (48 + n / 1000 % 10), Char.ofNat (48 + n / 100 % 10),
   Char.ofNat (48 + n / 10 % 10), Char.ofNat (48 + n % 10)]

/-- The zone as RFC 1123 text: the abbreviation, or for a zone without
abbreviation the offset as sign, hours and minutes. -/
def zoneField (name : List Char) (offset : Int) : List Char :=
  if name ≠ [] then name
  else (if offset ≤ -60 then ['-'] else ['+']) ++ twoDigits (offset.natAbs / 3600) ++
    twoDigits (offset.natAbs / 60 % 60)

/-- The RFC 1123 text of a date, a time of day and a zone: weekday (0 is
Sunday), comma, day, month, year, hour, minute and second, zone. -/
def rfc1123Text (weekday day month year hour min sec : Nat) (zone : List Char) : List Char :=
  time.shortDayNames.getD weekday [] ++ ", ".toList ++ twoDigits day ++ " ".toList ++
    time.shortMonthNames.getD (month - 1) [] ++ " ".toList ++ fourDigits year ++ " ".toList ++
    twoDigits hour ++ ":".toList ++ twoDigits min ++ ":".toList ++ twoDigits sec ++
    " ".toList ++ zone

/-- An upper-case ASCII letter. -/
def isUpper (c : Char) : Bool := decide ('A' ≤ c) && decide (c ≤ 'Z')

/-- The lower-case form of an ASCII letter; other characters stay. -/
def lowerASCII (c : Char) : Char :=
  if 'A' ≤ c ∧ c ≤ 'Z' then Char.ofNat (c.toNat + 32) else c

/-- The text `s` is one of the names of `tab`, up to the case of letters. -/
def isNameOf (tab : List (List Char)) (s : List Char) : Prop :=
  ∃ name ∈ tab, s.map lowerASCII = name.map lowerASCII

/-- A non-empty run of spaces. -/
def isSpaces (s : List Char) : Prop := s ≠ [] ∧ ∀ c ∈ s, c = ' '

/-- A run of exactly `n` decimal digits. -/
def isDigitsOfLength (n : Nat) (s : List Char) : Prop :=
  s.length = n ∧ ∀ c ∈ s, isDigit c = true

/-- A sign followed by one or more decimal digits. -/
def isSignedNumber (s : List Char) : Prop :=
  ∃ (sign : Char) (ds : List Char), s = sign :: ds ∧ (sign = '+' ∨ sign = '-') ∧ ds ≠ [] ∧
    ∀ c ∈ ds, isDigit c = true

/-- The zones `time.Parse` reads for the element `MST`: UTC, ChST, MeST, GMT
with or without a signed number, a signed number, three to five upper-case
letters. -/
def isZoneText (z : List Char) : Prop :=
  z = "UTC".toList ∨ z = "ChST".toList ∨ z = "MeST".toList ∨
    (∃ t, z = "GMT".toList ++ t ∧ (t = [] ∨ isSignedNumber t)) ∨ isSignedNumber z ∨
    (3 ≤ z.length ∧ z.length ≤ 5 ∧ ∀ c ∈ z, isUpper c = true)

/-- The texts of the layout "Mon, 02 Jan 2006 15:04:05 MST" as `time.Parse`
reads it: a weekday name in any case, a comma, spaces, a two-digit day,
spaces, a month name in any case, spaces, a four-digit year, spaces, a one- or
two-digit hour, a colon, a two-digit minute, a colon, a two-digit second, an
optional fraction (a period or comma and digits), spaces and a zone. -/
def LenientTimeFormat (s : List Char) : Prop :=
  ∃ wd sp1 dd sp2 mon sp3 yyyy sp4 hh mm ss frac sp5 zone : List Char,
    s = wd ++ (',' :: (sp1 ++ (dd ++ (sp2 ++ (mon ++ (sp3 ++ (yyyy ++ (sp4 ++ (hh ++
      (':' :: (mm ++ (':' :: (ss ++ (frac ++ (sp5 ++ zone))))))))))))))) ∧
    isNameOf time.shortDayNames wd ∧ isSpaces sp1 ∧ isDigitsOfLength 2 dd ∧ isSpaces sp2 ∧
    isNameOf time.shortMonthNames mon ∧ isSpaces sp3 ∧ isDigitsOfLength 4 yyyy ∧ isSpaces sp4 ∧
    (isDigitsOfLength 1 hh ∨ isDigitsOfLength 2 hh) ∧ isDigitsOfLength 2 mm ∧
    isDigitsOfLength 2 ss ∧
    (frac = [] ∨ ∃ (sep : Char) (ds : List Char), frac = sep :: ds ∧ (sep = '.' ∨ sep = ',') ∧
      ds ≠ [] ∧ ∀ c ∈ ds, isDigit c = true) ∧
    isSpaces sp5 ∧ isZoneText zone

/-- Specification side: the names of the child elements of the root element in
a token stream, `depth` being the number of elements open before the first
token (0 at the start of a document). -/
def xml.childStarts : Nat → List xml.Token → List xml.Name
  | _, [] => []
  | depth, .StartElement name _ :: r =>
    (if depth = 1 then [name] else []) ++ xml.childStarts (depth + 1) r
  | depth, .EndElement _ :: r => xml.childStarts (depth - 1) r
  | depth, _ :: r => xml.childStarts depth r

/-- The error body documented with `Error`, as tokens:
`<d:error xmlns:d="DAV:" xmlns:s="http://sabredav.org/ns">`,
`<s:exception>Sabre\DAV\Exception\NotFound</s:exception>`,
`<s:message>File with name Photo could not be located</s:message>`,
`</d:error>`. -/
def sabreErrorBody : List xml.Token :=
  [.StartElement ⟨"DAV:".toList, "error".toList⟩
      [⟨⟨"xmlns".toList, "d".toList⟩, "DAV:".toList⟩,
       ⟨⟨"xmlns".toList, "s".toList⟩, "http://sabredav.org/ns".toList⟩],
   .CharData "\n  ".toList,
   .StartElement ⟨"http://sabredav.org/ns".toList, "exception".toList⟩ [],
   .CharData "Sabre\\DAV\\Exception\\NotFound".toList,
   .EndElement ⟨"http://sabredav.org/ns".toList, "exception".toList⟩,
   .CharData "\n  ".toList,
   .StartElement ⟨"http://sabredav.org/ns".toList, "message".toList⟩ [],
   .CharData "File with name Photo could not be located".toList,
   .EndElement ⟨"http://sabredav.org/ns".toList, "message".toList⟩,
   .CharData "\n".toList,
   .EndElement ⟨"DAV:".toList, "error".toList⟩]

/-! ## Decoding `Multistatus`

`Decoder.unmarshal` and `Decoder.unmarshalPath` work on the `typeInfo` of a
struct type, built from its field tags.  They are embedded once, for any
struct type `S` with fields `F`: `uf` is `Decoder.unmarshal` on the value of a
field.  No field of the package's types is an attribute, character data or
`XMLName`, so the attributes and the name of an element play no part.  The
depth of nested calls of `unmarshal` is at most four here, far from
`maxUnmarshalDepth`. -/

/-- `Response` contains an Href the response is about and its properties. -/
structure Response where
  Href : List Char
  Props : DavProp

/-- `Multistatus` contains responses returned from an HTTP 207 return code. -/
structure Multistatus where
  Responses : List Response

/-- The zero `time.Time`: January 1, year 1, 00:00:00 UTC. -/
def time.Time.zero : time.Time := ⟨-62135596800, 0, time.UTC⟩

/-- The zero value of `Prop`. -/
def DavProp.zero : DavProp := ⟨[], [], ⟨[], []⟩, 0, ⟨time.Time.zero⟩⟩

/-- The zero value of `Response`. -/
def Response.zero : Response := ⟨[], DavProp.zero⟩

/-- The `fieldInfo` of a field that is an element: from the tag
`xml:"ns parent>...>name"` the name space `xmlns` (empty: any), the `parents`
and the `name`. -/
structure xml.pathInfo (F : Type) where
  field : F
  xmlns : List Char
  parents : List (List Char)
  name : List Char

/-- What the loop over the fields in `unmarshalPath` finds for a start element
below the path `parents`. -/
inductive xml.PathStep (F : Type) where
  | noMatch
  | perfect (f : F)
  | descend (parents : List (List Char))
deriving DecidableEq, Repr

/-- The loop over `tinfo.fields` in `unmarshalPath`: the first field whose
name space accepts the element and whose parents start with `parents` decides,
if the element is its perfect match (`perfect`) or the next step of its path
(`descend`, with the path extended by the element). -/
def xml.matchPath {F : Type} :
    List (xml.pathInfo F) → List (List Char) → xml.Name → xml.PathStep F
  | [], _, _ => .noMatch
  | finfo :: rest, parents, start =>
    if finfo.parents.length < parents.length ∨
        (finfo.xmlns ≠ [] ∧ finfo.xmlns ≠ start.Space) then
      xml.matchPath rest parents start
    else if finfo.parents.take parents.length ≠ parents then
      xml.matchPath rest parents start
    else if finfo.parents.length = parents.length ∧ finfo.name = start.Local then
      .perfect finfo.field
    else if parents.length < finfo.parents.length ∧
        finfo.parents.get? parents.length = some start.Local then
      .descend (finfo.parents.take (parents.length + 1))
    else xml.matchPath rest parents start

mutual
/-- `Decoder.unmarshalPath`, the start element `start` consumed: unmarshal it
into the field it matches perfectly, or walk its sub-elements if it is a step
on the path of a field; the flag tells if the element was consumed.  The
first component is the struct as the decoder leaves it, also on failure. -/
def xml.Decoder.unmarshalPath {S F : Type} (fields : List (xml.pathInfo F))
    (uf : F → xml.Name → Nat → xml.Decoder → S → S × Except UnmarshalError xml.Decoder) :
    Nat → xml.Decoder → S → List (List Char) → xml.Name →
      S × Except UnmarshalError (Bool × xml.Decoder)
  | 0, _, s, _, _ => (s, .error (.decode .outOfFuel))
  | fuel + 1, d, s, parents, start =>
    match xml.matchPath fields parents start with
    | .noMatch => (s, .ok (false, d))
    | .perfect f =>
      match uf f start fuel d s with
      | (s, .error err) => (s, .error err)
      | (s, .ok d) => (s, .ok (true, d))
    | .descend parents => xml.Decoder.unmarshalPathLoop fields uf fuel d s parents
/-- The loop of `unmarshalPath` over the sub-elements of a step on a path. -/
def xml.Decoder.unmarshalPathLoop {S F : Type} (fields : List (xml.pathInfo F))
    (uf : F → xml.Name → Nat → xml.Decoder → S → S × Except UnmarshalError xml.Decoder) :
    Nat → xml.Decoder → S → List (List Char) →
      S × Except UnmarshalError (Bool × xml.Decoder)
  | 0, _, s, _ => (s, .error (.decode .outOfFuel))
  | fuel + 1, d, s, parents =>
    match d.Token with
    | .error err => (s, .error (.decode err))
    | .ok (.StartElement name _, d) =>
      match xml.Decoder.unmarshalPath fields uf fuel d s parents name with
      | (s, .error err) => (s, .error err)
      | (s, .ok (true, d)) => xml.Decoder.unmarshalPathLoop fields uf fuel d s parents
      | (s, .ok (false, d)) =>
        match d.Skip fuel 0 with
        | .error err => (s, .error (.decode err))
        | .ok d => xml.Decoder.unmarshalPathLoop fields uf fuel d s parents
    | .ok (.EndElement _, d) => (s, .ok (true, d))
    | .ok (_, d) => xml.Decoder.unmarshalPathLoop fields uf fuel d s parents
end

/-- `Decoder.unmarshal` on a value of a struct type, its start element
consumed: the loop that finds the end element, handing each sub-element to
`unmarshalPath` and skipping it if it was not consumed. -/
def xml.Decoder.unmarshalStruct {S F : Type} (fields : List (xml.pathInfo F))
    (uf : F → xml.Name → Nat → xml.Decoder → S → S × Except UnmarshalError xml.Decoder) :
    Nat → xml.Decoder → S → S × Except UnmarshalError xml.Decoder
  | 0, _, s => (s, .error (.decode .outOfFuel))
  | fuel + 1, d, s =>
    match d.Token with
    | .error err => (s, .error (.decode err))
    | .ok (.StartElement name _, d) =>
      match xml.Decoder.unmarshalPath fields uf fuel d s [] name with
      | (s, .error err) => (s, .error err)
      | (s, .ok (true, d)) => xml.Decoder.unmarshalStruct fields uf fuel d s
      | (s, .ok (false, d)) =>
        match d.Skip fuel 0 with
        | .error err => (s, .error (.decode err))
        | .ok d => xml.Decoder.unmarshalStruct fields uf fuel d s
    | .ok (.EndElement _, d) => (s, .ok d)
    | .ok (_, d) => xml.Decoder.unmarshalStruct fields uf fuel d s

/-- `xml.Unmarshal(data, &s)` for `s` of a struct type, on the tokens of
`data`: the struct as the call leaves it and the error returned, if any.  A
step into an element takes two units of fuel, so twice the number of tokens
and two suffice. -/
def xml.Unmarshal {S F : Type} (fields : List (xml.pathInfo F))
    (uf : F → xml.Name → Nat → xml.Decoder → S → S × Except UnmarshalError xml.Decoder)
    (toks : List xml.Token) (s : S) : S × Option UnmarshalError :=
  match xml.Decoder.findStart (toks.length + 1) ⟨toks, []⟩ with
  | .error err => (s, some (.decode err))
  | .ok d =>
    match d.unmarshalStruct fields uf (2 * toks.length + 2) s with
    | (s, .error err) => (s, some err)
    | (s, .ok _) => (s, none)

/-- The fields of `Prop`. -/
inductive PropField where
  | Status
  | Name
  | Typ
  | Size
  | Modified
deriving DecidableEq, Repr

/-- The `typeInfo` of `Prop`, from its struct tags `xml:"DAV: status"`,
`xml:"DAV: prop>displayname,omitempty"`,
`xml:"DAV: prop>resourcetype>collection,omitempty"`,
`xml:"DAV: prop>getcontentlength,omitempty"` and
`xml:"DAV: prop>getlastmodified,omitempty"`. -/
def DavProp.typeInfo : List (xml.pathInfo PropField) :=
  [⟨.Status, "DAV:".toList, [], "status".toList⟩,
   ⟨.Name, "DAV:".toList, ["prop".toList], "displayname".toList⟩,
   ⟨.Typ, "DAV:".toList, ["prop".toList, "resourcetype".toList], "collection".toList⟩,
   ⟨.Size, "DAV:".toList, ["prop".toList], "getcontentlength".toList⟩,
   ⟨.Modified, "DAV:".toList, ["prop".toList], "getlastmodified".toList⟩]

/-- `Decoder.unmarshal` on a field of `Prop`, the start element `start`
consumed.  A string takes the character data of the element; `Type`, an
`xml.Name`, is set to the name of the start element before the end element is
looked for; `Size` goes through `copyValue`; `Modified` is handed to
`Time.UnmarshalXML`. -/
def DavProp.unmarshalField (local_ : time.Location) (f : PropField) (start : xml.Name)
    (fuel : Nat) (d : xml.Decoder) (p : DavProp) : DavProp × Except UnmarshalError xml.Decoder :=
  match f with
  | .Status =>
    match d.unmarshalData fuel [] with
    | .error err => (p, .error (.decode err))
    | .ok (data, d) => ({ p with Status := data }, .ok d)
  | .Name =>
    match d.unmarshalData fuel [] with
    | .error err => (p, .error (.decode err))
    | .ok (data, d) => ({ p with Name := data }, .ok d)
  | .Typ =>
    match d.unmarshalData fuel [] with
    | .error err => ({ p with Typ := start }, .error (.decode err))
    | .ok (_, d) => ({ p with Typ := start }, .ok d)
  | .Size =>
    match d.unmarshalData fuel [] with
    | .error err => (p, .error (.decode err))
    | .ok (data, d) =>
      match xml.copyValueInt data with
      | .error err => (p, .error (.decode err))
      | .ok n => ({ p with Size := n }, .ok d)
  | .Modified =>
    match Time.UnmarshalXML local_ p.Modified d with
    | (t, .error err) => ({ p with Modified := t }, .error err)
    | (t, .ok d) => ({ p with Modified := t }, .ok d)

/-- The fields of `Response`. -/
inductive ResponseField where
  | Href
  | Props
deriving DecidableEq, Repr

/-- The `typeInfo` of `Response`, from its struct tags `xml:"href"` and
`xml:"propstat"`. -/
def Response.typeInfo : List (xml.pathInfo ResponseField) :=
  [⟨.Href, [], [], "href".toList⟩, ⟨.Props, [], [], "propstat".toList⟩]

/-- `Decoder.unmarshal` on a field of `Response`. -/
def Response.unmarshalField (local_ : time.Location) (f : ResponseField) (_start : xml.Name)
    (fuel : Nat) (d : xml.Decoder) (r : Response) :
    Response × Except UnmarshalError xml.Decoder :=
  match f with
  | .Href =>
    match d.unmarshalData fuel [] with
    | .error err => (r, .error (.decode err))
    | .ok (data, d) => ({ r with Href := data }, .ok d)
  | .Props =>
    match d.unmarshalStruct DavProp.typeInfo (DavProp.unmarshalField local_) fuel r.Props with
    | (p, .error err) => ({ r with Props := p }, .error err)
    | (p, .ok d) => ({ r with Props := p }, .ok d)

/-- The fields of `Multistatus`. -/
inductive MultistatusField where
  | Responses
deriving DecidableEq, Repr

/-- The `typeInfo` of `Multistatus`, from its struct tag `xml:"response"`. -/
def Multistatus.typeInfo : List (xml.pathInfo MultistatusField) :=
  [⟨.Responses, [], [], "response".toList⟩]

/-- `Decoder.unmarshal` on the field `Responses`, a slice: the slice grows by
a zero `Response`, the element is unmarshalled into it, and on an error the
slice is cut back to its length before (`v.SetLen(n)`). -/
def Multistatus.unmarshalField (local_ : time.Location) (f : MultistatusField)
    (_start : xml.Name) (fuel : Nat) (d : xml.Decoder) (ms : Multistatus) :
    Multistatus × Except UnmarshalError xml.Decoder :=
  match f with
  | .Responses =>
    match d.unmarshalStruct Response.typeInfo (Response.unmarshalField local_) fuel
        Response.zero with
    | (_, .error err) => (ms, .error err)
    | (r, .ok d) => (⟨ms.Responses ++ [r]⟩, .ok d)

/-- `xml.Unmarshal(data, &p)` for `p` of type `Prop`; `local_` is `time.Local`. -/
def DavProp.Unmarshal (local_ : time.Location) (toks : List xml.Token) (p : DavProp) :
    DavProp × Option UnmarshalError :=
  xml.Unmarshal DavProp.typeInfo (DavProp.unmarshalField local_) toks p

/-- `xml.Unmarshal(data, &r)` for `r` of type `Response`. -/
def Response.Unmarshal (local_ : time.Location) (toks : List xml.Token) (r : Response) :
    Response × Option UnmarshalError :=
  xml.Unmarshal Response.typeInfo (Response.unmarshalField local_) toks r

/-- `xml.Unmarshal(data, &ms)` for `ms` of type `Multistatus`: the
`Multistatus` as the call leaves it and the error returned, if any. -/
def Multistatus.Unmarshal (local_ : time.Location) (toks : List xml.Token) (ms : Multistatus) :
    Multistatus × Option UnmarshalError :=
  xml.Unmarshal Multistatus.typeInfo (Multistatus.unmarshalField local_) toks ms

/-! ## Specification side of decoding: documents as trees -/

/-- A node of a document: an element with its children, or character data, a
comment, a processing instruction or a directive. -/
inductive xml.Node where
  | element (name : xml.Name) (attr : List xml.Attr) (children : List xml.Node)
  | charData (data : List Char)
  | comment (data : List Char)
  | procInst (target inst : List Char)
  | directive (data : List Char)

mutual
/-- The tokens of a node. -/
def xml.Node.toks : xml.Node → List xml.Token
  | .element name attr children =>
    .StartElement name attr :: (xml.Node.toksList children ++ [.EndElement name])
  | .charData data => [.CharData data]
  | .comment data => [.Comment data]
  | .procInst target inst => [.ProcInst target inst]
  | .directive data => [.Directive data]
/-- The tokens of a sequence of nodes. -/
def xml.Node.toksList : List xml.Node → List xml.Token
  | [] => []
  | n :: ns => n.toks ++ xml.Node.toksList ns
end

/-- The character data directly inside an element with the given children. -/
def xml.Node.text : List xml.Node → List Char
  | [] => []
  | .charData data :: ns => data ++ xml.Node.text ns
  | _ :: ns => xml.Node.text ns

/-- The node is an element. -/
def xml.Node.isElement : xml.Node → Bool
  | .element _ _ _ => true
  | _ => false

/-- The node is an element with the local name `l`, in any name space. -/
def xml.Node.isNamed (l : List Char) : xml.Node → Bool
  | .element name _ _ => decide (name.Local = l)
  | _ => false

/-- The children of a node; none for a node that is not an element. -/
def xml.Node.kids : xml.Node → List xml.Node
  | .element _ _ children => children
  | _ => []

/-- Decoding a struct from the children of its element, on the tree: each
child element is handed to the field it matches perfectly (`ufT`), walked if
it is a step on the path of a field, and passed over otherwise; the first
error ends the decoding. -/
def xml.decodeKids {S F : Type} (fields : List (xml.pathInfo F))
    (ufT : F → xml.Name → List xml.Node → S → S × Option UnmarshalError) :
    List (List Char) → List xml.Node → S → S × Option UnmarshalError
  | _, [], s => (s, none)
  | parents, .element name _ kids :: ns, s =>
    match xml.matchPath fields parents name with
    | .noMatch => xml.decodeKids fields ufT parents ns s
    | .perfect f =>
      match ufT f name kids s with
      | (s, some err) => (s, some err)
      | (s, none) => xml.decodeKids fields ufT parents ns s
    | .descend p =>
      match xml.decodeKids fields ufT p kids s with
      | (s, some err) => (s, some err)
      | (s, none) => xml.decodeKids fields ufT parents ns s
  | parents, _ :: ns, s => xml.decodeKids fields ufT parents ns s

/-- The result of a decoding step on the tree as a result of the decoder that
stands at `d` afterwards. -/
def xml.atDecoder {S : Type} (r : S × Option UnmarshalError) (d : xml.Decoder) :
    S × Except UnmarshalError xml.Decoder :=
  match r with
  | (s, none) => (s, .ok d)
  | (s, some err) => (s, .error err)

/-- The result of a decoding step on the tree as a result of `unmarshalPath`
that consumed its element. -/
def xml.atDecoderConsumed {S : Type} (r : S × Option UnmarshalError) (d : xml.Decoder) :
    S × Except UnmarshalError (Bool × xml.Decoder) :=
  match r with
  | (s, none) => (s, .ok (true, d))
  | (s, some err) => (s, .error err)

/-- Decoding a field of `Prop` from the children `kids` of its element `name`,
on the tree. -/
def DavProp.fieldT (local_ : time.Location) (f : PropField) (name : xml.Name)
    (kids : List xml.Node) (p : DavProp) : DavProp × Option UnmarshalError :=
  match f with
  | .Status => ({ p with Status := xml.Node.text kids }, none)
  | .Name => ({ p with Name := xml.Node.text kids }, none)
  | .Typ => ({ p with Typ := name }, none)
  | .Size =>
    match xml.copyValueInt (xml.Node.text kids) with
    | .error err => (p, some (.decode err))
    | .ok n => ({ p with Size := n }, none)
  | .Modified =>
    match time.Parse local_ timeFormat (xml.Node.text kids) with
    | .error err => (p, some (.parse err))
    | .ok t => ({ p with Modified := ⟨t⟩ }, none)

/-- Decoding a `Prop` from the children of its element, on the tree. -/
def DavProp.decodeT (local_ : time.Location) (kids : List xml.Node) (p : DavProp) :
    DavProp × Option UnmarshalError :=
  xml.decodeKids DavProp.typeInfo (DavProp.fieldT local_) [] kids p

/-- Decoding a field of `Response` from the children of its element, on the
tree. -/
def Response.fieldT (local_ : time.Location) (f : ResponseField) (_name : xml.Name)
    (kids : List xml.Node) (r : Response) : Response × Option UnmarshalError :=
  match f with
  | .Href => ({ r with Href := xml.Node.text kids }, none)
  | .Props =>
    match DavProp.decodeT local_ kids r.Props with
    | (p, err) => ({ r with Props := p }, err)

/-- Decoding a `Response` from the children of its element, on the tree. -/
def Response.decodeT (local_ : time.Location) (kids : List xml.Node) (r : Response) :
    Response × Option UnmarshalError :=
  xml.decodeKids Response.typeInfo (Response.fieldT local_) [] kids r

/-- Decoding the field `Responses` from the children of a `response` element,
on the tree. -/
def Multistatus.fieldT (local_ : time.Location) (f : MultistatusField) (_name : xml.Name)
    (kids : List xml.Node) (ms : Multistatus) : Multistatus × Option UnmarshalError :=
  match f with
  | .Responses =>
    match Response.decodeT local_ kids Response.zero with
    | (_, some err) => (ms, some err)
    | (r, none) => (⟨ms.Responses ++ [r]⟩, none)

/-- Decoding a `Multistatus` from the children of the root, on the tree. -/
def Multistatus.decodeT (local_ : time.Location) (kids : List xml.Node) (ms : Multistatus) :
    Multistatus × Option UnmarshalError :=
  xml.decodeKids Multistatus.typeInfo (Multistatus.fieldT local_) [] kids ms

/-- The text `s` as a whole matches `^HTTP/[0-9.]+\s+(\d+)\s+(.*)$` with first
group `digs` and second group `reason`: it is `HTTP/`, a non-empty run over
`[0-9.]`, a non-empty run of `\s`, the non-empty digit run `digs`, a non-empty
run of `\s` and a rest without line feed. -/
def StatusLineMatch (s digs reason : List Char) : Prop :=
  ∃ ver ws1 ws2 : List Char,
    s = "HTTP/".toList ++ (ver ++ (ws1 ++ (digs ++ (ws2 ++ reason)))) ∧
    ver ≠ [] ∧ (∀ c ∈ ver, isVersionChar c = true) ∧
    ws1 ≠ [] ∧ (∀ c ∈ ws1, isSpace c = true) ∧
    digs ≠ [] ∧ (∀ c ∈ digs, isDigit c = true) ∧
    ws2 ≠ [] ∧ (∀ c ∈ ws2, isSpace c = true) ∧
    (∀ c ∈ reason, c ≠ '\n')

/-! ## Lemmas on the matcher -/

theorem step_cat (a b : Re) (t : Thread) : (Re.cat a b).step t = (a.step t).flatMap b.step := rfl

theorem step_star (a : Re) (t : Thread) :
    (Re.star a).step t = starLoop a.step t.rest.length t := rfl

theorem step_plus (a : Re) (t : Thread) :
    (Re.plus a).step t = (a.step t).flatMap (fun u => starLoop a.step u.rest.length u) := rfl

theorem step_cap (i : Nat) (a : Re) (t : Thread) :
    (Re.cap i a).step t = (a.step t).map (fun u =>
      { u with caps := u.caps.set (i - 1) (t.rest.take (t.rest.length - u.rest.length)) }) := rfl

theorem step_bot (t : Thread) : Re.bot.step t = if t.pos = 0 then [t] else [] := rfl

theorem step_eot (t : Thread) : Re.eot.step t = if t.rest = [] then [t] else [] := rfl

theorem mem_step_lit (c : Char) (t u : Thread) :
    u ∈ (Re.lit c).step t ↔ t.rest = c :: u.rest ∧ u.pos = t.pos + 1 ∧ u.caps = t.caps := by
  obtain ⟨pos, rest, caps⟩ := t
  obtain ⟨upos, urest, ucaps⟩ := u
  cases rest with
  | nil => simp [Re.step]
  | cons x r =>
    by_cases h : x = c
    · simp [Re.step, h]; tauto
    · simp [Re.step, h]

theorem mem_step_cls (p : Char → Bool) (t u : Thread) :
    u ∈ (Re.cls p).step t ↔
      ∃ x, p x = true ∧ t.rest = x :: u.rest ∧ u.pos = t.pos + 1 ∧ u.caps = t.caps := by
  obtain ⟨pos, rest, caps⟩ := t
  obtain ⟨upos, urest, ucaps⟩ := u
  cases rest with
  | nil => simp [Re.step]
  | cons x r =>
    by_cases h : p x = true
    · simp [Re.step, h]
      constructor
      · rintro ⟨rfl, rfl, rfl⟩; exact ⟨x, h, ⟨rfl, rfl⟩, rfl, rfl⟩
      · rintro ⟨y, -, ⟨rfl, rfl⟩, rfl, rfl⟩; exact ⟨rfl, rfl, rfl⟩
    · simp [Re.step, h]
      rintro y hy rfl
      exact absurd hy h

/-- The threads of a greedy iteration of a class: any run of class characters
may be consumed. -/
theorem mem_starLoop_cls (p : Char → Bool) (fuel : Nat) (t u : Thread)
    (hf : t.rest.length ≤ fuel) :
    u ∈ starLoop (Re.cls p).step fuel t ↔
      ∃ a : List Char, (∀ c ∈ a, p c = true) ∧ t.rest = a ++ u.rest ∧
        u.pos = t.pos + a.length ∧ u.caps = t.caps := by
  induction fuel generalizing t with
  | zero =>
    have hnil : t.rest = [] := List.length_eq_zero.mp (Nat.le_zero.mp hf)
    simp only [starLoop, List.mem_singleton]
    constructor
    · rintro rfl; exact ⟨[], by simp, by simp, by simp, rfl⟩
    · rintro ⟨a, -, h1, h2, h3⟩
      rw [hnil] at h1
      have ha : a = [] := (List.append_eq_nil.mp h1.symm).1
      have hu : u.rest = [] := (List.append_eq_nil.mp h1.symm).2
      subst ha
      obtain ⟨pos, rest, caps⟩ := t
      obtain ⟨upos, urest, ucaps⟩ := u
      simp only [List.length_nil, Nat.add_zero] at h2
      simp only at hnil hu h3
      rw [hnil, hu, h2, h3]
  | succ fuel ih =>
    simp only [starLoop, List.mem_append, List.mem_flatMap, List.mem_filter, List.mem_singleton,
      decide_eq_true_eq, mem_step_cls]
    constructor
    · rintro (⟨v, ⟨⟨x, hx, h1, h2, h3⟩, -⟩, hv⟩ | rfl)
      · have hvf : v.rest.length ≤ fuel := by
          rw [h1] at hf; simp at hf; omega
        obtain ⟨a, ha, h4, h5, h6⟩ := (ih v hvf).mp hv
        refine ⟨x :: a, ?_, ?_, ?_, ?_⟩
        · intro c hc
          rcases List.mem_cons.mp hc with rfl | hc
          · exact hx
          · exact ha c hc
        · rw [h1, h4]; rfl
        · rw [h5, h2]; simp; omega
        · rw [h6, h3]
      · exact ⟨[], by simp, by simp, by simp, rfl⟩
    · rintro ⟨a, ha, h1, h2, h3⟩
      cases a with
      | nil =>
        right
        obtain ⟨pos, rest, caps⟩ := t
        obtain ⟨upos, urest, ucaps⟩ := u
        simp_all
      | cons x a =>
        left
        have hvf : (a ++ u.rest).length ≤ fuel := by
          rw [h1] at hf; simp at hf; simp; omega
        refine ⟨⟨t.pos + 1, a ++ u.rest, t.caps⟩, ⟨⟨x, ha x (List.mem_cons_self _ _), ?_, rfl, rfl⟩, ?_⟩,
          (ih _ hvf).mpr ⟨a, fun c hc => ha c (List.mem_cons_of_mem _ hc), rfl, ?_, h3⟩⟩
        · rw [h1]; rfl
        · rw [h1]; simp
        · rw [h2]; simp; omega

theorem mem_step_star_cls (p : Char → Bool) (t u : Thread) :
    u ∈ (Re.star (Re.cls p)).step t ↔
      ∃ a : List Char, (∀ c ∈ a, p c = true) ∧ t.rest = a ++ u.rest ∧
        u.pos = t.pos + a.length ∧ u.caps = t.caps := by
  rw [step_star]
  exact mem_starLoop_cls p _ t u (Nat.le_refl _)

theorem mem_step_plus_cls (p : Char → Bool) (t u : Thread) :
    u ∈ (Re.plus (Re.cls p)).step t ↔
      ∃ a : List Char, a ≠ [] ∧ (∀ c ∈ a, p c = true) ∧ t.rest = a ++ u.rest ∧
        u.pos = t.pos + a.length ∧ u.caps = t.caps := by
  rw [step_plus]
  simp only [List.mem_flatMap, mem_step_cls]
  constructor
  · rintro ⟨v, ⟨x, hx, h1, h2, h3⟩, hv⟩
    obtain ⟨a, ha, h4, h5, h6⟩ := (mem_starLoop_cls p _ v u (Nat.le_refl _)).mp hv
    refine ⟨x :: a, by simp, ?_, ?_, ?_, ?_⟩
    · intro c hc
      rcases List.mem_cons.mp hc with rfl | hc
      · exact hx
      · exact ha c hc
    · rw [h1, h4]; rfl
    · rw [h5, h2]; simp; omega
    · rw [h6, h3]
  · rintro ⟨a, hne, ha, h1, h2, h3⟩
    cases a with
    | nil => exact absurd rfl hne
    | cons x a =>
      refine ⟨⟨t.pos + 1, a ++ u.rest, t.caps⟩, ⟨x, ha x (List.mem_cons_self _ _), ?_, rfl, rfl⟩,
        (mem_starLoop_cls p _ _ u (Nat.le_refl _)).mpr
          ⟨a, fun c hc => ha c (List.mem_cons_of_mem _ hc), rfl, ?_, h3⟩⟩
      · rw [h1]; rfl
      · rw [h2]; simp; omega

theorem mem_step_str (cs : List Char) (k : Re) (t u : Thread) :
    u ∈ (Re.str cs k).step t ↔
      ∃ v : Thread, t.rest = cs ++ v.rest ∧ v.pos = t.pos + cs.length ∧ v.caps = t.caps ∧
        u ∈ k.step v := by
  induction cs generalizing t with
  | nil =>
    constructor
    · intro h; exact ⟨t, rfl, rfl, rfl, h⟩
    · rintro ⟨v, h1, h2, h3, h⟩
      obtain ⟨pos, rest, caps⟩ := t
      obtain ⟨vpos, vrest, vcaps⟩ := v
      simp only [List.nil_append, List.length_nil, Nat.add_zero] at h1 h2 h3
      subst h1 h2 h3
      exact h
  | cons c cs ih =>
    simp only [Re.str, step_cat, List.mem_flatMap, mem_step_lit]
    constructor
    · rintro ⟨w, ⟨h1, h2, h3⟩, hw⟩
      obtain ⟨v, h4, h5, h6, h⟩ := (ih w).mp hw
      refine ⟨v, ?_, ?_, ?_, h⟩
      · rw [h1, h4]; rfl
      · rw [h5, h2]; simp; omega
      · rw [h6, h3]
    · rintro ⟨v, h1, h2, h3, h⟩
      refine ⟨⟨t.pos + 1, cs ++ v.rest, t.caps⟩, ⟨?_, rfl, rfl⟩, (ih _).mpr ⟨v, rfl, ?_, h3, h⟩⟩
      · rw [h1]; rfl
      · rw [h2]; simp; omega

theorem take_append_sub (a b : List Char) :
    (a ++ b).take ((a ++ b).length - b.length) = a := by
  simp

/-- The threads of `parseStatus` started on the whole text: one per way of
splitting the text along the pattern. -/
theorem mem_step_parseStatus (pos : Nat) (s : List Char) (u : Thread) :
    u ∈ parseStatus.step ⟨pos, s, [[], []]⟩ ↔
      pos = 0 ∧ ∃ digs reason, StatusLineMatch s digs reason ∧
        u = ⟨s.length, [], [digs, reason]⟩ := by
  unfold parseStatus
  simp only [step_cat, List.mem_flatMap, mem_step_str, mem_step_plus_cls, step_cap, List.mem_map,
    mem_step_star_cls, step_bot, step_eot]
  constructor
  · rintro ⟨t0, ht0, t1, h1, h2, h3, t2, ⟨ver, hver, hverc, h4, h5, h6⟩,
      t3, ⟨ws1, hws1, hws1c, h7, h8, h9⟩, t4, ⟨t5, ⟨digs, hdigs, hdigsc, h10, h11, h12⟩, rfl⟩,
      t6, ⟨ws2, hws2, hws2c, h13, h14, h15⟩, t7, ⟨t8, ⟨reason, hreason, h16, h17, h18⟩, rfl⟩, hu⟩
    split at ht0
    case isFalse => simp at ht0
    rename_i hpos
    simp only [List.mem_singleton] at ht0
    subst ht0
    simp only at h1 h2 h3 h13 h14 h15 hu
    split at hu
    case isFalse => simp at hu
    rename_i hrest
    simp only [List.mem_singleton] at hu
    refine ⟨hpos, digs, reason, ⟨ver, ws1, ws2, ?_, hver, hverc, hws1, hws1c, hdigs, hdigsc, hws2,
      hws2c, ?_⟩, ?_⟩
    · rw [h1, h4, h7, h10, h13, h16, hrest]; simp
    · intro c hc
      have := hreason c hc
      simpa [isAnyNotNL] using this
    · subst hu
      have e1 : t3.rest.take (t3.rest.length - t5.rest.length) = digs := by
        rw [h10]; exact take_append_sub _ _
      have e2 : t6.rest.take (t6.rest.length - t8.rest.length) = reason := by
        rw [h16]; exact take_append_sub _ _
      rw [e2]
      simp only [Thread.mk.injEq]
      refine ⟨?_, hrest, ?_⟩
      · rw [h17, h14, h11, h8, h5, h2, hpos, h1, h4, h7, h10, h13, h16, hrest]
        simp; omega
      · rw [h18, h15, e1, h12, h9, h6, h3]; rfl
  · rintro ⟨rfl, digs, reason, ⟨ver, ws1, ws2, hs, hver, hverc, hws1, hws1c, hdigs, hdigsc, hws2,
      hws2c, hreason⟩, rfl⟩
    refine ⟨⟨0, s, [[], []]⟩, by simp, ⟨5, ver ++ (ws1 ++ (digs ++ (ws2 ++ reason))), [[], []]⟩,
      hs, rfl, rfl, ⟨5 + ver.length, ws1 ++ (digs ++ (ws2 ++ reason)), [[], []]⟩,
      ⟨ver, hver, hverc, rfl, rfl, rfl⟩,
      ⟨5 + ver.length + ws1.length, digs ++ (ws2 ++ reason), [[], []]⟩,
      ⟨ws1, hws1, hws1c, rfl, rfl, rfl⟩,
      ⟨5 + ver.length + ws1.length + digs.length, ws2 ++ reason, [digs, []]⟩,
      ⟨⟨5 + ver.length + ws1.length + digs.length, ws2 ++ reason, [[], []]⟩,
        ⟨digs, hdigs, hdigsc, rfl, rfl, rfl⟩, ?_⟩,
      ⟨5 + ver.length + ws1.length + digs.length + ws2.length, reason, [digs, []]⟩,
      ⟨ws2, hws2, hws2c, rfl, rfl, rfl⟩,
      ⟨s.length, [], [digs, reason]⟩,
      ⟨⟨5 + ver.length + ws1.length + digs.length + ws2.length + reason.length, [], [digs, []]⟩,
        ⟨reason, ?_, by simp, rfl, rfl⟩, ?_⟩, by simp⟩
    · simp
    · intro c hc
      have := hreason c hc
      simpa [isAnyNotNL] using this
    · simp only [Thread.mk.injEq]
      refine ⟨?_, trivial, ?_⟩
      · rw [hs]; simp; omega
      · simp

theorem isSpace_cases (c : Char) (h : isSpace c = true) :
    c = '\t' ∨ c = '\n' ∨ c = Char.ofNat 12 ∨ c = '\r' ∨ c = ' ' := by
  simpa [isSpace, or_assoc] using h

theorem isDigit_of_isSpace (c : Char) (h : isSpace c = true) : isDigit c = false := by
  rcases isSpace_cases c h with rfl | rfl | rfl | rfl | rfl <;> decide

theorem isVersionChar_of_isSpace (c : Char) (h : isSpace c = true) :
    isVersionChar c = false := by
  rcases isSpace_cases c h with rfl | rfl | rfl | rfl | rfl <;> decide

theorem isSpace_of_isDigit (c : Char) (h : isDigit c = true) : isSpace c = false := by
  cases hs : isSpace c with
  | false => rfl
  | true => rw [isDigit_of_isSpace c hs] at h; exact absurd h (by decide)

/-- A maximal run is determined by the text: two splits of one text into a run
over `p` followed by a rest that does not start with a `p` character agree. -/
theorem run_unique (p : Char → Bool) (a a' b b' : List Char)
    (ha : ∀ c ∈ a, p c = true) (ha' : ∀ c ∈ a', p c = true)
    (hb : ∀ x ∈ b.head?, p x = false) (hb' : ∀ x ∈ b'.head?, p x = false)
    (h : a ++ b = a' ++ b') : a = a' ∧ b = b' := by
  induction a generalizing a' with
  | nil =>
    cases a' with
    | nil => exact ⟨rfl, h⟩
    | cons x a' =>
      exfalso
      simp only [List.nil_append] at h
      have h1 := hb x (by rw [h]; simp)
      have h2 := ha' x (List.mem_cons_self _ _)
      rw [h1] at h2; exact absurd h2 (by decide)
  | cons x a ih =>
    cases a' with
    | nil =>
      exfalso
      simp only [List.nil_append] at h
      have h1 := hb' x (by rw [← h]; simp)
      have h2 := ha x (List.mem_cons_self _ _)
      rw [h1] at h2; exact absurd h2 (by decide)
    | cons y a' =>
      simp only [List.cons_append, List.cons.injEq] at h
      obtain ⟨rfl, h⟩ := h
      obtain ⟨rfl, hbb⟩ := ih a' (fun c hc => ha c (List.mem_cons_of_mem _ hc))
        (fun c hc => ha' c (List.mem_cons_of_mem _ hc)) h
      exact ⟨rfl, hbb⟩

theorem head?_append_ne_nil (a b : List Char) (h : a ≠ []) (q : Char → Prop)
    (ha : ∀ c ∈ a, q c) : ∀ x ∈ (a ++ b).head?, q x := by
  cases a with
  | nil => exact absurd rfl h
  | cons y a =>
    intro x hx
    simp only [List.cons_append, List.head?_cons, Option.mem_def, Option.some.injEq] at hx
    subst hx
    exact ha _ (List.mem_cons_self _ _)

/-- Two splits of one text into a version run, a whitespace run, a digit run
and a tail that starts with no digit agree on the digit run and on the tail. -/
theorem form_unique (ver ws1 d tl ver' ws1' d' tl' : List Char)
    (hverc : ∀ c ∈ ver, isVersionChar c = true) (hverc' : ∀ c ∈ ver', isVersionChar c = true)
    (hws1 : ws1 ≠ []) (hws1' : ws1' ≠ [])
    (hws1c : ∀ c ∈ ws1, isSpace c = true) (hws1c' : ∀ c ∈ ws1', isSpace c = true)
    (hd : d ≠ []) (hd' : d' ≠ [])
    (hdc : ∀ c ∈ d, isDigit c = true) (hdc' : ∀ c ∈ d', isDigit c = true)
    (htl : ∀ x ∈ tl.head?, isDigit x = false) (htl' : ∀ x ∈ tl'.head?, isDigit x = false)
    (h : ver ++ (ws1 ++ (d ++ tl)) = ver' ++ (ws1' ++ (d' ++ tl'))) : d = d' ∧ tl = tl' := by
  obtain ⟨-, e1⟩ := run_unique isVersionChar ver ver' _ _ hverc hverc'
    (head?_append_ne_nil ws1 _ hws1 _ (fun c hc => isVersionChar_of_isSpace c (hws1c c hc)))
    (head?_append_ne_nil ws1' _ hws1' _ (fun c hc => isVersionChar_of_isSpace c (hws1c' c hc)))
    h
  obtain ⟨-, e2⟩ := run_unique isSpace ws1 ws1' _ _ hws1c hws1c'
    (head?_append_ne_nil d _ hd _ (fun c hc => isSpace_of_isDigit c (hdc c hc)))
    (head?_append_ne_nil d' _ hd' _ (fun c hc => isSpace_of_isDigit c (hdc' c hc)))
    e1
  exact run_unique isDigit d d' _ _ hdc hdc' htl htl' e2

/-- The first group is determined by the text. -/
theorem StatusLineMatch.digs_unique {s d r d' r' : List Char}
    (h : StatusLineMatch s d r) (h' : StatusLineMatch s d' r') : d = d' := by
  obtain ⟨ver, ws1, ws2, hs, -, hverc, hws1, hws1c, hd, hdc, hws2, hws2c, -⟩ := h
  obtain ⟨ver', ws1', ws2', hs', -, hverc', hws1', hws1c', hd', hdc', hws2', hws2c', -⟩ := h'
  rw [hs] at hs'
  exact (form_unique ver ws1 d _ ver' ws1' d' _ hverc hverc' hws1 hws1' hws1c hws1c' hd hd'
    hdc hdc'
    (head?_append_ne_nil ws2 _ hws2 _ (fun c hc => isDigit_of_isSpace c (hws2c c hc)))
    (head?_append_ne_nil ws2' _ hws2' _ (fun c hc => isDigit_of_isSpace c (hws2c' c hc)))
    (List.append_cancel_left hs')).1

theorem step_parseStatus_eq_nil (pos : Nat) (s : List Char) (h : 0 < pos) :
    parseStatus.step ⟨pos, s, [[], []]⟩ = [] := by
  apply List.eq_nil_iff_forall_not_mem.mpr
  intro u hu
  have := ((mem_step_parseStatus pos s u).mp hu).1
  omega

theorem search_parseStatus_pos (s : List Char) (pos : Nat) (h : 0 < pos) :
    parseStatus.search pos s = none := by
  have : List.replicate parseStatus.numSubexp ([] : List Char) = [[], []] := rfl
  induction s generalizing pos with
  | nil =>
    simp only [Re.search]
    rw [this, step_parseStatus_eq_nil pos _ h]; rfl
  | cons x s ih =>
    simp only [Re.search]
    rw [this, step_parseStatus_eq_nil pos _ h]
    exact ih (pos + 1) (Nat.succ_pos _)

/-- `FindStringSubmatch` on a text the pattern matches: the whole text, the
digit run and some reason phrase. -/
theorem findStringSubmatch_of_match {s d r : List Char} (h : StatusLineMatch s d r) :
    ∃ r', StatusLineMatch s d r' ∧ parseStatus.FindStringSubmatch s = [s, d, r'] := by
  have hmem : (⟨s.length, [], [d, r]⟩ : Thread) ∈ parseStatus.step ⟨0, s, [[], []]⟩ :=
    (mem_step_parseStatus 0 s _).mpr ⟨rfl, d, r, h, rfl⟩
  cases hl : parseStatus.step ⟨0, s, [[], []]⟩ with
  | nil => rw [hl] at hmem; simp at hmem
  | cons t l =>
    have ht : t ∈ parseStatus.step ⟨0, s, [[], []]⟩ := by rw [hl]; exact List.mem_cons_self _ _
    obtain ⟨-, d', r', h', rfl⟩ := (mem_step_parseStatus 0 s t).mp ht
    have hd : d' = d := h'.digs_unique h
    subst hd
    refine ⟨r', h', ?_⟩
    have : List.replicate parseStatus.numSubexp ([] : List Char) = [[], []] := rfl
    have hs : parseStatus.search 0 s = some (0, ⟨s.length, [], [d', r']⟩) := by
      cases s with
      | nil => simp only [Re.search]; rw [this, hl]; rfl
      | cons x s => simp only [Re.search]; rw [this, hl]; rfl
    unfold Re.FindStringSubmatch
    rw [hs]
    simp

/-- `FindStringSubmatch` on a text the pattern does not match: the empty slice. -/
theorem findStringSubmatch_of_no_match {s : List Char}
    (h : ¬ ∃ d r, StatusLineMatch s d r) : parseStatus.FindStringSubmatch s = [] := by
  have hl : parseStatus.step ⟨0, s, [[], []]⟩ = [] := by
    apply List.eq_nil_iff_forall_not_mem.mpr
    intro u hu
    obtain ⟨-, d, r, h', -⟩ := (mem_step_parseStatus 0 s u).mp hu
    exact h ⟨d, r, h'⟩
  unfold Re.FindStringSubmatch
  have : List.replicate parseStatus.numSubexp ([] : List Char) = [[], []] := rfl
  cases s with
  | nil => simp only [Re.search]; rw [this, hl]; rfl
  | cons x s =>
    simp only [Re.search]; rw [this, hl]
    simp only [List.head?_nil]
    rw [search_parseStatus_pos s 1 (by omega)]

/-! ## Lemmas on `Atoi` and `StatusOK` -/

/-- `Atoi` on a non-empty digit run: its value, unless that does not fit `int`. -/
theorem Atoi_digits (d : List Char) (hne : d ≠ []) (hd : ∀ c ∈ d, isDigit c = true) :
    Atoi d = if 2 ^ 63 ≤ decimalValue d then .error .range else .ok (decimalValue d : Int) := by
  cases d with
  | nil => exact absurd rfl hne
  | cons x d =>
    have hx : isDigit x = true := hd x (List.mem_cons_self _ _)
    have h1 : x ≠ '-' := by rintro rfl; exact absurd hx (by decide)
    have h2 : x ≠ '+' := by rintro rfl; exact absurd hx (by decide)
    have hall : (x :: d).all isDigit = true := List.all_eq_true.mpr hd
    unfold Atoi
    simp only [List.head?_cons, Option.some.injEq, h1, h2, or_self, if_false, hall,
      decide_False, Bool.not_false, Bool.true_and, Bool.false_and, Bool.not_true,
      reduceCtorEq, intSize]
    simp

/-- `StatusOK` on a text the pattern matches. -/
theorem statusOK_of_match (p : DavProp) {d r : List Char} (h : StatusLineMatch p.Status d r) :
    p.StatusOK = some (decide (200 ≤ decimalValue d ∧ decimalValue d < 300)) := by
  obtain ⟨r', h', hf⟩ := findStringSubmatch_of_match h
  have hd := h
  obtain ⟨_, _, _, _, _, _, _, _, hne, hdc, _⟩ := hd
  unfold DavProp.StatusOK
  rw [hf]
  simp only [List.length_cons, List.length_nil, List.get?_cons_succ, List.get?_cons_zero]
  rw [Atoi_digits d hne hdc]
  have hlen : ¬ (0 + 1 + 1 + 1 < 3) := by omega
  rw [if_neg hlen]
  by_cases hbig : 2 ^ 63 ≤ decimalValue d
  · have : ¬ (200 ≤ decimalValue d ∧ decimalValue d < 300) := by omega
    rw [if_pos hbig, decide_eq_false this]
  · rw [if_neg hbig]
    by_cases hr : 200 ≤ decimalValue d ∧ decimalValue d < 300
    · have : (200 : Int) ≤ (decimalValue d : Int) ∧ (decimalValue d : Int) < 300 := by omega
      simp only [if_pos this, decide_eq_true hr]
    · have : ¬ ((200 : Int) ≤ (decimalValue d : Int) ∧ (decimalValue d : Int) < 300) := by omega
      simp only [if_neg this, decide_eq_false hr]

/-- `StatusOK` on a text the pattern does not match. -/
theorem statusOK_of_no_match (p : DavProp) (h : ¬ ∃ d r, StatusLineMatch p.Status d r) :
    p.StatusOK = some false := by
  unfold DavProp.StatusOK
  rw [findStringSubmatch_of_no_match h]
  rfl

/-! ## The claims on `StatusOK` and `Error` -/

/-- C1: `StatusOK` returns true if and only if the Status as a whole matches
the status-line pattern and the decimal value of the first group lies in
[200, 300); it is true for "HTTP/1.1 200 OK" and false for
"HTTP/1.1 404 Not Found". -/
theorem statusOK_iff_match_in_range :
    (∀ p : DavProp, p.StatusOK = some true ↔
      ∃ digs reason, StatusLineMatch p.Status digs reason ∧
        200 ≤ decimalValue digs ∧ decimalValue digs < 300) ∧
    (∀ p : DavProp, p.Status = "HTTP/1.1 200 OK".toList → p.StatusOK = some true) ∧
    (∀ p : DavProp, p.Status = "HTTP/1.1 404 Not Found".toList → p.StatusOK = some false) := by
  refine ⟨fun p => ⟨fun h => ?_, ?_⟩, fun p hp => ?_, fun p hp => ?_⟩
  · by_cases hm : ∃ d r, StatusLineMatch p.Status d r
    · obtain ⟨d, r, hm⟩ := hm
      rw [statusOK_of_match p hm] at h
      exact ⟨d, r, hm, of_decide_eq_true (Option.some.inj h)⟩
    · rw [statusOK_of_no_match p hm] at h
      exact absurd (Option.some.inj h) (by decide)
  · rintro ⟨d, r, hm, hr⟩
    rw [statusOK_of_match p hm, decide_eq_true hr]
  · unfold DavProp.StatusOK; rw [hp]; decide
  · unfold DavProp.StatusOK; rw [hp]; decide

/-- C2: `Error()` returns Message if that is non-empty, otherwise Exception if
that is non-empty, otherwise Status if that is non-empty, otherwise
"Webdav Error"; the result does not depend on StatusCode. -/
theorem error_priority_order (e : Error) :
    (e.Message ≠ [] → e.Error = e.Message) ∧
    (e.Message = [] → e.Exception ≠ [] → e.Error = e.Exception) ∧
    (e.Message = [] → e.Exception = [] → e.Status ≠ [] → e.Error = e.Status) ∧
    (e.Message = [] → e.Exception = [] → e.Status = [] → e.Error = "Webdav Error".toList) ∧
    (∀ code : Int, ({ e with StatusCode := code } : Error).Error = e.Error) := by
  refine ⟨fun h => ?_, fun h1 h2 => ?_, fun h1 h2 h3 => ?_, fun h1 h2 h3 => ?_, fun code => rfl⟩
  · simp [Error.Error, h]
  · simp [Error.Error, h1, h2]
  · simp [Error.Error, h1, h2, h3]
  · simp [Error.Error, h1, h2, h3]

/-- C7: `StatusOK` never panics: it returns a boolean for every Status; it
returns false when the pattern does not match ("garbage", the empty string)
and when the digit run does not fit an `int`; whenever the slice returned by
`FindStringSubmatch` has at least three entries, index 1 is in range. -/
theorem statusOK_total :
    (∀ p : DavProp, p.StatusOK = some true ∨ p.StatusOK = some false) ∧
    (∀ p : DavProp, (¬ ∃ d r, StatusLineMatch p.Status d r) → p.StatusOK = some false) ∧
    (∀ (p : DavProp) (d r : List Char), StatusLineMatch p.Status d r →
      2 ^ (intSize - 1) ≤ decimalValue d → p.StatusOK = some false) ∧
    (∀ p : DavProp, p.Status = "garbage".toList → p.StatusOK = some false) ∧
    (∀ p : DavProp, p.Status = [] → p.StatusOK = some false) ∧
    (∀ p : DavProp, p.Status = "HTTP/1.1 99999999999999999999 OK".toList →
      p.StatusOK = some false) ∧
    (∀ s : List Char, 3 ≤ (parseStatus.FindStringSubmatch s).length →
      ∃ d, (parseStatus.FindStringSubmatch s).get? 1 = some d) := by
  refine ⟨fun p => ?_, fun p h => statusOK_of_no_match p h, fun p d r hm hbig => ?_,
    fun p hp => ?_, fun p hp => ?_, fun p hp => ?_, fun s hs => ?_⟩
  · by_cases hm : ∃ d r, StatusLineMatch p.Status d r
    · obtain ⟨d, r, hm⟩ := hm
      rw [statusOK_of_match p hm]
      by_cases hr : 200 ≤ decimalValue d ∧ decimalValue d < 300
      · left; rw [decide_eq_true hr]
      · right; rw [decide_eq_false hr]
    · right; exact statusOK_of_no_match p hm
  · have hbig' : 2 ^ 63 ≤ decimalValue d := hbig
    have : ¬ (200 ≤ decimalValue d ∧ decimalValue d < 300) := by omega
    rw [statusOK_of_match p hm, decide_eq_false this]
  · unfold DavProp.StatusOK; rw [hp]; decide
  · unfold DavProp.StatusOK; rw [hp]; decide
  · unfold DavProp.StatusOK; rw [hp]; decide
  · cases hl : parseStatus.FindStringSubmatch s with
    | nil => rw [hl] at hs; simp at hs
    | cons a l =>
      cases l with
      | nil => rw [hl] at hs; simp at hs
      | cons b l => exact ⟨b, rfl⟩

/-- C8, as stated, fails: the Status "HTTP/1.1 200 O\nK" has the form
`HTTP/` + version + whitespace + digits + whitespace + reason with digits 200,
yet `StatusOK` returns false, the reason "O\nK" holding a line feed that `.`
does not match. -/
theorem statusOK_false_on_line_feed_in_reason :
    (∀ p : DavProp, p.Status = "HTTP/1.1 200 O\nK".toList → p.StatusOK = some false) ∧
    "HTTP/1.1 200 O\nK".toList =
      "HTTP/".toList ++ ("1.1".toList ++ (" ".toList ++ ("200".toList ++
        (" ".toList ++ "O\nK".toList)))) ∧
    (∀ c ∈ "1.1".toList, isVersionChar c = true) ∧ (∀ c ∈ " ".toList, isSpace c = true) ∧
    (∀ c ∈ "200".toList, isDigit c = true) ∧
    200 ≤ decimalValue "200".toList ∧ decimalValue "200".toList < 300 := by
  refine ⟨fun p hp => ?_, by decide, by decide, by decide, by decide, by decide, by decide⟩
  unfold DavProp.StatusOK; rw [hp]; decide

/-- C8, amended: for a Status of the form `HTTP/` + version + whitespace +
digits + whitespace + reason, `StatusOK` returns true exactly when the value
of digits is in [200, 300) and the reason, after its leading whitespace,
holds no line feed; apart from line feeds the reason is arbitrary. -/
theorem statusOK_of_form (p : DavProp) (ver ws1 digs ws2 reason : List Char)
    (hver : ver ≠ []) (hverc : ∀ c ∈ ver, isVersionChar c = true)
    (hws1 : ws1 ≠ []) (hws1c : ∀ c ∈ ws1, isSpace c = true)
    (hdigs : digs ≠ []) (hdigsc : ∀ c ∈ digs, isDigit c = true)
    (hws2 : ws2 ≠ []) (hws2c : ∀ c ∈ ws2, isSpace c = true)
    (hs : p.Status = "HTTP/".toList ++ (ver ++ (ws1 ++ (digs ++ (ws2 ++ reason))))) :
    p.StatusOK = some true ↔
      (200 ≤ decimalValue digs ∧ decimalValue digs < 300) ∧
        ∀ c ∈ reason.dropWhile isSpace, c ≠ '\n' := by
  constructor
  · intro h
    by_cases hm : ∃ d r, StatusLineMatch p.Status d r
    · obtain ⟨d, r, hm⟩ := hm
      rw [statusOK_of_match p hm] at h
      have hr := of_decide_eq_true (Option.some.inj h)
      obtain ⟨ver', ws1', ws2', hs', -, hverc', hws1', hws1c', hd', hdc', hws2', hws2c', hrc⟩ := hm
      rw [hs] at hs'
      obtain ⟨e1, e2⟩ := form_unique ver ws1 digs _ ver' ws1' d _ hverc hverc' hws1 hws1' hws1c
        hws1c' hdigs hd' hdigsc hdc'
        (head?_append_ne_nil ws2 _ hws2 _ (fun c hc => isDigit_of_isSpace c (hws2c c hc)))
        (head?_append_ne_nil ws2' _ hws2' _ (fun c hc => isDigit_of_isSpace c (hws2c' c hc)))
        (List.append_cancel_left hs')
      subst e1
      refine ⟨hr, fun c hc => ?_⟩
      have e3 : reason.dropWhile isSpace = r.dropWhile isSpace := by
        rw [← List.dropWhile_append_of_pos hws2c, e2, List.dropWhile_append_of_pos hws2c']
      rw [e3] at hc
      exact hrc c (List.dropWhile_subset isSpace hc)
    · rw [statusOK_of_no_match p hm] at h
      exact absurd (Option.some.inj h) (by decide)
  · rintro ⟨hr, hnl⟩
    have hm : StatusLineMatch p.Status digs (reason.dropWhile isSpace) := by
      refine ⟨ver, ws1, ws2 ++ reason.takeWhile isSpace, ?_, hver, hverc, hws1, hws1c, hdigs,
        hdigsc, ?_, ?_, hnl⟩
      · rw [hs, List.append_assoc ws2, List.takeWhile_append_dropWhile]
      · intro h; exact hws2 (List.append_eq_nil.mp h).1
      · intro c hc
        rcases List.mem_append.mp hc with hc | hc
        · exact hws2c c hc
        · exact (List.mem_takeWhile_imp hc)
    rw [statusOK_of_match p hm, decide_eq_true hr]

/-- Witness of C8, amended, on "HTTP/1.1 204 No Content". -/
theorem statusOK_of_form_witness :
    (⟨"HTTP/1.1 204 No Content".toList, [], ⟨[], []⟩, 0, ⟨⟨0, 0, time.UTC⟩⟩⟩ : DavProp).StatusOK =
        some true ↔
      (200 ≤ decimalValue "204".toList ∧ decimalValue "204".toList < 300) ∧
        ∀ c ∈ "No Content".toList.dropWhile isSpace, c ≠ '\n' :=
  statusOK_of_form ⟨"HTTP/1.1 204 No Content".toList, [], ⟨[], []⟩, 0, ⟨⟨0, 0, time.UTC⟩⟩⟩
    "1.1".toList " ".toList "204".toList " ".toList "No Content".toList
    (by decide) (by decide) (by decide) (by decide) (by decide) (by decide) (by decide)
    (by decide) (by decide)

/-! ## The claims on decoding `Error` -/

theorem token_toks {d d' : xml.Decoder} {t : xml.Token} (h : d.Token = .ok (t, d')) :
    d.toks = t :: d'.toks := by
  obtain ⟨toks, stk⟩ := d
  unfold xml.Decoder.Token at h
  cases toks with
  | nil =>
    simp only at h
    split at h <;> cases h
  | cons x r =>
    cases x with
    | EndElement name =>
      cases stk with
      | nil => cases h
      | cons top stk =>
        simp only at h
        split at h
        · cases h; rfl
        · cases h
    | _ => cases h; rfl

theorem skip_children (fuel : Nat) (d d' : xml.Decoder) (k base : Nat) (hb : 1 ≤ base)
    (h : d.Skip fuel k = .ok d') :
    ∀ n ∈ xml.childStarts base d'.toks, n ∈ xml.childStarts (base + k + 1) d.toks := by
  induction fuel generalizing d k with
  | zero => cases h
  | succ fuel ih =>
    unfold xml.Decoder.Skip at h
    cases ht : d.Token with
    | error err => rw [ht] at h; cases h
    | ok r =>
      obtain ⟨t, d1⟩ := r
      rw [ht] at h
      have htoks := token_toks ht
      intro n hn
      rw [htoks]
      cases t with
      | StartElement name attr =>
        have := ih d1 (k + 1) h n hn
        have hne : ¬ (base + k + 1 = 1) := by omega
        simp only [xml.childStarts, if_neg hne, List.nil_append]
        exact this
      | EndElement name =>
        simp only at h
        split at h
        · rename_i hk
          cases h
          subst hk
          simpa [xml.childStarts] using hn
        · have := ih d1 (k - 1) h n hn
          have e : base + k + 1 - 1 = base + (k - 1) + 1 := by omega
          simp only [xml.childStarts, e]
          exact this
      | CharData data => simpa [xml.childStarts] using ih d1 k h n hn
      | Comment data => simpa [xml.childStarts] using ih d1 k h n hn
      | ProcInst a b => simpa [xml.childStarts] using ih d1 k h n hn
      | Directive data => simpa [xml.childStarts] using ih d1 k h n hn

theorem unmarshalData_children (fuel : Nat) (d d' : xml.Decoder) (data s : List Char)
    (h : d.unmarshalData fuel data = .ok (s, d')) :
    ∀ n ∈ xml.childStarts 1 d'.toks, n ∈ xml.childStarts 2 d.toks := by
  induction fuel generalizing d data with
  | zero => cases h
  | succ fuel ih =>
    unfold xml.Decoder.unmarshalData at h
    cases ht : d.Token with
    | error err => rw [ht] at h; cases h
    | ok r =>
      obtain ⟨t, d1⟩ := r
      rw [ht] at h
      have htoks := token_toks ht
      intro n hn
      rw [htoks]
      cases t with
      | StartElement name attr =>
        simp only at h
        cases hs : d1.Skip fuel 0 with
        | error err => rw [hs] at h; cases h
        | ok d2 =>
          rw [hs] at h
          have h1 := ih d2 _ h n hn
          have h2 := skip_children fuel d1 d2 0 2 (by omega) hs n h1
          simpa [xml.childStarts] using h2
      | EndElement name =>
        cases h
        simpa [xml.childStarts] using hn
      | CharData t => simpa [xml.childStarts] using ih d1 _ h n hn
      | Comment t => simpa [xml.childStarts] using ih d1 _ h n hn
      | ProcInst a b => simpa [xml.childStarts] using ih d1 _ h n hn
      | Directive t => simpa [xml.childStarts] using ih d1 _ h n hn

theorem fieldFor_status {name : xml.Name} (h : Error.fieldFor name = some .Status) :
    name.Local = "Status".toList := by
  unfold Error.fieldFor Error.typeInfo at h
  simp only [List.find?, ne_eq, not_true_eq_false, decide_False, Bool.false_and, Bool.not_false,
    Bool.true_and] at h
  split at h
  · cases h
  · split at h
    · cases h
    · split at h
      · rename_i hh; exact (of_decide_eq_true hh).symm
      · split at h <;> cases h

theorem fieldFor_statusCode {name : xml.Name} (h : Error.fieldFor name = some .StatusCode) :
    name.Local = "StatusCode".toList := by
  unfold Error.fieldFor Error.typeInfo at h
  simp only [List.find?, ne_eq, not_true_eq_false, decide_False, Bool.false_and, Bool.not_false,
    Bool.true_and] at h
  split at h
  · cases h
  · split at h
    · cases h
    · split at h
      · cases h
      · split at h
        · rename_i hh; exact (of_decide_eq_true hh).symm
        · cases h

theorem unmarshalError_frame (fuel : Nat) (d : xml.Decoder) (e : Error)
    (h : ∀ n ∈ xml.childStarts 1 d.toks,
      n.Local ≠ "Status".toList ∧ n.Local ≠ "StatusCode".toList) :
    (d.unmarshalError fuel e).1.Status = e.Status ∧
      (d.unmarshalError fuel e).1.StatusCode = e.StatusCode := by
  induction fuel generalizing d e with
  | zero => exact ⟨rfl, rfl⟩
  | succ fuel ih =>
    unfold xml.Decoder.unmarshalError
    cases ht : d.Token with
    | error err => exact ⟨rfl, rfl⟩
    | ok r =>
      obtain ⟨t, d1⟩ := r
      have htoks := token_toks ht
      rw [htoks] at h
      cases t with
      | StartElement name attr =>
        simp only [xml.childStarts, if_true, List.singleton_append, List.mem_cons,
          forall_eq_or_imp] at h
        obtain ⟨hname, h⟩ := h
        simp only
        cases hf : Error.fieldFor name with
        | none =>
          simp only
          cases hs : d1.Skip fuel 0 with
          | error err => exact ⟨rfl, rfl⟩
          | ok d2 =>
            exact ih d2 e (fun n hn => h n (skip_children fuel d1 d2 0 1 (by omega) hs n hn))
        | some f =>
          simp only
          cases hs : d1.unmarshalData fuel [] with
          | error err => exact ⟨rfl, rfl⟩
          | ok r2 =>
            obtain ⟨data, d2⟩ := r2
            have h2 : ∀ n ∈ xml.childStarts 1 d2.toks,
                n.Local ≠ "Status".toList ∧ n.Local ≠ "StatusCode".toList :=
              fun n hn => h n (unmarshalData_children fuel d1 d2 [] data hs n hn)
            cases f with
            | Exception => exact ih d2 _ h2
            | Message => exact ih d2 _ h2
            | Status => exact absurd (fieldFor_status hf) hname.1
            | StatusCode => exact absurd (fieldFor_statusCode hf) hname.2
      | EndElement name => exact ⟨rfl, rfl⟩
      | CharData t => exact ih d1 e (by simpa [xml.childStarts] using h)
      | Comment t => exact ih d1 e (by simpa [xml.childStarts] using h)
      | ProcInst a b => exact ih d1 e (by simpa [xml.childStarts] using h)
      | Directive t => exact ih d1 e (by simpa [xml.childStarts] using h)

theorem findStart_children (fuel : Nat) (d d' : xml.Decoder)
    (h : d.findStart fuel = .ok d') :
    ∀ n ∈ xml.childStarts 1 d'.toks, n ∈ xml.childStarts 0 d.toks := by
  induction fuel generalizing d with
  | zero => cases h
  | succ fuel ih =>
    unfold xml.Decoder.findStart at h
    cases ht : d.Token with
    | error err => rw [ht] at h; cases h
    | ok r =>
      obtain ⟨t, d1⟩ := r
      rw [ht] at h
      have htoks := token_toks ht
      intro n hn
      rw [htoks]
      cases t with
      | StartElement name attr =>
        cases h
        simpa [xml.childStarts] using hn
      | EndElement name => simpa [xml.childStarts] using ih d1 h n hn
      | CharData t => simpa [xml.childStarts] using ih d1 h n hn
      | Comment t => simpa [xml.childStarts] using ih d1 h n hn
      | ProcInst a b => simpa [xml.childStarts] using ih d1 h n hn
      | Directive t => simpa [xml.childStarts] using ih d1 h n hn

/-- C10, as stated, fails: `<error><Status>x</Status></error>` decoded into
an `Error` with empty Status leaves Status "x", and
`<error><StatusCode>7</StatusCode></error>` leaves StatusCode 7: the two fields
carry no `xml:"-"` tag and are matched by their field names. -/
theorem unmarshal_sets_status_from_xml :
    Error.Unmarshal
      [.StartElement ⟨[], "error".toList⟩ [], .StartElement ⟨[], "Status".toList⟩ [],
       .CharData "x".toList, .EndElement ⟨[], "Status".toList⟩,
       .EndElement ⟨[], "error".toList⟩] ⟨[], [], [], 0⟩ = (⟨[], [], "x".toList, 0⟩, none) ∧
    Error.Unmarshal
      [.StartElement ⟨[], "error".toList⟩ [], .StartElement ⟨[], "StatusCode".toList⟩ [],
       .CharData "7".toList, .EndElement ⟨[], "StatusCode".toList⟩,
       .EndElement ⟨[], "error".toList⟩] ⟨[], [], [], 0⟩ = (⟨[], [], [], 7⟩, none) := by
  constructor <;> decide

/-- C10, amended: decoding an error document none of whose root's child
elements has the local name `Status` or `StatusCode` leaves the Status and
StatusCode of the target as they were, whether decoding succeeds or fails;
on such documents only Exception and Message can be set by the decoder. -/
theorem unmarshal_keeps_status (toks : List xml.Token) (e : Error)
    (h : ∀ n ∈ xml.childStarts 0 toks,
      n.Local ≠ "Status".toList ∧ n.Local ≠ "StatusCode".toList) :
    (Error.Unmarshal toks e).1.Status = e.Status ∧
      (Error.Unmarshal toks e).1.StatusCode = e.StatusCode := by
  unfold Error.Unmarshal
  cases hs : xml.Decoder.findStart (toks.length + 1) ⟨toks, []⟩ with
  | error err => exact ⟨rfl, rfl⟩
  | ok d =>
    have h1 := unmarshalError_frame (toks.length + 1) d e
      (fun n hn => h n (findStart_children _ _ d hs n hn))
    simp only
    cases hr : d.unmarshalError (toks.length + 1) e with
    | mk e' r =>
      rw [hr] at h1
      cases r with
      | error err => exact h1
      | ok d' => exact h1

/-- Witness of C10, amended, on the documented SabreDAV body. -/
theorem unmarshal_keeps_status_witness :
    (∀ n ∈ xml.childStarts 0 sabreErrorBody,
      n.Local ≠ "Status".toList ∧ n.Local ≠ "StatusCode".toList) ∧
    (Error.Unmarshal sabreErrorBody ⟨[], [], "HTTP/1.1 404 Not Found".toList, 404⟩).1.Status =
      "HTTP/1.1 404 Not Found".toList ∧
    (Error.Unmarshal sabreErrorBody ⟨[], [], "HTTP/1.1 404 Not Found".toList, 404⟩).1.StatusCode =
      404 :=
  ⟨by decide, unmarshal_keeps_status sabreErrorBody _ (by decide)⟩

/-! ## The claims on the `Time` codec: counterexamples -/

/-- C5, as stated, fails: `UnmarshalXML` accepts texts that do not match the
format exactly: a fractional second, a one-digit hour, names in another case,
runs of several spaces. -/
theorem unmarshal_accepts_inexact_texts :
    (strictTimeFormat "Wed, 27 Sep 2017 14:28:34.123 UTC".toList = false ∧
      (Time.unmarshalText time.UTC "Wed, 27 Sep 2017 14:28:34.123 UTC".toList).map
        (fun t => (t.t.unix, t.t.nsec)) = some (1506522514, 123000000)) ∧
    (strictTimeFormat "Wed, 27 Sep 2017 4:28:34 UTC".toList = false ∧
      (Time.unmarshalText time.UTC "Wed, 27 Sep 2017 4:28:34 UTC".toList).map
        (fun t => (t.t.unix, t.t.nsec)) = some (1506486514, 0)) ∧
    (strictTimeFormat "WED,   27 sep 2017 14:28:34   UTC".toList = false ∧
      (Time.unmarshalText time.UTC "WED,   27 sep 2017 14:28:34   UTC".toList).map
        (fun t => (t.t.unix, t.t.nsec)) = some (1506522514, 0)) ∧
    strictTimeFormat "Wed, 27 Sep 2017 14:28:34 UTC".toList = true := by
  refine ⟨⟨by decide, by decide⟩, ⟨by decide, by decide⟩, ⟨by decide, by decide⟩, by decide⟩

/-! ## Lemmas on the calendar -/

/-- The arithmetic of the year cycles of `absDate`. -/
theorem cycles_arith (d n400 d1 q100 n100 d2 n4 d3 q1 n1 yday y : Nat)
    (h1 : n400 = d / 146097) (h2 : d1 = d - 146097 * n400)
    (h3 : q100 = d1 / 36524) (h4 : n100 = q100 - q100 / 4) (h5 : d2 = d1 - 36524 * n100)
    (h6 : n4 = d2 / 1461) (h7 : d3 = d2 - 1461 * n4)
    (h8 : q1 = d3 / 365) (h9 : n1 = q1 - q1 / 4) (h10 : yday = d3 - 365 * n1)
    (h11 : y = 400 * n400 + 100 * n100 + 4 * n4 + n1) :
    365 * y + y / 4 - y / 100 + y / 400 + yday = d ∧
      (yday < 365 ∨ (yday = 365 ∧ (y + 1) % 4 = 0 ∧ ((y + 1) % 100 ≠ 0 ∨ (y + 1) % 400 = 0))) := by
  have a1 : d = 146097 * n400 + d1 ∧ d1 < 146097 := by omega
  have a2 : n100 ≤ 3 ∧ d1 = 36524 * n100 + d2 ∧ d2 ≤ 36524 ∧ (d2 = 36524 → n100 = 3) := by omega
  have a3 : n4 ≤ 24 ∧ d2 = 1461 * n4 + d3 ∧ d3 < 1461 ∧ (n4 = 24 → n100 < 3 → d3 < 1460) := by
    omega
  have a4 : n1 ≤ 3 ∧ d3 = 365 * n1 + yday ∧ yday ≤ 365 ∧ (yday = 365 → n1 = 3) := by omega
  clear h1 h2 h3 h4 h5 h6 h7 h8 h9 h10
  have b1 : y / 400 = n400 := by omega
  have b2 : y / 100 = 4 * n400 + n100 := by omega
  have b3 : y / 4 = 100 * n400 + 25 * n100 + n4 := by omega
  constructor
  · omega
  · omega

/-- The year and day of year that `absDate` finds: `y` years and `yday` days
after the absolute epoch, day `yday` existing in year `y`. -/
theorem absYearDay_spec (abs : Nat) :
    ∃ y yday : Nat, time.absYearDay abs = ((y : Int) + time.absoluteZeroYear, yday) ∧
      365 * y + y / 4 - y / 100 + y / 400 + yday = abs / 86400 ∧
      (yday < 365 ∨ (yday = 365 ∧ (y + 1) % 4 = 0 ∧ ((y + 1) % 100 ≠ 0 ∨ (y + 1) % 400 = 0))) := by
  refine ⟨_, _, rfl, ?_⟩
  simp only [time.secondsPerDay, time.secondsPerHour, time.secondsPerMinute,
    time.daysPer400Years, time.daysPer100Years, time.daysPer4Years, Nat.shiftRight_eq_div_pow]
  exact cycles_arith (abs / 86400) _ _ _ _ _ _ _ _ _ _ _ rfl rfl rfl rfl rfl rfl rfl rfl rfl rfl rfl
theorem isLeap_absolute (y : Nat) :
    time.isLeap ((y : Int) + time.absoluteZeroYear) =
      decide ((y + 1) % 4 = 0 ∧ ((y + 1) % 100 ≠ 0 ∨ (y + 1) % 400 = 0)) := by
  unfold time.isLeap time.absoluteZeroYear
  have e4 : ((y : Int) + -292277022399) % 4 = 0 ↔ (y + 1) % 4 = 0 := by omega
  have e100 : ((y : Int) + -292277022399) % 100 = 0 ↔ (y + 1) % 100 = 0 := by omega
  have e400 : ((y : Int) + -292277022399) % 400 = 0 ↔ (y + 1) % 400 = 0 := by omega
  by_cases h4 : (y + 1) % 4 = 0 <;> by_cases h100 : (y + 1) % 100 = 0 <;>
    by_cases h400 : (y + 1) % 400 = 0 <;>
    simp [e4, e100, e400, h4, h100, h400]

theorem monthDay_spec :
    ∀ leap : Bool, ∀ yday < 366, (yday < 365 ∨ leap = true) →
      1 ≤ (time.monthDay leap yday).1 ∧ (time.monthDay leap yday).1 ≤ 12 ∧
      1 ≤ (time.monthDay leap yday).2 ∧
      (time.monthDay leap yday).2 ≤ daysInMonth leap (time.monthDay leap yday).1 ∧
      time.daysBefore.getD ((time.monthDay leap yday).1 - 1) 0 +
        (if leap = true ∧ 3 ≤ (time.monthDay leap yday).1 then 1 else 0) +
        ((time.monthDay leap yday).2 - 1) = yday := by
  decide

theorem daysSinceEpoch_absolute (y : Nat) (hy : y < 2 ^ 64) :
    time.daysSinceEpoch ((y : Int) + time.absoluteZeroYear) =
      365 * y + y / 4 - y / 100 + y / 400 := by
  unfold time.daysSinceEpoch
  have e : time.toUint64 ((y : Int) + time.absoluteZeroYear - time.absoluteZeroYear) = y := by
    unfold time.toUint64
    have : ((y : Int) + time.absoluteZeroYear - time.absoluteZeroYear) = (y : Int) := by ring
    rw [this]
    omega
  simp only [e, time.daysPer400Years, time.daysPer100Years, time.daysPer4Years]
  omega
theorem zeller_year (t : Nat) :
    ((t : Int) - 292277022400) % 100 = ((t % 100 : Nat) : Int) ∧
    ((t : Int) - 292277022400) / 100 = ((t / 100 : Nat) : Int) - 2922770224 ∧
    (((t : Int) - 292277022400) % 100) / 4 = ((t % 100 / 4 : Nat) : Int) ∧
    (((t : Int) - 292277022400) / 100) / 4 = ((t / 400 : Nat) : Int) - 730692556 := by
  have h1 : ((t : Int) - 292277022400) % 100 = ((t % 100 : Nat) : Int) := by omega
  have h2 : ((t : Int) - 292277022400) / 100 = ((t / 100 : Nat) : Int) - 2922770224 := by omega
  refine ⟨h1, h2, ?_, ?_⟩
  · rw [h1]; omega
  · rw [h2]; omega

theorem zeller_sum (t q c : Nat) :
    (((q : Int) + c + ((t : Int) - 292277022400) % 100 + (((t : Int) - 292277022400) % 100) / 4 +
      (((t : Int) - 292277022400) / 100) / 4 + 5 * (((t : Int) - 292277022400) / 100) + 6) %
        7).toNat =
      (q + c + 365 * t + t / 4 - t / 100 + t / 400 + 6) % 7 := by
  obtain ⟨h1, h2, h3, h4⟩ := zeller_year t
  rw [h3, h4, h1, h2]
  have f2 : t / 4 = 25 * (t / 100) + t % 100 / 4 := by omega
  have f3 : t / 100 ≥ t / 400 := by omega
  omega

theorem absClock_spec (abs : Nat) :
    (time.absClock abs).1 * 3600 + (time.absClock abs).2.1 * 60 + (time.absClock abs).2.2 =
        abs % 86400 ∧
      (time.absClock abs).1 < 24 ∧ (time.absClock abs).2.1 < 60 ∧
      (time.absClock abs).2.2 < 60 := by
  simp only [time.absClock, time.secondsPerDay, time.secondsPerHour, time.secondsPerMinute]
  omega

theorem absWeekday_eq (abs : Nat) (h : abs + 86400 < 2 ^ 64) :
    time.absWeekday abs = (abs / 86400 + 1) % 7 := by
  simp only [time.absWeekday, time.secondsPerDay, time.secondsPerHour, time.secondsPerMinute,
    time.secondsPerWeek]
  omega

theorem zeller_arith (y yday d m dd : Nat) (leap : Bool)
    (hd : 365 * y + y / 4 - y / 100 + y / 400 + yday = d)
    (hleap : leap = decide ((y + 1) % 4 = 0 ∧ ((y + 1) % 100 ≠ 0 ∨ (y + 1) % 400 = 0)))
    (hm1 : 1 ≤ m) (hm2 : m ≤ 12) (hdd : 1 ≤ dd)
    (hy : time.daysBefore.getD (m - 1) 0 + (if leap = true ∧ 3 ≤ m then 1 else 0) + (dd - 1) =
      yday) :
    (d + 1) % 7 = weekdayOfDate ((y : Int) + time.absoluteZeroYear) m dd := by
  have hyear : (y : Int) + time.absoluteZeroYear = ((y + 1 : Nat) : Int) - 292277022400 := by
    unfold time.absoluteZeroYear; push_cast; ring
  have hyear1 : (y : Int) + time.absoluteZeroYear - 1 = ((y : Nat) : Int) - 292277022400 := by
    unfold time.absoluteZeroYear; ring
  have hadj : (y + 1) / 4 - (y + 1) / 100 + (y + 1) / 400 =
      y / 4 - y / 100 + y / 400 + (if leap = true then 1 else 0) := by
    have g1 : y / 100 ≤ y / 4 := by omega
    have g2 : (y + 1) / 100 ≤ (y + 1) / 4 := by omega
    have a4 : (y + 1) / 4 = y / 4 + (if (y + 1) % 4 = 0 then 1 else 0) := by
      split <;> omega
    have a100 : (y + 1) / 100 = y / 100 + (if (y + 1) % 100 = 0 then 1 else 0) := by
      split <;> omega
    have a400 : (y + 1) / 400 = y / 400 + (if (y + 1) % 400 = 0 then 1 else 0) := by
      split <;> omega
    have i1 : (y + 1) % 400 = 0 → (y + 1) % 100 = 0 := by omega
    have i2 : (y + 1) % 100 = 0 → (y + 1) % 4 = 0 := by omega
    rw [a4, a100, a400]
    by_cases h4 : (y + 1) % 4 = 0 <;> by_cases h100 : (y + 1) % 100 = 0 <;>
      by_cases h400 : (y + 1) % 400 = 0 <;>
      simp only [h4, h100, h400, true_and, false_and, ne_eq, not_true_eq_false, not_false_eq_true,
        or_true, or_false, true_or, false_or, decide_True, decide_False] at hleap <;>
      subst hleap <;> simp only [h4, h100, h400, if_true, if_false, Bool.false_eq_true] <;>
      omega
  have g1 : y / 100 ≤ y / 4 := by omega
  have g2 : (y + 1) / 100 ≤ (y + 1) / 4 := by omega
  unfold weekdayOfDate
  by_cases hm : m < 3
  · simp only [hm, if_true, hyear1]
    have hm3 : ¬ (3 ≤ m) := by omega
    simp only [hm3, and_false, if_false, Nat.add_zero] at hy
    have hc : ((13 * (((m : Nat) : Int) + 12 + 1)) / 5 : Int) =
        ((13 * (m + 12 + 1) / 5 : Nat) : Int) := by push_cast; rfl
    rw [hc, zeller_sum y dd (13 * (m + 12 + 1) / 5)]
    interval_cases m <;> simp [time.daysBefore] at hy ⊢ <;> omega
  · simp only [hm, if_false, hyear]
    have hm3 : 3 ≤ m := by omega
    simp only [hm3, and_true] at hy
    have hc : ((13 * (((m : Nat) : Int) + 1)) / 5 : Int) =
        ((13 * (m + 1) / 5 : Nat) : Int) := by push_cast; rfl
    rw [hc, zeller_sum (y + 1) dd (13 * (m + 1) / 5)]
    cases leap <;> simp only [Bool.false_eq_true, if_false, if_true, Nat.add_zero] at hy hadj <;>
      interval_cases m <;> simp [time.daysBefore] at hy ⊢ <;> omega

/-- The date `absDate` finds is a date of the calendar, and the days up to it
add up to the day it was found for. -/
theorem absDate_spec (abs : Nat) :
    ∃ y yday : Nat, (time.absDate abs).year = (y : Int) + time.absoluteZeroYear ∧
      yday ≤ 365 ∧ 365 * y + y / 4 - y / 100 + y / 400 + yday = abs / 86400 ∧
      1 ≤ (time.absDate abs).month ∧ (time.absDate abs).month ≤ 12 ∧
      1 ≤ (time.absDate abs).day ∧
      (time.absDate abs).day ≤
        daysInMonth (time.isLeap (time.absDate abs).year) (time.absDate abs).month ∧
      time.daysBefore.getD ((time.absDate abs).month - 1) 0 +
          (if time.isLeap (time.absDate abs).year = true ∧ 3 ≤ (time.absDate abs).month
            then 1 else 0) + ((time.absDate abs).day - 1) = yday := by
  obtain ⟨y, yday, hyd, hd, hyday⟩ := absYearDay_spec abs
  have hleap := isLeap_absolute y
  have hlt : yday < 366 := by omega
  have hok : yday < 365 ∨ time.isLeap ((y : Int) + time.absoluteZeroYear) = true := by
    rcases hyday with h | ⟨-, h⟩
    · exact Or.inl h
    · right; rw [hleap]; exact decide_eq_true h
  have hmd := monthDay_spec (time.isLeap ((y : Int) + time.absoluteZeroYear)) yday hlt hok
  refine ⟨y, yday, ?_, by omega, hd, ?_⟩
  · simp only [time.absDate, hyd]
  · simp only [time.absDate, hyd]
    exact hmd

/-- The weekday `Format` writes is the weekday of the date it writes. -/
theorem absWeekday_eq_weekdayOfDate (abs : Nat) (h : abs + 86400 < 2 ^ 64) :
    time.absWeekday abs =
      weekdayOfDate (time.absDate abs).year (time.absDate abs).month (time.absDate abs).day := by
  obtain ⟨y, yday, hy, -, hd, hm1, hm2, hd1, -, hsum⟩ := absDate_spec abs
  rw [absWeekday_eq abs h, hy]
  rw [hy] at hsum
  have hleap := isLeap_absolute y
  exact zeller_arith y yday (abs / 86400) _ _ _ hd hleap hm1 hm2 hd1 hsum

/-! ## Lemmas on `Format` -/

theorem digit_eq (n : Nat) : time.digit n = Char.ofNat (48 + n % 10) := rfl

theorem appendInt_two (n : Nat) (h : n < 100) : time.appendInt (n : Int) 2 = twoDigits n := by
  have h0 : ¬ ((n : Int) < 0) := by omega
  have e : n / 10 % 10 = n / 10 := by omega
  simp [time.appendInt, twoDigits, digit_eq, h0, h]

theorem appendInt_four (x : Int) (h0 : 0 ≤ x) (h1 : x ≤ 9999) :
    time.appendInt x 4 = fourDigits x.toNat := by
  obtain ⟨n, rfl⟩ := Int.eq_ofNat_of_zero_le h0
  have hn : n < 10000 := by omega
  have hneg : ¬ ((n : Int) < 0) := by omega
  have e1 : n / 100 / 10 % 10 = n / 1000 % 10 := by omega
  have e2 : n % 100 / 10 % 10 = n / 10 % 10 := by omega
  have e3 : n % 100 % 10 = n % 10 := by omega
  simp [time.appendInt, fourDigits, digit_eq, hneg, hn, e1, e2, e3]

theorem dayName_take : ∀ w < 7, (time.longDayNames.getD w []).take 3 = time.shortDayNames.getD w [] := by
  decide

theorem monthName_take :
    ∀ m < 12, (time.longMonthNames.getD m []).take 3 = time.shortMonthNames.getD m [] := by
  decide

theorem absWeekday_lt (abs : Nat) : time.absWeekday abs < 7 := by
  simp only [time.absWeekday, time.secondsPerDay, time.secondsPerHour, time.secondsPerMinute,
    time.secondsPerWeek]
  omega

theorem abs_bounds_of_year (abs : Nat) (hy0 : 0 ≤ (time.absDate abs).year)
    (hy1 : (time.absDate abs).year ≤ 9999) :
    9223371966548102400 ≤ abs ∧ abs < 9223372282117708800 := by
  obtain ⟨y, yday, hy, hyd, hd, -⟩ := absDate_spec abs
  rw [hy] at hy0 hy1
  unfold time.absoluteZeroYear at hy0 hy1
  have hy0' : 292277022399 ≤ y := by omega
  have hy1' : y ≤ 292277022399 + 9999 := by omega
  have g1 : y / 100 ≤ y / 4 := by omega
  omega

theorem zone_numeric (offset : Int) (h : offset.natAbs < 360000) :
    (if Int.tdiv offset 60 < 0 then ['-'] else ['+']) ++
        time.appendInt (Int.tdiv (if Int.tdiv offset 60 < 0 then -Int.tdiv offset 60
          else Int.tdiv offset 60) 60) 2 ++
        time.appendInt (Int.tmod (if Int.tdiv offset 60 < 0 then -Int.tdiv offset 60
          else Int.tdiv offset 60) 60) 2 =
      (if offset ≤ -60 then ['-'] else ['+']) ++ twoDigits (offset.natAbs / 3600) ++
        twoDigits (offset.natAbs / 60 % 60) := by
  have key : ∀ n : Nat, n < 360000 →
      time.appendInt (Int.tdiv ((n / 60 : Nat) : Int) 60) 2 = twoDigits (n / 3600) ∧
      time.appendInt (Int.tmod ((n / 60 : Nat) : Int) 60) 2 = twoDigits (n / 60 % 60) := by
    intro n hn
    have e1 : Int.tdiv ((n / 60 : Nat) : Int) 60 = ((n / 3600 : Nat) : Int) := by
      rw [Int.tdiv_eq_ediv (by omega) (by omega)]; omega
    have e2 : Int.tmod ((n / 60 : Nat) : Int) 60 = ((n / 60 % 60 : Nat) : Int) := by
      rw [Int.tmod_eq_emod (by omega) (by omega)]; omega
    rw [e1, e2]
    exact ⟨appendInt_two _ (by omega), appendInt_two _ (by omega)⟩
  rcases Int.natAbs_eq offset with hoff | hoff
  · have e : Int.tdiv offset 60 = ((offset.natAbs / 60 : Nat) : Int) := by
      rw [Int.tdiv_eq_ediv (by omega) (by omega)]; omega
    have hneg : ¬ (Int.tdiv offset 60 < 0) := by rw [e]; omega
    have hle : ¬ (offset ≤ -60) := by omega
    simp only [hneg, hle, if_false]
    rw [e, (key _ h).1, (key _ h).2]
  · have e : Int.tdiv offset 60 = -((offset.natAbs / 60 : Nat) : Int) := by
      have : offset = -(offset.natAbs : Int) := hoff
      rw [this, Int.neg_tdiv, Int.tdiv_eq_ediv (by omega) (by omega)]
      simp only [Int.natAbs_neg, Int.natAbs_ofNat]
      omega
    by_cases hle : offset ≤ -60
    · have hneg : Int.tdiv offset 60 < 0 := by rw [e]; omega
      simp only [hneg, hle, if_true]
      rw [e, neg_neg, (key _ h).1, (key _ h).2]
    · have hz : offset.natAbs / 60 = 0 := by omega
      have hneg : ¬ (Int.tdiv offset 60 < 0) := by rw [e, hz]; simp
      simp only [hneg, hle, if_false]
      rw [e, hz]
      have := key offset.natAbs h
      rw [hz] at this
      simp only [Int.neg_zero, Nat.cast_zero, Int.ofNat_zero] at this ⊢
      rw [this.1, this.2]

/-- `Format(RFC1123)` of a time whose year is in 0 to 9999: the RFC 1123 text
of its date, time of day and zone, with the weekday of the date. -/
theorem format_rfc1123 (t : time.Time)
    (hy0 : 0 ≤ (time.absDate t.locabs.2.2).year) (hy1 : (time.absDate t.locabs.2.2).year ≤ 9999)
    (hoff : t.locabs.1 = [] → t.locabs.2.1.natAbs < 360000) :
    t.Format time.RFC1123 =
      rfc1123Text
        (weekdayOfDate (time.absDate t.locabs.2.2).year (time.absDate t.locabs.2.2).month
          (time.absDate t.locabs.2.2).day)
        (time.absDate t.locabs.2.2).day (time.absDate t.locabs.2.2).month
        (time.absDate t.locabs.2.2).year.toNat
        (time.absClock t.locabs.2.2).1 (time.absClock t.locabs.2.2).2.1
        (time.absClock t.locabs.2.2).2.2 (zoneField t.locabs.1 t.locabs.2.1) := by
  simp only [time.Time.Format]
  generalize t.locabs.2.2 = abs at *
  generalize t.locabs.1 = name at *
  generalize t.locabs.2.1 = offset at *
  obtain ⟨hlo, hhi⟩ := abs_bounds_of_year abs hy0 hy1
  obtain ⟨y, yday, -, -, -, hm1, hm2, hd1, hd2, -⟩ := absDate_spec abs
  obtain ⟨-, hh, hmi, hs⟩ := absClock_spec abs
  have hd31 : (time.absDate abs).day < 100 := by
    have : daysInMonth (time.isLeap (time.absDate abs).year) (time.absDate abs).month ≤ 31 := by
      unfold daysInMonth
      split
      · split <;> omega
      · split <;> omega
    omega
  have hw := absWeekday_eq_weekdayOfDate abs (by omega)
  have hzone : time.appendStd name offset abs .stdTZ = zoneField name offset := by
    unfold time.appendStd zoneField
    by_cases hn : name = []
    · simp only [hn, ne_eq, not_true_eq_false, if_false]
      exact zone_numeric offset (hoff hn)
    · simp only [ne_eq, hn, not_false_eq_true, if_true]
  simp only [time.RFC1123, List.flatMap_cons, List.flatMap_nil, hzone]
  simp only [time.appendStd, rfc1123Text]
  rw [← hw, dayName_take _ (absWeekday_lt abs), monthName_take _ (by omega),
    appendInt_two _ hd31, appendInt_four _ hy0 hy1, appendInt_two _ (by omega),
    appendInt_two _ (by omega), appendInt_two _ (by omega)]
  simp [List.append_assoc]

theorem digit_facts :
    ∀ j < 10, (decide ('0' ≤ Char.ofNat (48 + j)) && decide (Char.ofNat (48 + j) ≤ '9')) = true ∧
      (Char.ofNat (48 + j)).toNat - '0'.toNat = j ∧ Char.ofNat (48 + j) ≠ ' ' ∧
      Char.ofNat (48 + j) ≠ '-' ∧ Char.ofNat (48 + j) ≠ '+' ∧
      ¬ (Char.ofNat (48 + j) < '0' ∨ Char.ofNat (48 + j) > '9') := by
  decide

theorem getnum_two (a b : Nat) (ha : a < 10) (hb : b < 10) (rest : List Char) (fixed : Bool) :
    time.getnum (Char.ofNat (48 + a) :: Char.ofNat (48 + b) :: rest) fixed =
      some (((a * 10 + b : Nat) : Int), rest) := by
  obtain ⟨a1, a2, -⟩ := digit_facts a ha
  obtain ⟨b1, b2, -⟩ := digit_facts b hb
  simp only [time.getnum, time.isDigitAt, List.get?_cons_zero, List.get?_cons_succ, a1, b1,
    Bool.not_true, Bool.false_eq_true, if_false, List.headD_cons, List.tail_cons, a2, b2]

theorem getnum_twoDigits (n : Nat) (h : n < 100) (rest : List Char) (fixed : Bool) :
    time.getnum (twoDigits n ++ rest) fixed = some ((n : Int), rest) := by
  have := getnum_two (n / 10 % 10) (n % 10) (by omega) (by omega) rest fixed
  have e : n / 10 % 10 * 10 + n % 10 = n := by omega
  rw [e] at this
  exact this

theorem lookup_dayName :
    ∀ w < 7, ∀ rest : List Char,
      time.lookup time.shortDayNames (time.shortDayNames.getD w [] ++ rest) 0 =
        some (w, rest) := by
  intro w hw rest
  interval_cases w <;>
    simp [time.lookup, time.shortDayNames, time.matchFold]

theorem lookup_monthName :
    ∀ m < 12, ∀ rest : List Char,
      time.lookup time.shortMonthNames (time.shortMonthNames.getD m [] ++ rest) 0 =
        some (m, rest) := by
  intro m hm rest
  interval_cases m <;>
    simp [time.lookup, time.shortMonthNames, time.matchFold]
theorem leadingInt_digit (j : Nat) (hj : j < 10) (r : List Char) (x : Nat)
    (hx : x * 10 + j ≤ 2 ^ 63) (hx' : x ≤ 2 ^ 63 / 10) :
    time.leadingInt (Char.ofNat (48 + j) :: r) x = time.leadingInt r (x * 10 + j) := by
  obtain ⟨-, a2, -, -, -, a6⟩ := digit_facts j hj
  have h1 : ¬ (x > 2 ^ 63 / 10) := by omega
  have h2 : ¬ (x * 10 + j > 2 ^ 63) := by omega
  simp only [time.leadingInt, a6, if_false, a2, h1, h2]

theorem leadingInt_four (a b c d : Nat) (ha : a < 10) (hb : b < 10) (hc : c < 10) (hd : d < 10) :
    time.leadingInt [Char.ofNat (48 + a), Char.ofNat (48 + b), Char.ofNat (48 + c),
      Char.ofNat (48 + d)] 0 = some (a * 1000 + b * 100 + c * 10 + d, []) := by
  rw [leadingInt_digit _ ha _ _ (by omega) (by omega),
    leadingInt_digit _ hb _ _ (by omega) (by omega),
    leadingInt_digit _ hc _ _ (by omega) (by omega),
    leadingInt_digit _ hd _ _ (by omega) (by omega)]
  simp only [time.leadingInt]
  congr 2
  omega
theorem toInt64_small (n : Nat) (h : n < 2 ^ 63) : time.toInt64 (n : Int) = (n : Int) := by
  unfold time.toInt64
  omega

theorem atoi_four (a b c d : Nat) (ha : a < 10) (hb : b < 10) (hc : c < 10) (hd : d < 10) :
    time.atoi [Char.ofNat (48 + a), Char.ofNat (48 + b), Char.ofNat (48 + c),
      Char.ofNat (48 + d)] = some ((a * 1000 + b * 100 + c * 10 + d : Nat) : Int) := by
  obtain ⟨-, -, -, a4, a5, -⟩ := digit_facts a ha
  unfold time.atoi
  simp only [List.head?_cons, Option.some.injEq, a4, a5, or_self, if_false, decide_False,
    leadingInt_four a b c d ha hb hc hd, ne_eq, not_true_eq_false, Bool.false_eq_true]
  rw [toInt64_small _ (by omega)]

theorem parseStd_year (n : Nat) (h : n < 10000) (rest : List Char) (p : time.parsed) :
    time.parseStd .stdLongYear (fourDigits n ++ rest) p =
      .ok (rest, { p with year := (n : Int) }) := by
  obtain ⟨a1, -⟩ := digit_facts (n / 1000 % 10) (by omega)
  have hat := atoi_four (n / 1000 % 10) (n / 100 % 10) (n / 10 % 10) (n % 10) (by omega)
    (by omega) (by omega) (by omega)
  have e : n / 1000 % 10 * 1000 + n / 100 % 10 * 100 + n / 10 % 10 * 10 + n % 10 = n := by omega
  rw [e] at hat
  simp only [fourDigits, List.cons_append, List.nil_append, time.parseStd, List.length_cons,
    time.isDigitAt, List.get?_cons_zero, a1, List.take_succ_cons, List.take_zero,
    List.drop_succ_cons, List.drop_zero, hat, Bool.not_true, Bool.false_eq_true, or_false]
  have hlen : ¬ (rest.length + 1 + 1 + 1 + 1 < 4) := by omega
  simp only [hlen, if_false]

theorem skip_nil (value : List Char) : time.skip value [] = some value := rfl

theorem skip_space (c : Char) (r : List Char) (h : c ≠ ' ') :
    time.skip (' ' :: c :: r) " ".toList = some (c :: r) := by
  have : time.cutspace (' ' :: c :: r) = c :: r := by
    simp [time.cutspace, List.dropWhile, h]
  simp [time.skip, time.skipAux, this]

theorem skip_comma_space (c : Char) (r : List Char) (h : c ≠ ' ') :
    time.skip (',' :: ' ' :: c :: r) ", ".toList = some (c :: r) := by
  have : time.cutspace (' ' :: c :: r) = c :: r := by
    simp [time.cutspace, List.dropWhile, h]
  simp [time.skip, time.skipAux, this]

theorem skip_colon (r : List Char) : time.skip (':' :: r) ":".toList = some r := by
  simp [time.skip, time.skipAux]
theorem parseStd_weekday (w : Nat) (h : w < 7) (rest : List Char) (p : time.parsed) :
    time.parseStd .stdWeekDay (time.shortDayNames.getD w [] ++ rest) p = .ok (rest, p) := by
  simp only [time.parseStd, lookup_dayName w h rest]

theorem parseStd_month (m : Nat) (h : m < 12) (rest : List Char) (p : time.parsed) :
    time.parseStd .stdMonth (time.shortMonthNames.getD m [] ++ rest) p =
      .ok (rest, { p with month := (m : Int) + 1 }) := by
  simp only [time.parseStd, lookup_monthName m h rest]

theorem parseStd_day (d : Nat) (h : d < 100) (rest : List Char) (p : time.parsed) :
    time.parseStd .stdZeroDay (twoDigits d ++ rest) p = .ok (rest, { p with day := (d : Int) }) := by
  simp only [time.parseStd, getnum_twoDigits d h rest]

theorem parseStd_hour (n : Nat) (h : n < 24) (rest : List Char) (p : time.parsed) :
    time.parseStd .stdHour (twoDigits n ++ rest) p = .ok (rest, { p with hour := (n : Int) }) := by
  have h1 : ¬ ((n : Int) < 0 ∨ 24 ≤ (n : Int)) := by omega
  simp only [time.parseStd, getnum_twoDigits n (by omega) rest, h1, if_false]

theorem parseStd_minute (n : Nat) (h : n < 60) (rest : List Char) (p : time.parsed) :
    time.parseStd .stdZeroMinute (twoDigits n ++ rest) p =
      .ok (rest, { p with min := (n : Int) }) := by
  have h1 : ¬ ((n : Int) < 0 ∨ 60 ≤ (n : Int)) := by omega
  simp only [time.parseStd, getnum_twoDigits n (by omega) rest, h1, if_false]

theorem parseStd_second (n : Nat) (h : n < 60) (rest : List Char) (p : time.parsed) :
    time.parseStd .stdZeroSecond (twoDigits n ++ ' ' :: rest) p =
      .ok (' ' :: rest, { p with sec := (n : Int) }) := by
  have h1 : ¬ ((n : Int) < 0 ∨ 60 ≤ (n : Int)) := by omega
  have h2 : time.commaOrPeriod ' ' = false := by decide
  simp only [time.parseStd, getnum_twoDigits n (by omega) (' ' :: rest), h1, if_false,
    List.headD_cons, h2, Bool.false_eq_true, false_and, and_false]

theorem parseStd_tz_utc (p : time.parsed) :
    time.parseStd .stdTZ "UTC".toList p = .ok ([], { p with z := some time.UTC }) := by
  simp [time.parseStd]

theorem parseChunks_step (pfx : List Char) (std : time.Std) (rest : List (List Char × time.Std))
    (value value1 value2 : List Char) (p p' : time.parsed)
    (h1 : time.skip value pfx = some value1)
    (h2 : time.parseStd std value1 p = .ok (value2, p')) :
    time.parseChunks ((pfx, std) :: rest) value p = time.parseChunks rest value2 p' := by
  simp only [time.parseChunks, h1, h2]

theorem skip_space_twoDigits (n : Nat) (rest : List Char) :
    time.skip (' ' :: (twoDigits n ++ rest)) " ".toList = some (twoDigits n ++ rest) := by
  obtain ⟨-, -, a3, -⟩ := digit_facts (n / 10 % 10) (by omega)
  exact skip_space _ _ a3

theorem skip_comma_space_twoDigits (n : Nat) (rest : List Char) :
    time.skip (',' :: ' ' :: (twoDigits n ++ rest)) ", ".toList = some (twoDigits n ++ rest) := by
  obtain ⟨-, -, a3, -⟩ := digit_facts (n / 10 % 10) (by omega)
  exact skip_comma_space _ _ a3

theorem skip_space_fourDigits (n : Nat) (rest : List Char) :
    time.skip (' ' :: (fourDigits n ++ rest)) " ".toList = some (fourDigits n ++ rest) := by
  obtain ⟨-, -, a3, -⟩ := digit_facts (n / 1000 % 10) (by omega)
  exact skip_space _ _ a3

theorem skip_space_monthName :
    ∀ m < 12, ∀ rest : List Char,
      time.skip (' ' :: (time.shortMonthNames.getD m [] ++ rest)) " ".toList =
        some (time.shortMonthNames.getD m [] ++ rest) := by
  intro m hm rest
  interval_cases m <;> exact skip_space _ _ (by decide)

/-- `parse` reads the RFC 1123 text of a date, a time of day and the zone UTC
back to the date and the time of day. -/
theorem parseChunks_rfc1123Text (w d m y h mi s : Nat) (hw : w < 7) (hd : d < 100)
    (hm1 : 1 ≤ m) (hm2 : m ≤ 12) (hy : y < 10000) (hh : h < 24) (hmi : mi < 60) (hs : s < 60) :
    time.parseChunks time.RFC1123.chunks (rfc1123Text w d m y h mi s "UTC".toList)
        ⟨0, -1, -1, 0, 0, 0, 0, none, []⟩ =
      .ok ([], ⟨(y : Int), (m : Int), (d : Int), (h : Int), (mi : Int), (s : Int), 0,
        some time.UTC, []⟩) := by
  have e1 : ", ".toList = [',', ' '] := rfl
  have e2 : " ".toList = [' '] := rfl
  have e3 : ":".toList = [':'] := rfl
  have em : ((m - 1 : Nat) : Int) + 1 = (m : Int) := by omega
  simp only [rfc1123Text, time.RFC1123, List.append_assoc]
  rw [parseChunks_step _ _ _ _ _ _ _ _ (skip_nil _) (parseStd_weekday w hw _ _)]
  rw [parseChunks_step _ _ _ _ _ _ _ _ (by rw [e1]; exact skip_comma_space_twoDigits d _)
    (parseStd_day d hd _ _)]
  rw [parseChunks_step _ _ _ _ _ _ _ _ (by rw [e2]; exact skip_space_monthName (m - 1) (by omega) _)
    (parseStd_month (m - 1) (by omega) _ _)]
  rw [parseChunks_step _ _ _ _ _ _ _ _ (by rw [e2]; exact skip_space_fourDigits y _)
    (parseStd_year y hy _ _)]
  rw [parseChunks_step _ _ _ _ _ _ _ _ (by rw [e2]; exact skip_space_twoDigits h _)
    (parseStd_hour h hh _ _)]
  rw [parseChunks_step _ _ _ _ _ _ _ _ (by rw [e3]; exact skip_colon _)
    (parseStd_minute mi hmi _ _)]
  rw [parseChunks_step _ _ _ _ _ _ _ _ (by rw [e3]; exact skip_colon _)
    (parseStd_second s hs _ _)]
  have hlast : ∀ p : time.parsed,
      time.parseChunks [(" ".toList, time.Std.stdTZ)] (' ' :: "UTC".toList) p =
        .ok ([], { p with z := some time.UTC }) := by
    intro p
    exact (parseChunks_step " ".toList .stdTZ [] (' ' :: "UTC".toList) "UTC".toList [] p _
      (skip_space 'U' _ (by decide)) (parseStd_tz_utc p)).trans rfl
  refine (hlast _).trans ?_
  simp only [em]
theorem norm_id (hi lo base : Int) (h0 : 0 ≤ lo) (h1 : lo < base) :
    time.norm hi lo base = (hi, lo) := by
  have a : ¬ (lo < 0) := by omega
  have b : ¬ (lo ≥ base) := by omega
  simp [time.norm, a, b]

theorem daysIn_eq (m : Nat) (hm1 : 1 ≤ m) (hm2 : m ≤ 12) (year : Int) :
    time.daysIn (m : Int) year = (daysInMonth (time.isLeap year) m : Int) := by
  unfold time.daysIn daysInMonth
  cases time.isLeap year <;> interval_cases m <;> simp [time.daysBefore]

theorem toUint64_nat (n : Nat) (h : n < 2 ^ 64) : time.toUint64 (n : Int) = n := by
  unfold time.toUint64
  omega

/-- `Date` of a date and a time of day in range, in UTC. -/
theorem date_utc (year : Int) (m d h mi s : Nat) (hm1 : 1 ≤ m) (hm2 : m ≤ 12) (hh : h < 24)
    (hmi : mi < 60) (hs : s < 60) :
    time.Date year (m : Int) (d : Int) (h : Int) (mi : Int) (s : Int) 0 time.UTC =
      ⟨time.toInt64 ((time.toUint64 (((time.daysSinceEpoch year : Int) +
          (time.daysBefore.getD (m - 1) 0 : Int) +
          (if time.isLeap year = true ∧ 3 ≤ m then 1 else 0) + ((d : Int) - 1)) * 86400 +
          ((h : Int) * 3600 + (mi : Int) * 60 + (s : Int))) : Int) - time.internalToAbsolute -
          time.unixToInternal), 0, time.UTC⟩ := by
  unfold time.Date
  rw [norm_id year ((m : Int) - 1) 12 (by omega) (by omega),
    norm_id (s : Int) 0 1000000000 (by omega) (by omega)]
  simp only []
  rw [norm_id (mi : Int) (s : Int) 60 (by omega) (by omega)]
  simp only []
  rw [norm_id (h : Int) (mi : Int) 60 (by omega) (by omega)]
  simp only []
  rw [norm_id (d : Int) (h : Int) 24 (by omega) (by omega)]
  have e1 : ((m : Int) - 1 + 1 - 1).toNat = m - 1 := by omega
  have e2 : ((m : Int) - 1 + 1 ≥ 3) ↔ 3 ≤ m := by omega
  simp only [e1, e2, time.UTC, ne_eq, not_true_eq_false, if_false, Int.toNat_zero]
/-- `Date` inverts `absDate` and `absClock`. -/
theorem date_absDate (abs : Nat) (h64 : abs < 2 ^ 64) :
    time.toUint64 (((time.daysSinceEpoch (time.absDate abs).year : Int) +
        (time.daysBefore.getD ((time.absDate abs).month - 1) 0 : Int) +
        (if time.isLeap (time.absDate abs).year = true ∧ 3 ≤ (time.absDate abs).month
          then 1 else 0) + (((time.absDate abs).day : Int) - 1)) * 86400 +
        (((time.absClock abs).1 : Int) * 3600 + ((time.absClock abs).2.1 : Int) * 60 +
          ((time.absClock abs).2.2 : Int))) = abs := by
  obtain ⟨y, yday, hy, hyd, hd, hm1, hm2, hd1, hd2, hsum⟩ := absDate_spec abs
  obtain ⟨hc, -, -, -⟩ := absClock_spec abs
  have hy64 : y < 2 ^ 64 := by
    have g1 : y / 100 ≤ y / 4 := by omega
    omega
  have hdse := daysSinceEpoch_absolute y hy64
  rw [← hy] at hdse
  rw [hdse]
  have hif : ((if time.isLeap (time.absDate abs).year = true ∧ 3 ≤ (time.absDate abs).month
      then 1 else 0 : Int)) = ((if time.isLeap (time.absDate abs).year = true ∧
        3 ≤ (time.absDate abs).month then 1 else 0 : Nat) : Int) := by
    split <;> rfl
  rw [hif]
  generalize (if time.isLeap (time.absDate abs).year = true ∧ 3 ≤ (time.absDate abs).month
      then 1 else 0 : Nat) = adj at *
  generalize time.daysBefore.getD ((time.absDate abs).month - 1) 0 = db at *
  generalize (time.absDate abs).day = dd at *
  generalize (time.absClock abs).1 = hh at *
  generalize (time.absClock abs).2.1 = mi at *
  generalize (time.absClock abs).2.2 = ss at *
  have g1 : y / 100 ≤ y / 4 := by omega
  unfold time.toUint64
  omega

/-- `Parse` reads what `Format` writes for a time in UTC with a year in 0 to
9999: the same second, without the nanoseconds, in UTC. -/
theorem parse_format_utc (local_ : time.Location) (t : time.Time)
    (hloc : t.loc.lookup t.unix = ("UTC".toList, 0))
    (hy0 : 0 ≤ (time.absDate t.locabs.2.2).year) (hy1 : (time.absDate t.locabs.2.2).year ≤ 9999) :
    time.Parse local_ time.RFC1123 (t.Format time.RFC1123) =
      .ok ⟨time.toInt64 ((t.locabs.2.2 : Int) - time.internalToAbsolute - time.unixToInternal), 0,
        time.UTC⟩ := by
  have hname : t.locabs.1 = "UTC".toList := by simp only [time.Time.locabs, hloc]
  have hne : t.locabs.1 ≠ [] := by rw [hname]; decide
  rw [format_rfc1123 t hy0 hy1 (fun h => absurd h hne)]
  have hz : zoneField t.locabs.1 t.locabs.2.1 = "UTC".toList := by
    unfold zoneField; rw [if_pos hne, hname]
  rw [hz]
  generalize t.locabs.2.2 = abs at *
  obtain ⟨hlo, hhi⟩ := abs_bounds_of_year abs hy0 hy1
  obtain ⟨y, yday, -, -, -, hm1, hm2, hd1, hd2, -⟩ := absDate_spec abs
  obtain ⟨-, hh, hmi, hs⟩ := absClock_spec abs
  have hd31 : daysInMonth (time.isLeap (time.absDate abs).year) (time.absDate abs).month ≤ 31 := by
    unfold daysInMonth
    split
    · split <;> omega
    · split <;> omega
  have hw := absWeekday_eq_weekdayOfDate abs (by omega)
  have hwlt := absWeekday_lt abs
  rw [hw] at hwlt
  have hyear : (((time.absDate abs).year.toNat : Nat) : Int) = (time.absDate abs).year := by omega
  unfold time.Parse
  rw [parseChunks_rfc1123Text _ _ _ _ _ _ _ hwlt (by omega) hm1 hm2 (by omega) hh hmi hs]
  have hsuf : time.skip [] time.RFC1123.suffix = some [] := rfl
  have hday : ¬ (((time.absDate abs).day : Int) < 1 ∨
      ((time.absDate abs).day : Int) > time.daysIn ((time.absDate abs).month : Int)
        (time.absDate abs).year) := by
    rw [daysIn_eq _ hm1 hm2]
    omega
  simp only [hsuf, ne_eq, not_true_eq_false, if_false, hyear, hday]
  rw [date_utc _ _ _ _ _ _ hm1 hm2 hh hmi hs, date_absDate abs (by omega)]

theorem le_lor (a b : Nat) : a ≤ a ||| b :=
  Nat.le_of_testBit (fun i h => by simp [h])

theorem lower_of_fold :
    ∀ n1 < 128, ∀ n2 < 128, (n1 ||| 32) = (n2 ||| 32) → 97 ≤ (n1 ||| 32) → (n1 ||| 32) ≤ 122 →
      lowerASCII (Char.ofNat n1) = lowerASCII (Char.ofNat n2) := by
  decide

theorem lower_of_matchFold_char (c1 c2 : Char)
    (h : (if c1 ≠ c2 then
        decide ((c1.toNat ||| 32) = (c2.toNat ||| 32)) && decide ('a'.toNat ≤ (c1.toNat ||| 32)) &&
          decide ((c1.toNat ||| 32) ≤ 'z'.toNat)
      else true) = true) : lowerASCII c1 = lowerASCII c2 := by
  by_cases hc : c1 = c2
  · rw [hc]
  · rw [if_pos hc] at h
    simp only [Bool.and_eq_true, decide_eq_true_eq] at h
    obtain ⟨⟨h1, h2⟩, h3⟩ := h
    have h2' : 97 ≤ (c1.toNat ||| 32) := h2
    have h3' : (c1.toNat ||| 32) ≤ 122 := h3
    have b1 : c1.toNat < 128 := by have := le_lor c1.toNat 32; omega
    have b2 : c2.toNat < 128 := by have := le_lor c2.toNat 32; omega
    have := lower_of_fold c1.toNat b1 c2.toNat b2 h1 h2' h3'
    rwa [Char.ofNat_toNat, Char.ofNat_toNat] at this

theorem lower_of_matchFold (s1 s2 : List Char) (hlen : s1.length = s2.length)
    (h : time.matchFold s1 s2 = true) : s1.map lowerASCII = s2.map lowerASCII := by
  induction s1 generalizing s2 with
  | nil =>
    cases s2 with
    | nil => rfl
    | cons y s2 => simp at hlen
  | cons x s1 ih =>
    cases s2 with
    | nil => simp at hlen
    | cons y s2 =>
      simp only [time.matchFold, Bool.and_eq_true] at h
      simp only [List.length_cons, Nat.add_right_cancel_iff] at hlen
      simp only [List.map_cons]
      rw [lower_of_matchFold_char x y h.1, ih s2 hlen h.2]

theorem lookup_inv (tab : List (List Char)) (val : List Char) (i j : Nat) (r : List Char)
    (h : time.lookup tab val i = some (j, r)) :
    ∃ pre, val = pre ++ r ∧ isNameOf tab pre := by
  induction tab generalizing i with
  | nil => simp [time.lookup] at h
  | cons v tab ih =>
    unfold time.lookup at h
    split at h
    · rename_i hc
      simp only [Option.some.injEq, Prod.mk.injEq] at h
      refine ⟨val.take v.length, ?_, v, List.mem_cons_self _ _, ?_⟩
      · rw [← h.2, List.take_append_drop]
      · exact lower_of_matchFold _ _ (by rw [List.length_take]; omega) hc.2
    · obtain ⟨pre, h1, name, hn, h2⟩ := ih (i + 1) h
      exact ⟨pre, h1, name, List.mem_cons_of_mem _ hn, h2⟩

theorem skip_colon_inv (value v : List Char) (h : time.skip value ":".toList = some v) :
    value = ':' :: v := by
  have e : ":".toList = [':'] := rfl
  rw [e] at h
  cases value with
  | nil => simp [time.skip, time.skipAux] at h
  | cons x r =>
    simp only [time.skip, time.skipAux] at h
    have h1 : ¬ (':' = ' ') := by decide
    rw [if_neg h1] at h
    split at h
    · cases h
    · rename_i hx
      simp only [ne_eq, not_not] at hx
      simp only [Option.some.injEq] at h
      rw [hx, h]

theorem cutspace_split (value : List Char) :
    ∃ sp, value = sp ++ time.cutspace value ∧ (∀ c ∈ sp, c = ' ') ∧
      (value.head? = some ' ' → sp ≠ []) := by
  refine ⟨value.takeWhile (fun c => decide (c = ' ')), ?_, ?_, ?_⟩
  · unfold time.cutspace
    rw [List.takeWhile_append_dropWhile]
  · intro c hc
    have := List.mem_takeWhile_imp hc
    simpa using this
  · intro hh
    cases value with
    | nil => simp at hh
    | cons x r =>
      simp only [List.head?_cons, Option.some.injEq] at hh
      subst hh
      simp [List.takeWhile]

theorem skip_space_inv (value v : List Char) (h : time.skip value " ".toList = some v) :
    ∃ sp, value = sp ++ v ∧ (∀ c ∈ sp, c = ' ') ∧ (v ≠ [] → sp ≠ []) := by
  have e : " ".toList = [' '] := rfl
  rw [e] at h
  cases value with
  | nil =>
    simp only [time.skip, time.skipAux, if_true, Bool.false_eq_true, if_false,
      Option.some.injEq] at h
    exact ⟨[], by rw [← h]; rfl, by simp, fun hv => absurd h.symm hv⟩
  | cons x r =>
    simp only [time.skip, time.skipAux, if_true, Bool.false_eq_true, if_false] at h
    split at h
    · cases h
    · rename_i hx
      simp only [ne_eq, not_not] at hx
      simp only [Option.some.injEq] at h
      obtain ⟨sp, h1, h2, h3⟩ := cutspace_split (x :: r)
      rw [h] at h1
      exact ⟨sp, h1, h2, fun _ => h3 (by rw [hx]; rfl)⟩

theorem skip_comma_space_inv (value v : List Char) (h : time.skip value ", ".toList = some v) :
    ∃ sp, value = ',' :: (sp ++ v) ∧ (∀ c ∈ sp, c = ' ') ∧ (v ≠ [] → sp ≠ []) := by
  have e : ", ".toList = [',', ' '] := rfl
  rw [e] at h
  cases value with
  | nil => simp [time.skip, time.skipAux] at h
  | cons x r =>
    simp only [time.skip, time.skipAux] at h
    have h1 : ¬ (',' = ' ') := by decide
    rw [if_neg h1] at h
    split at h
    · cases h
    · rename_i hx
      simp only [ne_eq, not_not] at hx
      have h' : time.skip r " ".toList = some v := h
      obtain ⟨sp, h2, h3, h4⟩ := skip_space_inv r v h'
      exact ⟨sp, by rw [hx, h2], h3, h4⟩

theorem isDigitAt_zero (c : Char) (r : List Char) (h : time.isDigitAt (c :: r) 0 = true) :
    isDigit c = true := by
  simpa [time.isDigitAt, isDigit] using h

theorem isDigitAt_one (c d : Char) (r : List Char) (h : time.isDigitAt (c :: d :: r) 1 = true) :
    isDigit d = true := by
  simpa [time.isDigitAt, isDigit] using h

theorem getnum_inv (s : List Char) (fixed : Bool) (n : Int) (r : List Char)
    (h : time.getnum s fixed = some (n, r)) :
    ∃ ds, s = ds ++ r ∧
      (isDigitsOfLength 2 ds ∨ (fixed = false ∧ isDigitsOfLength 1 ds)) := by
  cases s with
  | nil => simp [time.getnum] at h
  | cons c0 r0 =>
    unfold time.getnum at h
    simp only at h
    by_cases h0 : time.isDigitAt (c0 :: r0) 0 = true
    · have d0 := isDigitAt_zero c0 r0 h0
      simp only [h0, Bool.not_true, Bool.false_eq_true, if_false] at h
      by_cases h1 : time.isDigitAt (c0 :: r0) 1 = true
      · simp only [h1, Bool.not_true, Bool.false_eq_true, if_false, Option.some.injEq,
          Prod.mk.injEq] at h
        cases r0 with
        | nil => simp [time.isDigitAt] at h1
        | cons c1 r1 =>
          have d1 := isDigitAt_one c0 c1 r1 h1
          refine ⟨[c0, c1], ?_, Or.inl ⟨rfl, ?_⟩⟩
          · rw [← h.2]; rfl
          · intro c hc
            simp only [List.mem_cons, List.mem_singleton, List.not_mem_nil, or_false] at hc
            rcases hc with rfl | rfl
            · exact d0
            · exact d1
      · simp only [h1, Bool.not_false, if_true] at h
        cases fixed with
        | true => simp at h
        | false =>
          simp only [Bool.false_eq_true, if_false, Option.some.injEq, Prod.mk.injEq] at h
          refine ⟨[c0], ?_, Or.inr ⟨rfl, rfl, ?_⟩⟩
          · rw [← h.2]; rfl
          · intro c hc
            simp only [List.mem_singleton] at hc
            rw [hc]; exact d0
    · simp only [h0, Bool.not_false, if_true] at h
      cases h

theorem leadingInt_inv (s : List Char) (x q : Nat) (rem : List Char)
    (h : time.leadingInt s x = some (q, rem)) :
    ∃ ds, s = ds ++ rem ∧ ∀ c ∈ ds, isDigit c = true := by
  induction s generalizing x with
  | nil =>
    simp only [time.leadingInt, Option.some.injEq, Prod.mk.injEq] at h
    exact ⟨[], by rw [← h.2]; rfl, by simp⟩
  | cons c r ih =>
    unfold time.leadingInt at h
    split at h
    · simp only [Option.some.injEq, Prod.mk.injEq] at h
      exact ⟨[], by rw [← h.2]; rfl, by simp⟩
    · rename_i hc
      split at h
      · cases h
      · split at h
        · cases h
        · obtain ⟨ds, h1, h2⟩ := ih _ h
          refine ⟨c :: ds, by rw [h1]; rfl, ?_⟩
          intro d hd
          rcases List.mem_cons.mp hd with rfl | hd
          · simp only [not_or, not_lt] at hc
            simp [isDigit, hc.1, hc.2]
          · exact h2 d hd

theorem atoi_digits_inv (s : List Char) (y : Int) (c : Char) (r : List Char) (hs : s = c :: r)
    (hc : isDigit c = true) (h : time.atoi s = some y) : ∀ d ∈ s, isDigit d = true := by
  subst hs
  have h1 : c ≠ '-' := by rintro rfl; exact absurd hc (by decide)
  have h2 : c ≠ '+' := by rintro rfl; exact absurd hc (by decide)
  unfold time.atoi at h
  simp only [List.head?_cons, Option.some.injEq, h1, h2, or_self, if_false] at h
  cases hl : time.leadingInt (c :: r) 0 with
  | none => rw [hl] at h; cases h
  | some qr =>
    obtain ⟨q, rem⟩ := qr
    rw [hl] at h
    simp only at h
    split at h
    · cases h
    · rename_i hrem
      simp only [ne_eq, not_not] at hrem
      obtain ⟨ds, e, hd⟩ := leadingInt_inv _ _ _ _ hl
      rw [hrem, List.append_nil] at e
      rw [e]; exact hd

theorem parseStd_weekday_inv (v r : List Char) (p p' : time.parsed)
    (h : time.parseStd .stdWeekDay v p = .ok (r, p')) :
    ∃ wd, v = wd ++ r ∧ isNameOf time.shortDayNames wd := by
  simp only [time.parseStd] at h
  cases hl : time.lookup time.shortDayNames v 0 with
  | none => rw [hl] at h; cases h
  | some x =>
    obtain ⟨j, r'⟩ := x
    rw [hl] at h
    simp only [Except.ok.injEq, Prod.mk.injEq] at h
    obtain ⟨pre, h1, h2⟩ := lookup_inv _ _ _ _ _ hl
    exact ⟨pre, by rw [← h.1]; exact h1, h2⟩

theorem parseStd_month_inv (v r : List Char) (p p' : time.parsed)
    (h : time.parseStd .stdMonth v p = .ok (r, p')) :
    ∃ mon, v = mon ++ r ∧ isNameOf time.shortMonthNames mon := by
  simp only [time.parseStd] at h
  cases hl : time.lookup time.shortMonthNames v 0 with
  | none => rw [hl] at h; cases h
  | some x =>
    obtain ⟨j, r'⟩ := x
    rw [hl] at h
    simp only [Except.ok.injEq, Prod.mk.injEq] at h
    obtain ⟨pre, h1, h2⟩ := lookup_inv _ _ _ _ _ hl
    exact ⟨pre, by rw [← h.1]; exact h1, h2⟩

theorem parseStd_day_inv (v r : List Char) (p p' : time.parsed)
    (h : time.parseStd .stdZeroDay v p = .ok (r, p')) :
    ∃ dd, v = dd ++ r ∧ isDigitsOfLength 2 dd := by
  simp only [time.parseStd] at h
  cases hl : time.getnum v true with
  | none => rw [hl] at h; cases h
  | some x =>
    obtain ⟨n, r'⟩ := x
    rw [hl] at h
    simp only [Except.ok.injEq, Prod.mk.injEq] at h
    obtain ⟨ds, h1, h2⟩ := getnum_inv _ _ _ _ hl
    rcases h2 with h2 | ⟨h2, -⟩
    · exact ⟨ds, by rw [← h.1]; exact h1, h2⟩
    · cases h2

theorem parseStd_hour_inv (v r : List Char) (p p' : time.parsed)
    (h : time.parseStd .stdHour v p = .ok (r, p')) :
    ∃ hh, v = hh ++ r ∧ (isDigitsOfLength 1 hh ∨ isDigitsOfLength 2 hh) := by
  simp only [time.parseStd] at h
  cases hl : time.getnum v false with
  | none => rw [hl] at h; cases h
  | some x =>
    obtain ⟨n, r'⟩ := x
    rw [hl] at h
    simp only at h
    split at h
    · cases h
    · simp only [Except.ok.injEq, Prod.mk.injEq] at h
      obtain ⟨ds, h1, h2⟩ := getnum_inv _ _ _ _ hl
      refine ⟨ds, by rw [← h.1]; exact h1, ?_⟩
      rcases h2 with h2 | ⟨-, h2⟩
      · exact Or.inr h2
      · exact Or.inl h2

theorem parseStd_minute_inv (v r : List Char) (p p' : time.parsed)
    (h : time.parseStd .stdZeroMinute v p = .ok (r, p')) :
    ∃ mm, v = mm ++ r ∧ isDigitsOfLength 2 mm := by
  simp only [time.parseStd] at h
  cases hl : time.getnum v true with
  | none => rw [hl] at h; cases h
  | some x =>
    obtain ⟨n, r'⟩ := x
    rw [hl] at h
    simp only at h
    split at h
    · cases h
    · simp only [Except.ok.injEq, Prod.mk.injEq] at h
      obtain ⟨ds, h1, h2⟩ := getnum_inv _ _ _ _ hl
      rcases h2 with h2 | ⟨h2, -⟩
      · exact ⟨ds, by rw [← h.1]; exact h1, h2⟩
      · cases h2

theorem parseStd_year_inv (v r : List Char) (p p' : time.parsed)
    (h : time.parseStd .stdLongYear v p = .ok (r, p')) :
    ∃ yyyy, v = yyyy ++ r ∧ isDigitsOfLength 4 yyyy := by
  simp only [time.parseStd] at h
  split at h
  · cases h
  · rename_i hc
    simp only [not_or, Nat.not_lt, Bool.not_eq_true, Bool.not_eq_false'] at hc
    cases ha : time.atoi (v.take 4) with
    | none => rw [ha] at h; cases h
    | some y =>
      rw [ha] at h
      simp only [Except.ok.injEq, Prod.mk.injEq] at h
      refine ⟨v.take 4, by rw [← h.1, List.take_append_drop], ?_, ?_⟩
      · rw [List.length_take]; omega
      · cases v with
        | nil => simp at hc
        | cons c r0 =>
          have hd := isDigitAt_zero c r0 hc.2
          exact atoi_digits_inv _ y c (r0.take 3) (by simp) hd ha

theorem drop_length_takeWhile (q : Char → Bool) (l : List Char) :
    l.drop (l.takeWhile q).length = l.dropWhile q := by
  induction l with
  | nil => rfl
  | cons x l ih =>
    by_cases hx : q x = true
    · simp [List.takeWhile, List.dropWhile, hx, ih]
    · simp [List.takeWhile, List.dropWhile, hx]

theorem parseStd_second_inv (v r : List Char) (p p' : time.parsed)
    (h : time.parseStd .stdZeroSecond v p = .ok (r, p')) :
    ∃ ss frac, v = ss ++ (frac ++ r) ∧ isDigitsOfLength 2 ss ∧
      (frac = [] ∨ ∃ (sep : Char) (ds : List Char), frac = sep :: ds ∧ (sep = '.' ∨ sep = ',') ∧
        ds ≠ [] ∧ ∀ c ∈ ds, isDigit c = true) := by
  simp only [time.parseStd] at h
  cases hl : time.getnum v true with
  | none => rw [hl] at h; cases h
  | some x =>
    obtain ⟨n, v1⟩ := x
    rw [hl] at h
    simp only at h
    obtain ⟨ss, h1, h2⟩ := getnum_inv _ _ _ _ hl
    have hss : isDigitsOfLength 2 ss := by
      rcases h2 with h2 | ⟨h2, -⟩
      · exact h2
      · cases h2
    split at h
    · cases h
    · split at h
      · rename_i hfrac
        obtain ⟨hlen, hsep, hdig⟩ := hfrac
        cases v1 with
        | nil => simp at hlen
        | cons sep v2 =>
          cases v2 with
          | nil => simp at hlen
          | cons d1 v3 =>
            have hd1 := isDigitAt_one sep d1 v3 hdig
            simp only [List.headD_cons] at hsep
            have hsep' : sep = '.' ∨ sep = ',' := by
              simpa [time.commaOrPeriod] using hsep
            split at h
            · cases h
            · cases h
            · simp only [Except.ok.injEq, Prod.mk.injEq] at h
              refine ⟨ss, sep :: d1 :: v3.takeWhile (fun c => decide ('0' ≤ c) && decide (c ≤ '9')),
                ?_, hss, Or.inr ⟨sep, _, rfl, hsep', by simp, ?_⟩⟩
              · have e : (sep :: d1 :: v3).drop (2 + (((sep :: d1 :: v3).drop 2).takeWhile
                    (fun c => decide ('0' ≤ c) && decide (c ≤ '9'))).length) =
                    v3.dropWhile (fun c => decide ('0' ≤ c) && decide (c ≤ '9')) := by
                  rw [Nat.add_comm]
                  simp only [List.drop_succ_cons, List.drop_zero]
                  exact drop_length_takeWhile _ v3
                rw [h1, ← h.1, e]
                simp only [List.cons_append, List.takeWhile_append_dropWhile]
              · intro c hc
                rcases List.mem_cons.mp hc with rfl | hc
                · exact hd1
                · have := List.mem_takeWhile_imp hc
                  simpa [isDigit] using this
      · simp only [Except.ok.injEq, Prod.mk.injEq] at h
        exact ⟨ss, [], by rw [h1, ← h.1]; rfl, hss, Or.inl rfl⟩

theorem parseSignedOffset_inv (w : List Char) :
    time.parseSignedOffset w = 0 ∨ isSignedNumber (w.take (time.parseSignedOffset w)) := by
  cases w with
  | nil => left; rfl
  | cons sign r =>
    unfold time.parseSignedOffset
    simp only
    split
    · left; rfl
    · rename_i hs
      cases hl : time.leadingInt r 0 with
      | none => left; rfl
      | some x =>
        obtain ⟨q, rem⟩ := x
        simp only
        split
        · left; rfl
        · rename_i hne
          split
          · left; rfl
          · right
            obtain ⟨ds, e, hd⟩ := leadingInt_inv _ _ _ _ hl
            have hds : ds ≠ [] := by
              intro h0; rw [h0] at e; exact hne e
            have hlen : (sign :: r).length - rem.length = ds.length + 1 := by
              rw [e]; simp; omega
            rw [hlen]
            refine ⟨sign, ds, ?_, ?_, hds, hd⟩
            · rw [e]; simp
            · by_contra hcon
              exact hs ⟨fun h => hcon (Or.inr h), fun h => hcon (Or.inl h)⟩

theorem countUpper_inv (v : List Char) (m : Nat) :
    (v.take (time.countUpper v m)).length = time.countUpper v m ∧
      ∀ c ∈ v.take (time.countUpper v m), isUpper c = true := by
  induction v generalizing m with
  | nil => cases m <;> simp [time.countUpper]
  | cons x v ih =>
    cases m with
    | zero => simp [time.countUpper]
    | succ m =>
      unfold time.countUpper
      split
      · simp
      · rename_i hx
        simp only [not_or, not_lt] at hx
        obtain ⟨h1, h2⟩ := ih m
        have e : 1 + time.countUpper v m = time.countUpper v m + 1 := by omega
        rw [e]
        refine ⟨by simp only [List.take_succ_cons, List.length_cons, h1], ?_⟩
        intro c hc
        simp only [List.take_succ_cons, List.mem_cons] at hc
        rcases hc with rfl | hc
        · simp [isUpper, hx.1, hx.2]
        · exact h2 c hc

theorem parseTimeZone_inv (v : List Char) (n : Nat) (h : time.parseTimeZone v = some n) :
    isZoneText (v.take n) := by
  unfold time.parseTimeZone at h
  split at h
  · cases h
  · rename_i hlen
    split at h
    · rename_i hc
      simp only [Option.some.injEq] at h
      subst h
      rcases hc.2 with h1 | h1
      · exact Or.inr (Or.inl h1)
      · exact Or.inr (Or.inr (Or.inl h1))
    · split at h
      · rename_i hg
        simp only [Option.some.injEq] at h
        subst h
        right; right; right; left
        unfold time.parseGMT
        split
        · exact ⟨[], by rw [List.append_nil]; exact hg, Or.inl rfl⟩
        · refine ⟨(v.drop 3).take (time.parseSignedOffset (v.drop 3)), ?_, ?_⟩
          · rw [← hg, List.take_add]
          · rcases parseSignedOffset_inv (v.drop 3) with h0 | h0
            · left; rw [h0]; rfl
            · right; exact h0
      · split at h
        · split at h
          · simp only [Option.some.injEq] at h
            subst h
            rename_i hpos
            rcases parseSignedOffset_inv v with h0 | h0
            · omega
            · exact Or.inr (Or.inr (Or.inr (Or.inr (Or.inl h0))))
          · cases h
        · have hcu := countUpper_inv v 6
          right; right; right; right; right
          split at h
          · rename_i hk
            split at h
            · simp only [Option.some.injEq] at h
              subst h
              rw [hk] at hcu
              exact ⟨by omega, by omega, hcu.2⟩
            · cases h
          · rename_i hk
            split at h
            · simp only [Option.some.injEq] at h
              subst h
              rw [hk] at hcu
              exact ⟨by omega, by omega, hcu.2⟩
            · cases h
          · rename_i hk
            simp only [Option.some.injEq] at h
            subst h
            rw [hk] at hcu
            exact ⟨by omega, by omega, hcu.2⟩
          · cases h

theorem parseStd_tz_inv (v r : List Char) (p p' : time.parsed)
    (h : time.parseStd .stdTZ v p = .ok (r, p')) :
    ∃ zone, v = zone ++ r ∧ isZoneText zone := by
  simp only [time.parseStd] at h
  split at h
  · rename_i hu
    simp only [Except.ok.injEq, Prod.mk.injEq] at h
    exact ⟨v.take 3, by rw [← h.1, List.take_append_drop], Or.inl hu.2⟩
  · cases hz : time.parseTimeZone v with
    | none => rw [hz] at h; cases h
    | some n =>
      rw [hz] at h
      simp only [Except.ok.injEq, Prod.mk.injEq] at h
      exact ⟨v.take n, by rw [← h.1, List.take_append_drop], parseTimeZone_inv v n hz⟩

theorem parseChunks_cons_inv (pfx : List Char) (std : time.Std)
    (rest : List (List Char × time.Std)) (v : List Char) (p : time.parsed)
    (res : List Char × time.parsed)
    (h : time.parseChunks ((pfx, std) :: rest) v p = .ok res) :
    ∃ v1 v2 p1, time.skip v pfx = some v1 ∧ time.parseStd std v1 p = .ok (v2, p1) ∧
      time.parseChunks rest v2 p1 = .ok res := by
  simp only [time.parseChunks] at h
  cases hs : time.skip v pfx with
  | none => rw [hs] at h; cases h
  | some v1 =>
    rw [hs] at h
    simp only at h
    cases hp : time.parseStd std v1 p with
    | error e => rw [hp] at h; cases h
    | ok x =>
      obtain ⟨v2, p1⟩ := x
      rw [hp] at h
      exact ⟨v1, v2, p1, rfl, hp, h⟩

theorem isNameOf_ne_nil (tab : List (List Char)) (s : List Char) (htab : ∀ n ∈ tab, n ≠ [])
    (h : isNameOf tab s) : s ≠ [] := by
  obtain ⟨name, hn, e⟩ := h
  intro hs
  rw [hs] at e
  simp only [List.map_nil] at e
  exact htab name hn (List.map_eq_nil_iff.mp e.symm)

theorem isDigitsOfLength_ne_nil (n : Nat) (s : List Char) (hn : 0 < n)
    (h : isDigitsOfLength n s) : s ≠ [] := by
  intro hs
  rw [hs] at h
  have := h.1
  simp at this
  omega

theorem isZoneText_ne_nil (z : List Char) (h : isZoneText z) : z ≠ [] := by
  rcases h with h | h | h | ⟨t, h, -⟩ | ⟨sign, ds, h, -⟩ | ⟨h, -⟩
  · rw [h]; decide
  · rw [h]; decide
  · rw [h]; decide
  · rw [h]; simp
  · rw [h]; simp
  · intro hz; rw [hz] at h; simp at h

/-- `Parse` with the layout `RFC1123` accepts only texts of the form the
layout stands for. -/
theorem parse_ok_lenient (local_ : time.Location) (s : List Char) (t : time.Time)
    (h : time.Parse local_ time.RFC1123 s = .ok t) : LenientTimeFormat s := by
  unfold time.Parse at h
  cases hc : time.parseChunks time.RFC1123.chunks s ⟨0, -1, -1, 0, 0, 0, 0, none, []⟩ with
  | error e => rw [hc] at h; cases h
  | ok x =>
    obtain ⟨value, p⟩ := x
    rw [hc] at h
    have hsuf : time.skip value time.RFC1123.suffix = some value := rfl
    simp only [hsuf] at h
    have hval : value = [] := by
      by_contra hne
      rw [if_pos hne] at h
      cases h
    subst hval
    clear h hsuf
    simp only [time.RFC1123] at hc
    obtain ⟨a1, b1, p1, hs1, hp1, hc⟩ := parseChunks_cons_inv _ _ _ _ _ _ hc
    obtain ⟨a2, b2, p2, hs2, hp2, hc⟩ := parseChunks_cons_inv _ _ _ _ _ _ hc
    obtain ⟨a3, b3, p3, hs3, hp3, hc⟩ := parseChunks_cons_inv _ _ _ _ _ _ hc
    obtain ⟨a4, b4, p4, hs4, hp4, hc⟩ := parseChunks_cons_inv _ _ _ _ _ _ hc
    obtain ⟨a5, b5, p5, hs5, hp5, hc⟩ := parseChunks_cons_inv _ _ _ _ _ _ hc
    obtain ⟨a6, b6, p6, hs6, hp6, hc⟩ := parseChunks_cons_inv _ _ _ _ _ _ hc
    obtain ⟨a7, b7, p7, hs7, hp7, hc⟩ := parseChunks_cons_inv _ _ _ _ _ _ hc
    obtain ⟨a8, b8, p8, hs8, hp8, hc⟩ := parseChunks_cons_inv _ _ _ _ _ _ hc
    simp only [time.parseChunks, Except.ok.injEq, Prod.mk.injEq] at hc
    obtain ⟨hb8, -⟩ := hc
    subst hb8
    have e1 : a1 = s := by
      have : time.skip s [] = some s := rfl
      rw [this] at hs1
      exact (Option.some.inj hs1).symm
    subst e1
    obtain ⟨wd, ewd, hwd⟩ := parseStd_weekday_inv _ _ _ _ hp1
    obtain ⟨sp1, esp1, hsp1, hsp1'⟩ := skip_comma_space_inv _ _ hs2
    obtain ⟨dd, edd, hdd⟩ := parseStd_day_inv _ _ _ _ hp2
    obtain ⟨sp2, esp2, hsp2, hsp2'⟩ := skip_space_inv _ _ hs3
    obtain ⟨mon, emon, hmon⟩ := parseStd_month_inv _ _ _ _ hp3
    obtain ⟨sp3, esp3, hsp3, hsp3'⟩ := skip_space_inv _ _ hs4
    obtain ⟨yyyy, eyyyy, hyyyy⟩ := parseStd_year_inv _ _ _ _ hp4
    obtain ⟨sp4, esp4, hsp4, hsp4'⟩ := skip_space_inv _ _ hs5
    obtain ⟨hh, ehh, hhh⟩ := parseStd_hour_inv _ _ _ _ hp5
    have ec1 := skip_colon_inv _ _ hs6
    obtain ⟨mm, emm, hmm⟩ := parseStd_minute_inv _ _ _ _ hp6
    have ec2 := skip_colon_inv _ _ hs7
    obtain ⟨ss, frac, ess, hss, hfrac⟩ := parseStd_second_inv _ _ _ _ hp7
    obtain ⟨sp5, esp5, hsp5, hsp5'⟩ := skip_space_inv _ _ hs8
    obtain ⟨zone, ezone, hzone⟩ := parseStd_tz_inv _ _ _ _ hp8
    have hdn : ∀ n ∈ time.shortDayNames, n ≠ [] := by decide
    have hmn : ∀ n ∈ time.shortMonthNames, n ≠ [] := by decide
    have n2 : a2 ≠ [] := by
      rw [edd]; intro h0
      exact isDigitsOfLength_ne_nil 2 dd (by omega) hdd (List.append_eq_nil.mp h0).1
    have n3 : a3 ≠ [] := by
      rw [emon]; intro h0
      exact isNameOf_ne_nil _ mon hmn hmon (List.append_eq_nil.mp h0).1
    have n4 : a4 ≠ [] := by
      rw [eyyyy]; intro h0
      exact isDigitsOfLength_ne_nil 4 yyyy (by omega) hyyyy (List.append_eq_nil.mp h0).1
    have n5 : a5 ≠ [] := by
      rw [ehh]; intro h0
      rcases hhh with h1 | h1
      · exact isDigitsOfLength_ne_nil 1 hh (by omega) h1 (List.append_eq_nil.mp h0).1
      · exact isDigitsOfLength_ne_nil 2 hh (by omega) h1 (List.append_eq_nil.mp h0).1
    have n8 : a8 ≠ [] := by
      rw [ezone]; intro h0
      exact isZoneText_ne_nil zone hzone (List.append_eq_nil.mp h0).1
    refine ⟨wd, sp1, dd, sp2, mon, sp3, yyyy, sp4, hh, mm, ss, frac, sp5, zone, ?_, hwd,
      ⟨hsp1' n2, hsp1⟩, hdd, ⟨hsp2' n3, hsp2⟩, hmon, ⟨hsp3' n4, hsp3⟩, hyyyy, ⟨hsp4' n5, hsp4⟩,
      hhh, hmm, hss, hfrac, ⟨hsp5' n8, hsp5⟩, hzone⟩
    rw [ewd, esp1, edd, esp2, emon, esp3, eyyyy, esp4, ehh, ec1, emm, ec2, ess, esp5, ezone,
      List.append_nil]

/-- C5, amended: `UnmarshalXML` tries the one layout `timeFormat` and no other.
For an element whose text `v` is not of the form that layout stands for in
`time.Parse` (weekday name in any case, comma, spaces, two-digit day, spaces,
month name in any case, spaces, four-digit year, spaces, one- or two-digit
hour, colon, two-digit minute, colon, two-digit second, optional fraction,
spaces, zone, and nothing else) it returns a parse error and leaves `*t` as
it was. -/
theorem unmarshalXML_rejects_outside_layout (local_ : time.Location) (t : Time)
    (d d1 : xml.Decoder) (v : List Char)
    (hd : d.unmarshalData (d.toks.length + 1) [] = .ok (v, d1))
    (hv : ¬ LenientTimeFormat v) :
    ∃ err, Time.UnmarshalXML local_ t d = (t, .error (.parse err)) := by
  unfold Time.UnmarshalXML
  rw [hd]
  cases hp : time.Parse local_ timeFormat v with
  | error err => exact ⟨err, by simp only [hp]⟩
  | ok newT => exact absurd (parse_ok_lenient local_ v newT hp) hv

theorem unmarshalXML_rejects_outside_layout_witness :
    (xml.Decoder.mk [.CharData "2017-09-27T14:28:34Z".toList,
        .EndElement ⟨[], "getlastmodified".toList⟩] [⟨[], "getlastmodified".toList⟩]).unmarshalData
        3 [] = .ok ("2017-09-27T14:28:34Z".toList, ⟨[], []⟩) ∧
      ¬ LenientTimeFormat "2017-09-27T14:28:34Z".toList ∧
      ∃ err, Time.UnmarshalXML time.UTC ⟨⟨0, 0, time.UTC⟩⟩
        ⟨[.CharData "2017-09-27T14:28:34Z".toList,
          .EndElement ⟨[], "getlastmodified".toList⟩], [⟨[], "getlastmodified".toList⟩]⟩ =
        (⟨⟨0, 0, time.UTC⟩⟩, .error (.parse err)) := by
  have hv : ¬ LenientTimeFormat "2017-09-27T14:28:34Z".toList := by
    rintro ⟨wd, sp1, dd, sp2, mon, sp3, yyyy, sp4, hh, mm, ss, frac, sp5, zone, h, -⟩
    have hm : ',' ∈ "2017-09-27T14:28:34Z".toList := by
      rw [h]
      exact List.mem_append_right _ (List.mem_cons_self _ _)
    revert hm
    decide
  exact ⟨rfl, hv,
    unmarshalXML_rejects_outside_layout time.UTC ⟨⟨0, 0, time.UTC⟩⟩ _ ⟨[], []⟩ _ rfl hv⟩

/-! ## Further claims on `Error`, `StatusOK` and `UnmarshalXML` -/

/-- C15: for every `Error`, whatever its four fields, `Error()` returns a
non-empty string. -/
theorem error_text_nonempty (e : Error) : e.Error ≠ [] := by
  unfold Error.Error
  split_ifs with h1 h2 h3
  · exact h1
  · exact h2
  · exact h3
  · decide

/-- C16: `UnmarshalXML` assigns `*t` only on the success path.  If reading the
element content fails, or the text fails to parse against `timeFormat`, the
error is returned and `*t` is as before the call; otherwise `*t` is exactly the
time `time.Parse` returns for the text.  So whenever an error is returned `*t`
is unchanged. -/
theorem unmarshalXML_atomic_on_failure (local_ : time.Location) (t : Time) (d : xml.Decoder) :
    (∀ err, d.unmarshalData (d.toks.length + 1) [] = .error err →
      Time.UnmarshalXML local_ t d = (t, .error (.decode err))) ∧
    (∀ v d1 err, d.unmarshalData (d.toks.length + 1) [] = .ok (v, d1) →
      time.Parse local_ timeFormat v = .error err →
      Time.UnmarshalXML local_ t d = (t, .error (.parse err))) ∧
    (∀ v d1 newT, d.unmarshalData (d.toks.length + 1) [] = .ok (v, d1) →
      time.Parse local_ timeFormat v = .ok newT →
      Time.UnmarshalXML local_ t d = (⟨newT⟩, .ok d1)) ∧
    (∀ err, (Time.UnmarshalXML local_ t d).2 = .error err →
      (Time.UnmarshalXML local_ t d).1 = t) := by
  refine ⟨?_, ?_, ?_, ?_⟩
  · intro err h
    unfold Time.UnmarshalXML
    rw [h]
  · intro v d1 err h hp
    unfold Time.UnmarshalXML
    rw [h]
    simp only [hp]
  · intro v d1 newT h hp
    unfold Time.UnmarshalXML
    rw [h]
    simp only [hp]
  · intro err
    unfold Time.UnmarshalXML
    cases h : d.unmarshalData (d.toks.length + 1) [] with
    | error e => intro _; rfl
    | ok r =>
      obtain ⟨v, d1⟩ := r
      simp only
      cases hp : time.Parse local_ timeFormat v with
      | error e => intro _; rfl
      | ok newT => intro h2; cases h2

theorem no_match_without_trailing_space (ver ws digs : List Char)
    (hver : ∀ c ∈ ver, isVersionChar c = true) (hws : ∀ c ∈ ws, isSpace c = true)
    (hdigs : ∀ c ∈ digs, isDigit c = true) :
    ¬ ∃ d r, StatusLineMatch ("HTTP/".toList ++ (ver ++ (ws ++ digs))) d r := by
  rintro ⟨d, r, ver', ws1, ws2, hs, -, hverc', hws1, hws1c, hd, hdc, hws2, hws2c, -⟩
  have hs := List.append_cancel_left hs
  by_cases hw : ws = []
  · subst hw
    obtain ⟨c, hc⟩ := List.exists_mem_of_ne_nil ws1 hws1
    have hmem : c ∈ ver ++ ([] ++ digs) := by
      rw [hs]
      exact List.mem_append_right _ (List.mem_append_left _ hc)
    have hv : isVersionChar c = true := by
      rcases List.mem_append.mp hmem with h | h
      · exact hver c h
      · have : isDigit c = true := hdigs c (by simpa using h)
        unfold isVersionChar
        rw [this]; rfl
    rw [isVersionChar_of_isSpace c (hws1c c hc)] at hv
    exact absurd hv (by decide)
  · obtain ⟨-, e1⟩ := run_unique isVersionChar ver ver' _ _ hver hverc'
      (head?_append_ne_nil ws _ hw _ (fun c hc => isVersionChar_of_isSpace c (hws c hc)))
      (head?_append_ne_nil ws1 _ hws1 _ (fun c hc => isVersionChar_of_isSpace c (hws1c c hc)))
      hs
    have hdh : ∀ x ∈ digs.head?, isSpace x = false := by
      intro x hx
      exact isSpace_of_isDigit x (hdigs x (List.mem_of_mem_head? hx))
    obtain ⟨-, e2⟩ := run_unique isSpace ws ws1 _ _ hws hws1c hdh
      (head?_append_ne_nil d _ hd _ (fun c hc => isSpace_of_isDigit c (hdc c hc)))
      e1
    obtain ⟨c, hc⟩ := List.exists_mem_of_ne_nil ws2 hws2
    have hmem : c ∈ digs := by
      rw [e2]
      exact List.mem_append_right _ (List.mem_append_left _ hc)
    have := hdigs c hmem
    rw [isDigit_of_isSpace c (hws2c c hc)] at this
    exact absurd this (by decide)

/-- C17: a status line that ends with the code is rejected.  For every Status
"HTTP/" + version + whitespace + digits (version over `[0-9.]`, whitespace
over `\s`, digits over `[0-9]`) `StatusOK` returns false, whatever the code,
because the pattern asks for whitespace after the code: "HTTP/1.1 200" gives
false, and "HTTP/1.1 200 " with one trailing space gives true. -/
theorem statusOK_false_without_trailing_space (ver ws digs : List Char)
    (hver : ∀ c ∈ ver, isVersionChar c = true) (hws : ∀ c ∈ ws, isSpace c = true)
    (hdigs : ∀ c ∈ digs, isDigit c = true) :
    DavProp.StatusOK ⟨"HTTP/".toList ++ (ver ++ (ws ++ digs)), [], ⟨[], []⟩, 0,
        ⟨⟨0, 0, time.UTC⟩⟩⟩ = some false ∧
      DavProp.StatusOK ⟨"HTTP/1.1 200".toList, [], ⟨[], []⟩, 0, ⟨⟨0, 0, time.UTC⟩⟩⟩ =
        some false ∧
      DavProp.StatusOK ⟨"HTTP/1.1 200 ".toList, [], ⟨[], []⟩, 0, ⟨⟨0, 0, time.UTC⟩⟩⟩ =
        some true := by
  refine ⟨?_, by decide, by decide⟩
  exact statusOK_of_no_match _ (no_match_without_trailing_space ver ws digs hver hws hdigs)

theorem statusOK_false_without_trailing_space_witness :
    (∀ c ∈ "1.1".toList, isVersionChar c = true) ∧ (∀ c ∈ " ".toList, isSpace c = true) ∧
      (∀ c ∈ "204".toList, isDigit c = true) ∧
      DavProp.StatusOK ⟨"HTTP/".toList ++ ("1.1".toList ++ (" ".toList ++ "204".toList)), [],
        ⟨[], []⟩, 0, ⟨⟨0, 0, time.UTC⟩⟩⟩ = some false :=
  ⟨by decide, by decide, by decide,
    (statusOK_false_without_trailing_space "1.1".toList " ".toList "204".toList
      (by decide) (by decide) (by decide)).1⟩

theorem head?_dropWhile_not (p : Char → Bool) (l : List Char) :
    ∀ x ∈ (l.dropWhile p).head?, p x = false := by
  induction l with
  | nil => intro x hx; simp at hx
  | cons a l ih =>
    intro x hx
    by_cases ha : p a = true
    · rw [List.dropWhile_cons_of_pos ha] at hx
      exact ih x hx
    · rw [List.dropWhile_cons_of_neg ha] at hx
      simp only [List.head?_cons, Option.mem_def, Option.some.injEq] at hx
      subst hx
      simpa using ha

/-- A match of the status-line pattern does not depend on the version: the
version run of the pattern takes the given version and the version characters
that follow it. -/
theorem statusLineMatch_version (v1 v2 rest d r : List Char)
    (h1 : ∀ c ∈ v1, isVersionChar c = true)
    (hne2 : v2 ≠ []) (h2 : ∀ c ∈ v2, isVersionChar c = true)
    (h : StatusLineMatch ("HTTP/".toList ++ (v1 ++ rest)) d r) :
    StatusLineMatch ("HTTP/".toList ++ (v2 ++ rest)) d r := by
  obtain ⟨ver, ws1, ws2, hs, hver, hverc, hws1, hws1c, hd, hdc, hws2, hws2c, hr⟩ := h
  have hs := List.append_cancel_left hs
  have hsplit : rest = rest.takeWhile isVersionChar ++ rest.dropWhile isVersionChar :=
    (List.takeWhile_append_dropWhile _ _).symm
  have hp : ∀ c ∈ rest.takeWhile isVersionChar, isVersionChar c = true :=
    fun c hc => List.mem_takeWhile_imp hc
  have hs2 : (v1 ++ rest.takeWhile isVersionChar) ++ rest.dropWhile isVersionChar =
      ver ++ (ws1 ++ (d ++ (ws2 ++ r))) := by
    rw [List.append_assoc, ← hsplit]; exact hs
  obtain ⟨-, e⟩ := run_unique isVersionChar (v1 ++ rest.takeWhile isVersionChar) ver _ _
    (fun c hc => (List.mem_append.mp hc).elim (h1 c) (hp c)) hverc
    (head?_dropWhile_not _ _)
    (head?_append_ne_nil ws1 _ hws1 _ (fun c hc => isVersionChar_of_isSpace c (hws1c c hc)))
    hs2
  refine ⟨v2 ++ rest.takeWhile isVersionChar, ws1, ws2, ?_, ?_, ?_, hws1, hws1c, hd, hdc, hws2,
    hws2c, hr⟩
  · rw [← e, List.append_assoc, ← hsplit]
  · intro h0
    exact hne2 (List.append_eq_nil.mp h0).1
  · exact fun c hc => (List.mem_append.mp hc).elim (h2 c) (hp c)

/-- C18: `StatusOK` does not depend on the protocol version.  For all
non-empty `v1`, `v2` over `[0-9.]` and every `rest`, `StatusOK` gives the same
result on "HTTP/" + v1 + rest and on "HTTP/" + v2 + rest, the first group
`FindStringSubmatch` captures is the same for both, and any two ways of
matching the pattern against the two texts agree on the code: the code is
determined by `rest`. -/
theorem statusOK_independent_of_version (v1 v2 rest : List Char)
    (hne1 : v1 ≠ []) (h1 : ∀ c ∈ v1, isVersionChar c = true)
    (hne2 : v2 ≠ []) (h2 : ∀ c ∈ v2, isVersionChar c = true) :
    DavProp.StatusOK ⟨"HTTP/".toList ++ (v1 ++ rest), [], ⟨[], []⟩, 0, ⟨⟨0, 0, time.UTC⟩⟩⟩ =
      DavProp.StatusOK ⟨"HTTP/".toList ++ (v2 ++ rest), [], ⟨[], []⟩, 0, ⟨⟨0, 0, time.UTC⟩⟩⟩ ∧
    (parseStatus.FindStringSubmatch ("HTTP/".toList ++ (v1 ++ rest))).get? 1 =
      (parseStatus.FindStringSubmatch ("HTTP/".toList ++ (v2 ++ rest))).get? 1 ∧
    (∀ d r d' r', StatusLineMatch ("HTTP/".toList ++ (v1 ++ rest)) d r →
      StatusLineMatch ("HTTP/".toList ++ (v2 ++ rest)) d' r' → d = d') := by
  have huniq : ∀ d r d' r', StatusLineMatch ("HTTP/".toList ++ (v1 ++ rest)) d r →
      StatusLineMatch ("HTTP/".toList ++ (v2 ++ rest)) d' r' → d = d' := by
    intro d r d' r' hm hm'
    exact (statusLineMatch_version v1 v2 rest d r h1 hne2 h2 hm).digs_unique hm'
  refine ⟨?_, ?_, huniq⟩
  · by_cases hm : ∃ d r, StatusLineMatch ("HTTP/".toList ++ (v1 ++ rest)) d r
    · obtain ⟨d, r, hm⟩ := hm
      have hm' := statusLineMatch_version v1 v2 rest d r h1 hne2 h2 hm
      rw [statusOK_of_match ⟨_, [], ⟨[], []⟩, 0, ⟨⟨0, 0, time.UTC⟩⟩⟩ hm,
        statusOK_of_match ⟨_, [], ⟨[], []⟩, 0, ⟨⟨0, 0, time.UTC⟩⟩⟩ hm']
    · have hm' : ¬ ∃ d r, StatusLineMatch ("HTTP/".toList ++ (v2 ++ rest)) d r := by
        rintro ⟨d, r, h⟩
        exact hm ⟨d, r, statusLineMatch_version v2 v1 rest d r h2 hne1 h1 h⟩
      rw [statusOK_of_no_match ⟨_, [], ⟨[], []⟩, 0, ⟨⟨0, 0, time.UTC⟩⟩⟩ hm,
        statusOK_of_no_match ⟨_, [], ⟨[], []⟩, 0, ⟨⟨0, 0, time.UTC⟩⟩⟩ hm']
  · by_cases hm : ∃ d r, StatusLineMatch ("HTTP/".toList ++ (v1 ++ rest)) d r
    · obtain ⟨d, r, hm⟩ := hm
      have hm' := statusLineMatch_version v1 v2 rest d r h1 hne2 h2 hm
      obtain ⟨ra, -, ea⟩ := findStringSubmatch_of_match hm
      obtain ⟨rb, -, eb⟩ := findStringSubmatch_of_match hm'
      rw [ea, eb]
      rfl
    · have hm' : ¬ ∃ d r, StatusLineMatch ("HTTP/".toList ++ (v2 ++ rest)) d r := by
        rintro ⟨d, r, h⟩
        exact hm ⟨d, r, statusLineMatch_version v2 v1 rest d r h2 hne1 h1 h⟩
      rw [findStringSubmatch_of_no_match hm, findStringSubmatch_of_no_match hm']

theorem statusOK_independent_of_version_witness :
    "1.1".toList ≠ [] ∧ (∀ c ∈ "1.1".toList, isVersionChar c = true) ∧
    "2".toList ≠ [] ∧ (∀ c ∈ "2".toList, isVersionChar c = true) ∧
    DavProp.StatusOK ⟨"HTTP/".toList ++ ("1.1".toList ++ " 207 Multi-Status".toList), [],
        ⟨[], []⟩, 0, ⟨⟨0, 0, time.UTC⟩⟩⟩ =
      DavProp.StatusOK ⟨"HTTP/".toList ++ ("2".toList ++ " 207 Multi-Status".toList), [],
        ⟨[], []⟩, 0, ⟨⟨0, 0, time.UTC⟩⟩⟩ ∧
    (parseStatus.FindStringSubmatch
        ("HTTP/".toList ++ ("1.1".toList ++ " 207 Multi-Status".toList))).get? 1 =
      some "207".toList :=
  ⟨by decide, by decide, by decide, by decide,
    (statusOK_independent_of_version "1.1".toList "2".toList " 207 Multi-Status".toList
      (by decide) (by decide) (by decide) (by decide)).1, by decide⟩

/-! ## The decoder on the tokens of a tree -/

theorem toksList_cons (n : xml.Node) (ns : List xml.Node) :
    xml.Node.toksList (n :: ns) = n.toks ++ xml.Node.toksList ns := by
  simp only [xml.Node.toksList]

theorem toksList_nil : xml.Node.toksList [] = [] := by
  simp only [xml.Node.toksList]

theorem toksList_append (a b : List xml.Node) :
    xml.Node.toksList (a ++ b) = xml.Node.toksList a ++ xml.Node.toksList b := by
  induction a with
  | nil => simp [toksList_nil]
  | cons n a ih => simp [toksList_cons, ih]

theorem atDecoderConsumed_some {S : Type} (s : S) (err : UnmarshalError) (d : xml.Decoder) :
    xml.atDecoderConsumed (s, some err) d = (s, .error err) := rfl

theorem atDecoder_some {S : Type} (s : S) (err : UnmarshalError) (d : xml.Decoder) :
    xml.atDecoder (s, some err) d = (s, .error err) := rfl

theorem matchPath_multistatus (name : xml.Name) :
    xml.matchPath Multistatus.typeInfo [] name =
      if name.Local = "response".toList then .perfect .Responses else .noMatch := by
  simp [xml.matchPath, Multistatus.typeInfo, @eq_comm _ _ name.Local]

theorem isNamed_of_not_element (l : List Char) (c : xml.Node) (h : c.isElement = false) :
    c.isNamed l = false := by
  cases c <;> first | rfl | simp [xml.Node.isElement] at h

theorem matchPath_multistatus_response (rs : List Char) :
    xml.matchPath Multistatus.typeInfo [] ⟨rs, "response".toList⟩ = .perfect .Responses := by
  rw [matchPath_multistatus]
  rfl

theorem unmarshalPath_invariant {S F : Type} (fields : List (xml.pathInfo F))
    (uf : F → xml.Name → Nat → xml.Decoder → S → S × Except UnmarshalError xml.Decoder)
    (P : S → Prop) (HP : ∀ f start fuel d s, P s → P (uf f start fuel d s).1) :
    ∀ fuel : Nat,
      (∀ d s parents start, P s →
        P (xml.Decoder.unmarshalPath fields uf fuel d s parents start).1) ∧
      (∀ d s parents, P s → P (xml.Decoder.unmarshalPathLoop fields uf fuel d s parents).1) := by
  intro fuel
  induction fuel with
  | zero =>
    constructor
    · intro d s parents start hs
      unfold xml.Decoder.unmarshalPath
      exact hs
    · intro d s parents hs
      unfold xml.Decoder.unmarshalPathLoop
      exact hs
  | succ fuel ih =>
    obtain ⟨ih1, ih2⟩ := ih
    constructor
    · intro d s parents start hs
      unfold xml.Decoder.unmarshalPath
      cases hm : xml.matchPath fields parents start with
      | noMatch => exact hs
      | perfect f =>
        simp only
        have := HP f start fuel d s hs
        cases hr : uf f start fuel d s with
        | mk s2 r2 =>
          rw [hr] at this
          cases r2 <;> exact this
      | descend p => exact ih2 d s p hs
    · intro d s parents hs
      unfold xml.Decoder.unmarshalPathLoop
      cases ht : d.Token with
      | error err => exact hs
      | ok r =>
        obtain ⟨t, d2⟩ := r
        cases t with
        | StartElement n a =>
          simp only
          have := ih1 d2 s parents n hs
          cases hr : xml.Decoder.unmarshalPath fields uf fuel d2 s parents n with
          | mk s2 r2 =>
            rw [hr] at this
            cases r2 with
            | error err => exact this
            | ok p =>
              obtain ⟨b2, d3⟩ := p
              cases b2 with
              | true => exact ih2 d3 s2 parents this
              | false =>
                simp only
                cases hs : d3.Skip fuel 0 with
                | error err => exact this
                | ok d4 => exact ih2 d4 s2 parents this
        | EndElement n => exact hs
        | CharData t => exact ih2 d2 s parents hs
        | Comment t => exact ih2 d2 s parents hs
        | ProcInst t i => exact ih2 d2 s parents hs
        | Directive t => exact ih2 d2 s parents hs

theorem unmarshalStruct_invariant {S F : Type} (fields : List (xml.pathInfo F))
    (uf : F → xml.Name → Nat → xml.Decoder → S → S × Except UnmarshalError xml.Decoder)
    (P : S → Prop) (HP : ∀ f start fuel d s, P s → P (uf f start fuel d s).1) :
    ∀ (fuel : Nat) (d : xml.Decoder) (s : S), P s →
      P (xml.Decoder.unmarshalStruct fields uf fuel d s).1 := by
  intro fuel
  induction fuel with
  | zero =>
    intro d s hs
    unfold xml.Decoder.unmarshalStruct
    exact hs
  | succ fuel ih =>
    intro d s hs
    unfold xml.Decoder.unmarshalStruct
    cases ht : d.Token with
    | error err => exact hs
    | ok r =>
      obtain ⟨t, d2⟩ := r
      cases t with
      | StartElement n a =>
        simp only
        have := (unmarshalPath_invariant fields uf P HP fuel).1 d2 s [] n hs
        cases hr : xml.Decoder.unmarshalPath fields uf fuel d2 s [] n with
        | mk s2 r2 =>
          rw [hr] at this
          cases r2 with
          | error err => exact this
          | ok p =>
            obtain ⟨b2, d3⟩ := p
            cases b2 with
            | true => exact ih d3 s2 this
            | false =>
              simp only
              cases hs : d3.Skip fuel 0 with
              | error err => exact this
              | ok d4 => exact ih d4 s2 this
      | EndElement n => exact hs
      | CharData t => exact ih d2 s hs
      | Comment t => exact ih d2 s hs
      | ProcInst t i => exact ih d2 s hs
      | Directive t => exact ih d2 s hs

theorem multistatus_unmarshalField_keeps (local_ : time.Location) (base : List Response)
    (f : MultistatusField) (start : xml.Name) (fuel : Nat) (d : xml.Decoder) (s : Multistatus)
    (h : ∃ more, s.Responses = base ++ more) :
    ∃ more, (Multistatus.unmarshalField local_ f start fuel d s).1.Responses = base ++ more := by
  obtain ⟨more, hm⟩ := h
  cases f with
  | Responses =>
    simp only [Multistatus.unmarshalField]
    cases hr : d.unmarshalStruct Response.typeInfo (Response.unmarshalField local_) fuel
        Response.zero with
    | mk r res =>
      cases res with
      | error err => exact ⟨more, hm⟩
      | ok d2 => exact ⟨more ++ [r], by simp only [hm, List.append_assoc]⟩

/-- Whatever the tokens, `xml.Unmarshal` takes no `Response` out of the
target. -/
theorem multistatus_unmarshal_keeps (local_ : time.Location) (toks : List xml.Token)
    (ms : Multistatus) :
    ∃ more, (Multistatus.Unmarshal local_ toks ms).1.Responses = ms.Responses ++ more := by
  unfold Multistatus.Unmarshal xml.Unmarshal
  cases hf : xml.Decoder.findStart (toks.length + 1) ⟨toks, []⟩ with
  | error err => exact ⟨[], by simp⟩
  | ok d =>
    simp only
    have := unmarshalStruct_invariant Multistatus.typeInfo (Multistatus.unmarshalField local_)
      (fun s => ∃ more, s.Responses = ms.Responses ++ more)
      (fun f start fuel d s hs => multistatus_unmarshalField_keeps local_ _ f start fuel d s hs)
      (2 * toks.length + 2) d ms ⟨[], by simp⟩
    cases hr : d.unmarshalStruct Multistatus.typeInfo (Multistatus.unmarshalField local_)
        (2 * toks.length + 2) ms with
    | mk s1 res =>
      rw [hr] at this
      cases res <;> exact this

/-! ## The fuel suffices -/

end api
